import Mathlib

/-!
# datapena: the news harvest of src/main.go

A shallow embedding of parseDate and scrapeData (with the Go library functions they
call: strings, regexp, time, sort) and the properties proved about them.
-/

namespace Datapena

/-! ## Data model (src/main.go, lines 41-67) -/

/-- NewsArticle struct: one scraped news record; every field is a Go string. -/
structure NewsArticle where
  Title : String
  Date : String
  Link : String
  Image : String
  User : String
  Tags : String
deriving DecidableEq, Repr

/-- BeritaData struct: the "berita" list. -/
structure BeritaData where
  Berita : List NewsArticle
deriving DecidableEq, Repr

/-- DapoData struct: the "dapo" part of the response data. -/
structure DapoData where
  Dapo : BeritaData
deriving DecidableEq, Repr

/-- Response struct: the JSON envelope scrapeData returns. -/
structure Response where
  Response : String
  Message : String
  ResponseTime : String
  Data : DapoData
deriving DecidableEq, Repr

/-- Go error values produced on the paths of parseDate: fmt.Errorf with a fixed text,
or the ParseError of package time (the text says which element was rejected). -/
inductive GoError where
  | errorf (msg : String)
  | parseError (problem : String)
deriving DecidableEq, Repr

/-! ## Package strings -/

namespace unicode

/-- unicode.IsSpace: the Latin-1 white space characters and the other code points
with the White_Space property. -/
def IsSpace (r : Char) : Bool :=
  let n := r.toNat
  n == 0x09 || n == 0x0A || n == 0x0B || n == 0x0C || n == 0x0D || n == 0x20 ||
  n == 0x85 || n == 0xA0 || n == 0x1680 || (0x2000 ≤ n && n ≤ 0x200A) ||
  n == 0x2028 || n == 0x2029 || n == 0x202F || n == 0x205F || n == 0x3000

end unicode

namespace strings

/-- strings.TrimSpace: the text without its leading and trailing white space. -/
def TrimSpace (s : List Char) : List Char :=
  ((s.dropWhile unicode.IsSpace).reverse.dropWhile unicode.IsSpace).reverse

/-- Loop of strings.ReplaceAll for a non-empty old text, scanning left to right:
skip counts the characters of the current occurrence of old still to be passed over. -/
def replaceFrom (old new : List Char) : Nat → List Char → List Char
  | _, [] => []
  | skip + 1, _ :: cs => replaceFrom old new skip cs
  | 0, c :: cs =>
    if old.isPrefixOf (c :: cs) then new ++ replaceFrom old new (old.length - 1) cs
    else c :: replaceFrom old new 0 cs

/-- strings.ReplaceAll(s, old, new) for a non-empty old: every non-overlapping
occurrence of old, found left to right, is replaced by new. -/
def ReplaceAll (s old new : List Char) : List Char :=
  replaceFrom old new 0 s

end strings

/-! ## Package regexp, for patterns that are a sequence of greedy repetitions of
character classes (leftmost-first matching, as Go's regexp does) -/

namespace regexp

/-- One item of a pattern: a character class repeated greedily between min and max
times (max none: unbounded), with or without a capture group around it. -/
structure Rep where
  cls : Char → Bool
  min : Nat
  max : Option Nat
  capture : Bool

/-- Class \d of Go's regexp syntax: [0-9]. -/
def perlDigit (c : Char) : Bool := 48 ≤ c.toNat && c.toNat ≤ 57

/-- Class \s of Go's regexp syntax: [\t\n\f\r ]. -/
def perlSpace (c : Char) : Bool :=
  c.toNat == 0x09 || c.toNat == 0x0A || c.toNat == 0x0C || c.toNat == 0x0D || c.toNat == 0x20

/-- Class [A-Za-z]. -/
def asciiLetter (c : Char) : Bool :=
  (65 ≤ c.toNat && c.toNat ≤ 90) || (97 ≤ c.toNat && c.toNat ≤ 122)

/-- Number of leading characters of s in the class, at most cap when a cap is given. -/
def spanLen (cls : Char → Bool) : Option Nat → List Char → Nat
  | some 0, _ => 0
  | _, [] => 0
  | some (cap + 1), c :: cs => if cls c then spanLen cls (some cap) cs + 1 else 0
  | none, c :: cs => if cls c then spanLen cls none cs + 1 else 0

/-- Greedy repetition with backtracking: try n repetitions, then n - 1, down to min,
and keep the first count for which the rest of the pattern (cont) matches.
The result is the captures and the length matched. -/
def tryCounts (cont : List Char → Option (List (List Char) × Nat)) (capture : Bool)
    (min : Nat) (s : List Char) : Nat → Option (List (List Char) × Nat)
  | 0 =>
    if min = 0 then
      (cont s).map fun r => (if capture then [] :: r.1 else r.1, r.2)
    else none
  | n + 1 =>
    if min ≤ n + 1 then
      match cont (s.drop (n + 1)) with
      | some r => some (if capture then s.take (n + 1) :: r.1 else r.1, n + 1 + r.2)
      | none => tryCounts cont capture min s n
    else none

/-- Match the pattern at the start of s. -/
def matchHere : List Rep → List Char → Option (List (List Char) × Nat)
  | [], _ => some ([], 0)
  | r :: rs, s => tryCounts (matchHere rs) r.capture r.min s (spanLen r.cls r.max s)

/-- Regexp.FindStringSubmatch: the leftmost match and its capture groups, as
[whole match, group 1, ...]; the empty list (nil) when there is no match. -/
def FindStringSubmatch (re : List Rep) : List Char → List (List Char)
  | [] =>
    match matchHere re [] with
    | some r => [] :: r.1
    | none => []
  | c :: cs =>
    match matchHere re (c :: cs) with
    | some r => (c :: cs).take r.2 :: r.1
    | none => FindStringSubmatch re cs

end regexp

/-! ## Package time -/

namespace time

/-- A time.Time in UTC with no sub-second part: the seconds elapsed since
January 1, year 1, 00:00:00 UTC, which is the value of the zero Time. -/
structure Time where
  sec : Int
deriving DecidableEq, Repr

/-- The zero value time.Time{}: January 1, year 1, 00:00:00 UTC. -/
def Time.zero : Time := ⟨0⟩

/-- Time.After: t is after u. -/
def Time.After (t u : Time) : Bool := decide (u.sec < t.sec)

/-- time.isLeap. -/
def isLeap (year : Nat) : Bool :=
  year % 4 == 0 && (year % 100 != 0 || year % 400 == 0)

/-- time.daysBefore: days of a non-leap year before the end of month m (index m). -/
def daysBefore : List Nat :=
  [0, 31, 59, 90, 120, 151, 181, 212, 243, 273, 304, 334, 365]

/-- time.daysIn, for a month number 1..12. -/
def daysIn (m year : Nat) : Nat :=
  if m = 2 ∧ isLeap year = true then 29
  else daysBefore.getD m 0 - daysBefore.getD (m - 1) 0

/-- Days from January 1 of year 0 to January 1 of the given year (proleptic
Gregorian calendar; year 0 is a leap year). -/
def daysToYear (year : Nat) : Nat :=
  365 * year + (year + 3) / 4 - (year + 99) / 100 + (year + 399) / 400

/-- time.Date(year, month, day, 0, 0, 0, 0, time.UTC) for a valid calendar date of a
year 0..9999: midnight UTC of that day. -/
def Date (year month day : Nat) : Time :=
  let days : Int := (daysToYear year : Int) - 366
    + (daysBefore.getD (month - 1) 0 : Int)
    + (if 2 < month ∧ isLeap year = true then 1 else 0)
    + ((day : Int) - 1)
  ⟨days * 86400⟩

/-- Value of a decimal digit character. -/
def digitVal (c : Char) : Nat := c.toNat - 48

/-- time.getnum: a one or two digit number at the start of s; with fixed, exactly two
digits are required. -/
def getnum (s : List Char) (fixed : Bool) : Option (Nat × List Char) :=
  match s with
  | [] => none
  | c0 :: rest0 =>
    if regexp.perlDigit c0 = false then none
    else
      match rest0 with
      | c1 :: rest1 =>
        if regexp.perlDigit c1 = true then some (digitVal c0 * 10 + digitVal c1, rest1)
        else if fixed then none else some (digitVal c0, rest0)
      | [] => if fixed then none else some (digitVal c0, rest0)

/-- time.skip for the layout text " ": the value must not start with another
character, and its leading spaces are cut. -/
def skipSpace (value : List Char) : Option (List Char) :=
  match value with
  | c :: _ => if c = ' ' then some (value.dropWhile (· == ' ')) else none
  | [] => some []

/-- time.longMonthNames. -/
def longMonthNames : List String :=
  ["January", "February", "March", "April", "May", "June", "July", "August",
   "September", "October", "November", "December"]

/-- time.match: s1 and s2, of the same length, are equal ignoring ASCII case. -/
def «match» : List Char → List Char → Bool
  | c1 :: s1, c2 :: s2 =>
    (c1 == c2 ||
      ((c1.toNat ||| 32) == (c2.toNat ||| 32) && 97 ≤ (c1.toNat ||| 32)
        && (c1.toNat ||| 32) ≤ 122))
    && «match» s1 s2
  | _, _ => true

/-- time.lookup: the index of the first name of tab that is a prefix of val ignoring
case, and the rest of val. -/
def lookup : List String → List Char → Nat → Option (Nat × List Char)
  | [], _, _ => none
  | v :: tab, val, i =>
    if v.length ≤ val.length ∧ «match» (val.take v.length) v.toList = true then
      some (i, val.drop v.length)
    else lookup tab val (i + 1)

/-- time.atoi on a text that starts with a digit: all characters must be digits. -/
def atoi (p : List Char) : Option Nat :=
  if p.all regexp.perlDigit then some (p.foldl (fun acc c => acc * 10 + digitVal c) 0)
  else none

/-- time.Parse("02 January 2006", value): a two-digit day, a space, a full English
month name (any case), a space, a four-digit year and nothing more; the day must
exist in that month. Every failure returns the zero Time and an error. -/
def Parse (value : List Char) : Time × Option GoError :=
  match getnum value true with
  | none => (Time.zero, some (.parseError "cannot parse day as 02"))
  | some (day, v1) =>
    match skipSpace v1 with
    | none => (Time.zero, some (.parseError "cannot parse separator"))
    | some v2 =>
      match lookup longMonthNames v2 0 with
      | none => (Time.zero, some (.parseError "cannot parse month as January"))
      | some (mi, v3) =>
        match skipSpace v3 with
        | none => (Time.zero, some (.parseError "cannot parse separator"))
        | some v4 =>
          if v4.length < 4 ∨ (v4.head?.map regexp.perlDigit).getD false = false then
            (Time.zero, some (.parseError "cannot parse year as 2006"))
          else
            match atoi (v4.take 4) with
            | none => (Time.zero, some (.parseError "cannot parse year as 2006"))
            | some year =>
              if (v4.drop 4).length ≠ 0 then
                (Time.zero, some (.parseError "extra text"))
              else if day < 1 ∨ daysIn (mi + 1) year < day then
                (Time.zero, some (.parseError "day out of range"))
              else (Date year (mi + 1) day, none)

end time

/-! ## parseDate (src/main.go, lines 275-303) -/

/-- The pattern (\d{1,2})\s([A-Za-z]+)\s(\d{4}). -/
def dateRe : List regexp.Rep :=
  [⟨regexp.perlDigit, 1, some 2, true⟩, ⟨regexp.perlSpace, 1, some 1, false⟩,
   ⟨regexp.asciiLetter, 1, none, true⟩, ⟨regexp.perlSpace, 1, some 1, false⟩,
   ⟨regexp.perlDigit, 4, some 4, true⟩]

/-- The text of dateStr after the trimming and the fourteen replacements of
parseDate (lines 277-291). -/
def cleanDate (dateStr : List Char) : List Char :=
  let s := strings.TrimSpace dateStr
  let s := strings.ReplaceAll s "Januari".toList "January".toList
  let s := strings.ReplaceAll s "Februari".toList "February".toList
  let s := strings.ReplaceAll s "Maret".toList "March".toList
  let s := strings.ReplaceAll s "April".toList "April".toList
  let s := strings.ReplaceAll s "Mei".toList "May".toList
  let s := strings.ReplaceAll s "Juni".toList "June".toList
  let s := strings.ReplaceAll s "Juli".toList "July".toList
  let s := strings.ReplaceAll s "Agustus".toList "August".toList
  let s := strings.ReplaceAll s "September".toList "September".toList
  let s := strings.ReplaceAll s "Oktober".toList "October".toList
  let s := strings.ReplaceAll s "November".toList "November".toList
  let s := strings.ReplaceAll s "Desember".toList "December".toList
  let s := strings.ReplaceAll s "|".toList "".toList
  strings.ReplaceAll s "&nbsp;".toList "".toList

/-- Function parseDate: the date of a scraped date text, or the zero Time and an error. -/
def parseDate (dateStr : String) : time.Time × Option GoError :=
  let «matches» := regexp.FindStringSubmatch dateRe (cleanDate dateStr.toList)
  if «matches».length ≠ 4 then
    (time.Time.zero, some (.errorf "invalid date format"))
  else
    let dateFormatted :=
      «matches».getD 1 [] ++ " ".toList ++ «matches».getD 2 [] ++ " ".toList
      ++ «matches».getD 3 []
    time.Parse dateFormatted

/-! ## Package sort: sort.Slice (pattern-defeating quicksort of sort/zsortfunc.go)

The slice is a list, an index pair is swapped with Swap and compared with Less, as
the lessSwap value of sort.Slice does. Every loop is a recursive function; loops
whose trip count is not a subterm carry a fuel argument that bounds it. -/

namespace bits

/-- Loop of bits.Len: the number of binary digits of n. -/
def lenAux : Nat → Nat → Nat
  | 0, _ => 0
  | fuel + 1, n => if n = 0 then 0 else lenAux fuel (n / 2) + 1

/-- bits.Len: the minimum number of bits required to represent n; 0 for n = 0. -/
def Len (n : Nat) : Nat := lenAux n n

end bits

namespace sort

variable {α : Type}

/-- Swap of lessSwap: exchange the elements at i and j (both inside the slice). -/
def Swap (data : List α) (i j : Nat) : List α :=
  match data[i]?, data[j]? with
  | some x, some y => (data.set i y).set j x
  | _, _ => data

/-- Less of lessSwap: the less closure at the indices i and j (both inside the slice). -/
def Less (lt : α → α → Bool) (data : List α) (i j : Nat) : Bool :=
  match data[i]?, data[j]? with
  | some x, some y => lt x y
  | _, _ => false

/-- sortedHint of package sort. -/
inductive sortedHint where
  | unknownHint
  | increasingHint
  | decreasingHint
deriving DecidableEq, Repr

/-- Inner loop of insertionSort_func: for j := i; j > a && Less(j, j-1); j-- Swap(j, j-1). -/
def insertionInner (lt : α → α → Bool) (a : Nat) : Nat → List α → List α
  | 0, data => data
  | j + 1, data =>
    if a < j + 1 ∧ Less lt data (j + 1) j = true then
      insertionInner lt a j (Swap data (j + 1) j)
    else data

/-- Outer loop of insertionSort_func: for i < b, insert data[i], then i++. -/
def insertionOuter (lt : α → α → Bool) (a b : Nat) : Nat → Nat → List α → List α
  | 0, _, data => data
  | fuel + 1, i, data =>
    if i < b then insertionOuter lt a b fuel (i + 1) (insertionInner lt a i data)
    else data

/-- Function insertionSort_func: sorts data[a:b] using insertion sort. -/
def insertionSort_func (lt : α → α → Bool) (data : List α) (a b : Nat) : List α :=
  insertionOuter lt a b (b - a) (a + 1) data

/-- Function siftDown_func: implements the heap property on data[lo:hi]; first is an
offset into the slice where the root of the heap lies. The argument after the fuel
is the loop variable root, lo at the call. -/
def siftDown_func (lt : α → α → Bool) (hi first : Nat) : Nat → Nat → List α → List α
  | 0, _, data => data
  | fuel + 1, root, data =>
    let child := 2 * root + 1
    if hi ≤ child then data
    else
      let child :=
        if child + 1 < hi ∧ Less lt data (first + child) (first + child + 1) = true then
          child + 1
        else child
      if Less lt data (first + root) (first + child) = false then data
      else siftDown_func lt hi first fuel child (Swap data (first + root) (first + child))

/-- First loop of heapSort_func, for i := (hi - 1) / 2; i >= 0; i--: the argument is
i + 1. -/
def heapBuild (lt : α → α → Bool) (hi first : Nat) : Nat → List α → List α
  | 0, data => data
  | i + 1, data => heapBuild lt hi first i (siftDown_func lt hi first hi i data)

/-- Second loop of heapSort_func, for i := hi - 1; i >= 0; i--: the argument is i + 1. -/
def heapPop (lt : α → α → Bool) (first : Nat) : Nat → List α → List α
  | 0, data => data
  | i + 1, data =>
    heapPop lt first i (siftDown_func lt i first i 0 (Swap data first (first + i)))

/-- Function heapSort_func: sorts data[a:b] with a heap. -/
def heapSort_func (lt : α → α → Bool) (data : List α) (a b : Nat) : List α :=
  let first := a
  let hi := b - a
  heapPop lt first hi (heapBuild lt hi first ((hi - 1) / 2 + 1) data)

/-- Loop for i <= j && Less(i, a): i++; the result is the final i. -/
def scanUpLess (lt : α → α → Bool) (data : List α) (a j : Nat) : Nat → Nat → Nat
  | 0, i => i
  | fuel + 1, i =>
    if i ≤ j ∧ Less lt data i a = true then scanUpLess lt data a j fuel (i + 1) else i

/-- Loop for i <= j && !Less(j, a): j--; the result is the final j (i is at least 1). -/
def scanDownNotLess (lt : α → α → Bool) (data : List α) (a i : Nat) : Nat → Nat
  | 0 => 0
  | j + 1 =>
    if i ≤ j + 1 ∧ Less lt data (j + 1) a = false then scanDownNotLess lt data a i j
    else j + 1

/-- Main loop of partition_func; the result is the slice and the final j. -/
def partitionLoop (lt : α → α → Bool) (a : Nat) : Nat → List α → Nat → Nat → List α × Nat
  | 0, data, _, j => (data, j)
  | fuel + 1, data, i, j =>
    let i := scanUpLess lt data a j (j + 1 - i) i
    let j := scanDownNotLess lt data a i j
    if j < i then (data, j)
    else partitionLoop lt a fuel (Swap data i j) (i + 1) (j - 1)

/-- Function partition_func: one quicksort partition of data[a:b] around
p = data[pivot]. On return data[newpivot] = p, the elements before newpivot are less
than p and those after it are not. Returns the slice, newpivot and
alreadyPartitioned. -/
def partition_func (lt : α → α → Bool) (data : List α) (a b pivot : Nat) :
    List α × Nat × Bool :=
  let data := Swap data a pivot
  let i := a + 1
  let j := b - 1
  let i := scanUpLess lt data a j (j + 1 - i) i
  let j := scanDownNotLess lt data a i j
  if j < i then (Swap data j a, j, true)
  else
    let data := Swap data i j
    let r := partitionLoop lt a (b - a) data (i + 1) (j - 1)
    (Swap r.1 r.2 a, r.2, false)

/-- Loop for i <= j && !Less(a, i): i++. -/
def scanUpNotGreater (lt : α → α → Bool) (data : List α) (a j : Nat) : Nat → Nat → Nat
  | 0, i => i
  | fuel + 1, i =>
    if i ≤ j ∧ Less lt data a i = false then scanUpNotGreater lt data a j fuel (i + 1)
    else i

/-- Loop for i <= j && Less(a, j): j--. -/
def scanDownGreater (lt : α → α → Bool) (data : List α) (a i : Nat) : Nat → Nat
  | 0 => 0
  | j + 1 =>
    if i ≤ j + 1 ∧ Less lt data a (j + 1) = true then scanDownGreater lt data a i j
    else j + 1

/-- Loop of partitionEqual_func; the result is the slice and the final i. -/
def partitionEqualLoop (lt : α → α → Bool) (a : Nat) :
    Nat → List α → Nat → Nat → List α × Nat
  | 0, data, i, _ => (data, i)
  | fuel + 1, data, i, j =>
    let i := scanUpNotGreater lt data a j (j + 1 - i) i
    let j := scanDownGreater lt data a i j
    if j < i then (data, i)
    else partitionEqualLoop lt a fuel (Swap data i j) (i + 1) (j - 1)

/-- Function partitionEqual_func: partitions data[a:b] into elements equal to
data[pivot] followed by elements greater than data[pivot]; it assumes that data[a:b]
has no element smaller than data[pivot]. Returns the slice and newpivot. -/
def partitionEqual_func (lt : α → α → Bool) (data : List α) (a b pivot : Nat) :
    List α × Nat :=
  let data := Swap data a pivot
  partitionEqualLoop lt a (b - a + 1) data (a + 1) (b - 1)

/-- Loop for i < b && !Less(i, i-1): i++ of partialInsertionSort_func. -/
def scanSorted (lt : α → α → Bool) (data : List α) (b : Nat) : Nat → Nat → Nat
  | 0, i => i
  | fuel + 1, i =>
    if i < b ∧ Less lt data i (i - 1) = false then scanSorted lt data b fuel (i + 1) else i

/-- Loop shifting the smaller element to the left: for j := i - 1; j >= 1; j--, stop
when !Less(j, j-1), else Swap(j, j-1). The argument is j. -/
def shiftSmaller (lt : α → α → Bool) : Nat → List α → List α
  | 0, data => data
  | j + 1, data =>
    if Less lt data (j + 1) j = false then data
    else shiftSmaller lt j (Swap data (j + 1) j)

/-- Loop shifting the greater element to the right: for j := i + 1; j < b; j++, stop
when !Less(j, j-1), else Swap(j, j-1). -/
def shiftGreater (lt : α → α → Bool) (b : Nat) : Nat → Nat → List α → List α
  | 0, _, data => data
  | fuel + 1, j, data =>
    if j < b then
      if Less lt data j (j - 1) = false then data
      else shiftGreater lt b fuel (j + 1) (Swap data j (j - 1))
    else data

/-- Loop for j := 0; j < maxSteps; j++ of partialInsertionSort_func: the first
argument is the number of steps left, the second the variable i. -/
def partialSteps (lt : α → α → Bool) (a b : Nat) : Nat → Nat → List α → List α × Bool
  | 0, _, data => (data, false)
  | steps + 1, i, data =>
    let i := scanSorted lt data b (b - i) i
    if i = b then (data, true)
    else if b - a < 50 then (data, false)
    else
      let data := Swap data i (i - 1)
      let data := if 2 ≤ i - a then shiftSmaller lt (i - 1) data else data
      let data := if 2 ≤ b - i then shiftGreater lt b (b - i) (i + 1) data else data
      partialSteps lt a b steps i data

/-- Function partialInsertionSort_func: partially sorts data[a:b]; returns the slice
and true if it is sorted at the end (maxSteps = 5, shortestShifting = 50). -/
def partialInsertionSort_func (lt : α → α → Bool) (data : List α) (a b : Nat) :
    List α × Bool :=
  partialSteps lt a b 5 (a + 1) data

/-- Method Next of xorshift, on 64-bit unsigned integers. -/
def xorshiftNext (r : Nat) : Nat :=
  let r := r ^^^ ((r <<< 13) % 2 ^ 64)
  let r := r ^^^ (r >>> 7)
  r ^^^ ((r <<< 17) % 2 ^ 64)

/-- Function nextPowerOfTwo: 1 << bits.Len(length). -/
def nextPowerOfTwo (length : Nat) : Nat := (1 <<< bits.Len length) % 2 ^ 64

/-- Loop for i := 0; i < 3; i++ of breakPatterns_func: the first argument is the
number of rounds left. -/
def breakLoop (a length modulus idx : Nat) : Nat → Nat → Nat → List α → List α
  | 0, _, _, data => data
  | n + 1, i, random, data =>
    let random := xorshiftNext random
    let other := random &&& (modulus - 1)
    let other := if length ≤ other then other - length else other
    breakLoop a length modulus idx n (i + 1) random (Swap data (idx + i) (a + other))

/-- Function breakPatterns_func: scatters three elements around the middle of
data[a:b]: those at a + (length/4)*2 - 1 and the two positions after it are
exchanged with pseudo-random positions of the range. It only changes the order in
which records with equal keys come out. -/
def breakPatterns_func (data : List α) (a b : Nat) : List α :=
  let length := b - a
  if 8 ≤ length then
    let random := length
    let modulus := nextPowerOfTwo length
    let idx := a + (length / 4) * 2 - 1
    breakLoop a length modulus idx 3 0 random data
  else data

/-- Function order2_func: returns x, y with data[x] <= data[y], where x, y = a, b or
b, a, and the updated count of swaps. -/
def order2_func (lt : α → α → Bool) (data : List α) (a b swaps : Nat) : Nat × Nat × Nat :=
  if Less lt data b a = true then (b, a, swaps + 1) else (a, b, swaps)

/-- Function median_func: returns x where data[x] is the median of data[a], data[b],
data[c], and the updated count of swaps. -/
def median_func (lt : α → α → Bool) (data : List α) (a b c swaps : Nat) : Nat × Nat :=
  let r1 := order2_func lt data a b swaps
  let r2 := order2_func lt data r1.2.1 c r1.2.2
  let r3 := order2_func lt data r1.1 r2.1 r2.2.2
  (r3.2.1, r3.2.2)

/-- Function medianAdjacent_func: the median of data[a - 1], data[a], data[a + 1]. -/
def medianAdjacent_func (lt : α → α → Bool) (data : List α) (a swaps : Nat) : Nat × Nat :=
  median_func lt data (a - 1) a (a + 1) swaps

/-- Function choosePivot_func: chooses a pivot in data[a:b] (shortestNinther = 50,
maxSwaps = 12). -/
def choosePivot_func (lt : α → α → Bool) (data : List α) (a b : Nat) : Nat × sortedHint :=
  let l := b - a
  let i := a + l / 4 * 1
  let j := a + l / 4 * 2
  let k := a + l / 4 * 3
  let r :=
    if 8 ≤ l then
      if 50 ≤ l then
        let ri := medianAdjacent_func lt data i 0
        let rj := medianAdjacent_func lt data j ri.2
        let rk := medianAdjacent_func lt data k rj.2
        median_func lt data ri.1 rj.1 rk.1 rk.2
      else median_func lt data i j k 0
    else (j, 0)
  if r.2 = 0 then (r.1, .increasingHint)
  else if r.2 = 12 then (r.1, .decreasingHint)
  else (r.1, .unknownHint)

/-- Loop of reverseRange_func: for i < j, Swap(i, j), i++, j--. -/
def reverseLoop : Nat → Nat → Nat → List α → List α
  | 0, _, _, data => data
  | fuel + 1, i, j, data =>
    if i < j then reverseLoop fuel (i + 1) (j - 1) (Swap data i j) else data

/-- Function reverseRange_func: reverses data[a:b]. -/
def reverseRange_func (data : List α) (a b : Nat) : List α :=
  reverseLoop (b - a) a (b - 1) data

/-- Function pdqsort_func: sorts data[a:b]; limit is the number of allowed bad pivot
choices before falling back to heapsort. One unfolding is one iteration of the
for loop, whose variables are a, b, limit, wasBalanced and wasPartitioned
(maxInsertion = 12). -/
def pdqsort_func (lt : α → α → Bool) :
    Nat → List α → Nat → Nat → Nat → Bool → Bool → List α
  | 0, data, _, _, _, _, _ => data
  | fuel + 1, data, a, b, limit, wasBalanced, wasPartitioned =>
    let length := b - a
    if length ≤ 12 then insertionSort_func lt data a b
    else if limit = 0 then heapSort_func lt data a b
    else
      let data := if wasBalanced = false then breakPatterns_func data a b else data
      let limit := if wasBalanced = false then limit - 1 else limit
      let ph := choosePivot_func lt data a b
      let data := if ph.2 = .decreasingHint then reverseRange_func data a b else data
      let pivot := if ph.2 = .decreasingHint then (b - 1) - (ph.1 - a) else ph.1
      let hint := if ph.2 = .decreasingHint then sortedHint.increasingHint else ph.2
      let tryPartial := wasBalanced && wasPartitioned && decide (hint = .increasingHint)
      let pis := if tryPartial then partialInsertionSort_func lt data a b else (data, false)
      if tryPartial && pis.2 then pis.1
      else
        let data := pis.1
        if 0 < a ∧ Less lt data (a - 1) pivot = false then
          let pe := partitionEqual_func lt data a b pivot
          pdqsort_func lt fuel pe.1 pe.2 b limit wasBalanced wasPartitioned
        else
          let pt := partition_func lt data a b pivot
          let mid := pt.2.1
          let leftLen := mid - a
          let rightLen := b - mid
          let balanceThreshold := length / 8
          if leftLen < rightLen then
            let data := pdqsort_func lt fuel pt.1 a mid limit true true
            pdqsort_func lt fuel data (mid + 1) b limit
              (decide (balanceThreshold ≤ leftLen)) pt.2.2
          else
            let data := pdqsort_func lt fuel pt.1 (mid + 1) b limit true true
            pdqsort_func lt fuel data a mid limit
              (decide (balanceThreshold ≤ rightLen)) pt.2.2

/-- sort.Slice: sorts the slice given the less function, comparing elements. -/
def Slice (x : List α) (less : α → α → Bool) : List α :=
  let length := x.length
  let limit := bits.Len length
  pdqsort_func less (length + 1) x 0 length limit true true

end sort

/-! ## The tail of scrapeData (src/main.go, lines 210-232) -/

/-- The less closure of scrapeData's sort.Slice call (lines 211-215): parse both
dates, drop the errors, and compare with After. -/
def dateLess (x y : NewsArticle) : Bool :=
  (parseDate x.Date).1.After (parseDate y.Date).1

/-- Lines 210-232 of scrapeData, run on the collected articles with no append of
the collector in between: sort by date, newest first; no article gives the 404
response; else the 200 response, whose ResponseTime is the elapsed milliseconds
followed by " ms". The error is nil on both paths. The transition system of
scrapeData below takes these lines one read of articles at a time. -/
def finalize (elapsedMs : Nat) (articles : List NewsArticle) : Response × Option GoError :=
  let articles := sort.Slice articles dateLess
  if articles.length = 0 then
    (⟨"404", "No data found", "", ⟨⟨[]⟩⟩⟩, none)
  else
    (⟨"200", "success", toString elapsedMs ++ " ms", ⟨⟨articles⟩⟩⟩, none)

/-! ## Predicates used to state what the sort does -/

namespace sort

variable {α : Type}

/-- The sort key of the element at index i (0 outside the slice). -/
def kAt (key : α → Int) (data : List α) (i : Nat) : Int :=
  match data[i]? with
  | some x => key x
  | none => 0

/-- The keys of data[a:b] are in non-decreasing order. -/
def SortedOn (key : α → Int) (data : List α) (a b : Nat) : Prop :=
  ∀ i j, a ≤ i → i ≤ j → j < b → kAt key data i ≤ kAt key data j

/-- The second slice is reached from the first by swaps of positions inside [a, b). -/
inductive SwapsIn (a b : Nat) : List α → List α → Prop where
  | refl (data : List α) : SwapsIn a b data data
  | step {data d1 : List α} (i j : Nat) : SwapsIn a b data d1 → a ≤ i → i < b → a ≤ j →
      j < b → b ≤ d1.length → SwapsIn a b data (Swap d1 i j)

/-- The element before data[a:b], when there is one, has no larger key than any
element of data[a:b]. -/
def LowerBound (key : α → Int) (data : List α) (a b : Nat) : Prop :=
  a = 0 ∨ ∀ k, a ≤ k → k < b → kAt key data (a - 1) ≤ kAt key data k

/-- Max-heap property of the implicit binary tree stored at data[first : first + hi],
for the nodes from lo on: no child has a larger key than its parent. -/
def HeapFrom (key : α → Int) (data : List α) (first lo hi : Nat) : Prop :=
  ∀ p c, lo ≤ p → (c = 2 * p + 1 ∨ c = 2 * p + 2) → c < hi →
    kAt key data (first + c) ≤ kAt key data (first + p)

/-- The child that siftDown_func compares with the root: the right child when it
exists and the left child is less than it, else the left child. -/
def bigChild (lt : α → α → Bool) (hi first root : Nat) (data : List α) : Nat :=
  if 2 * root + 1 + 1 < hi ∧ Less lt data (first + (2 * root + 1)) (first + (2 * root + 1) + 1) = true
  then 2 * root + 1 + 1
  else 2 * root + 1

end sort

/-- The sort key of an article under dateLess: the negated seconds of its parsed
date (the zero Time when the date does not parse), so that newest comes first. -/
def dateKey (x : NewsArticle) : Int := -(parseDate x.Date).1.sec

/-! ## scrapeData (src/main.go, lines 170-233)

The goroutines of scrapeData are a transition system: the main goroutine, one page
goroutine for each page number, and the collector goroutine of lines 181-185. A
schedule is the order in which they take their steps. The collector is not joined
by wg.Wait(), so its append can fall between any two of the three reads of articles
the main goroutine makes after it (lines 211, 217, 231): these are separate steps.
The call of sort.Slice itself is one step. -/

/-- Result of scrapePage: the articles and the error. -/
abbrev PageResult := List NewsArticle × Option GoError

/-- Program point of the goroutine of one page (lines 192-201). -/
inductive TaskState where
  /-- The go statement for this page has not run. -/
  | notStarted
  /-- Started; scrapePage is not yet called. -/
  | running
  /-- Blocked at articleChannel <- pageArticles (line 199). -/
  | sending (pageArticles : List NewsArticle)
  /-- The function body is over; the deferred receive from sem is next. -/
  | releasing
  /-- The permit is released; the deferred wg.Done() is next. -/
  | finishing
  /-- The goroutine has ended. -/
  | done
deriving DecidableEq, Repr

/-- The task holds a permit of sem: it was started and has not run its deferred
receive from sem. -/
def TaskState.holdsPermit : TaskState → Bool
  | .running => true
  | .sending _ => true
  | .releasing => true
  | _ => false

/-- Program point of the main goroutine. -/
inductive MainPc where
  /-- At the loop test page <= maxPages (line 188). -/
  | loop
  /-- After wg.Add(1), at sem <- struct{}{} (line 190). -/
  | acquire
  /-- Holding the new permit, at the go statement and page++ (lines 192-203). -/
  | spawn
  /-- At wg.Wait() (line 207). -/
  | wait
  /-- At close(articleChannel) (line 208). -/
  | close
  /-- At sort.Slice (line 211), which reads articles and sorts the slice it finds. -/
  | tail
  /-- At the test len(articles) == 0 (line 217), which reads articles again. -/
  | test
  /-- At the return statement of line 218. -/
  | noData
  /-- At lines 222-232, which read articles once more for the response. -/
  | respond
  /-- After the return statement. -/
  | returned
deriving DecidableEq, Repr

/-- The variables of scrapeData and the program points of its goroutines. -/
structure State where
  pc : MainPc
  page : Nat
  /-- Number of permits in the buffered channel sem. -/
  sem : Nat
  /-- Counter of the WaitGroup wg. -/
  wg : Nat
  /-- Whether articleChannel is closed. -/
  closed : Bool
  tasks : Nat → TaskState
  /-- The value the collector has received from articleChannel and not yet
  appended (none: the collector waits at the receive of line 182). -/
  received : Option (List NewsArticle)
  articles : List NewsArticle
  /-- The URLs passed to scrapePage so far, in call order. -/
  visited : List String
  /-- The values returned by scrapeData, once it has returned. -/
  result : Option (Response × Option GoError)

/-- One step of one goroutine. -/
inductive Action where
  /-- The main goroutine runs its next statement. -/
  | main
  /-- The goroutine of page n calls scrapePage (lines 196-198). -/
  | visit (n : Nat)
  /-- The send of page n's goroutine meets the receive of the collector (lines 199, 182). -/
  | send (n : Nat)
  /-- The goroutine of page n runs its deferred receive from sem (line 194). -/
  | release (n : Nat)
  /-- The goroutine of page n runs its deferred wg.Done() (line 193). -/
  | done (n : Nat)
  /-- The collector appends the value it received to articles (line 183). -/
  | append
deriving DecidableEq, Repr

/-- The state with the goroutine of page n at a new program point. -/
def setTask (tasks : Nat → TaskState) (n : Nat) (t : TaskState) : Nat → TaskState :=
  fun k => if k = n then t else tasks k

/-- The URL of a page: fmt.Sprintf("%s/laman/%d", baseUrl, page) (line 196). -/
def pageUrl (baseUrl : String) (page : Nat) : String :=
  baseUrl ++ "/laman/" ++ toString page

/-- State of scrapeData when the loop of line 188 is reached: page is 1, nothing is
started, the collector waits to receive. -/
def initState : State :=
  { pc := .loop, page := 1, sem := 0, wg := 0, closed := false,
    tasks := fun _ => .notStarted, received := none, articles := [], visited := [],
    result := none }

/-- The response of line 218: no data found. -/
def noDataResponse : Response := ⟨"404", "No data found", "", ⟨⟨[]⟩⟩⟩

/-- The values returned at lines 227-232 for the articles found in the variable at
that moment: Response "200", Message "success", the elapsed milliseconds followed by
" ms", and a nil error. -/
def success (elapsedMs : Nat) (articles : List NewsArticle) : Response × Option GoError :=
  (⟨"200", "success", toString elapsedMs ++ " ms", ⟨⟨articles⟩⟩⟩, none)

/-- One step of scrapeData with the constants maxPages and concurrentLimit, the
function scrapePage and the measured response time as parameters; none when the
goroutine cannot take that step in this state (it is blocked, or not there). -/
def step (maxPages concurrentLimit : Nat) (baseUrl : String)
    (scrapePage : String → PageResult) (elapsedMs : Nat) : Action → State → Option State
  | .main, s =>
    match s.pc with
    | .loop =>
      if s.page ≤ maxPages then some { s with wg := s.wg + 1, pc := .acquire }
      else some { s with pc := .wait }
    | .acquire =>
      if s.sem < concurrentLimit then some { s with sem := s.sem + 1, pc := .spawn }
      else none
    | .spawn =>
      some { s with tasks := setTask s.tasks s.page .running, page := s.page + 1, pc := .loop }
    | .wait => if s.wg = 0 then some { s with pc := .close } else none
    | .close => some { s with closed := true, pc := .tail }
    | .tail => some { s with articles := sort.Slice s.articles dateLess, pc := .test }
    | .test =>
      if s.articles.length = 0 then some { s with pc := .noData }
      else some { s with pc := .respond }
    | .noData => some { s with result := some (noDataResponse, none), pc := .returned }
    | .respond =>
      some { s with result := some (success elapsedMs s.articles), pc := .returned }
    | .returned => none
  | .visit n, s =>
    match s.tasks n with
    | .running =>
      let url := pageUrl baseUrl n
      let r := scrapePage url
      some { s with
        visited := s.visited ++ [url],
        tasks := setTask s.tasks n
          (if r.2 = none ∧ 0 < r.1.length then .sending r.1 else .releasing) }
    | _ => none
  | .send n, s =>
    match s.tasks n, s.received with
    | .sending pageArticles, none =>
      if s.closed then none
      else some { s with received := some pageArticles, tasks := setTask s.tasks n .releasing }
    | _, _ => none
  | .release n, s =>
    match s.tasks n with
    | .releasing => some { s with sem := s.sem - 1, tasks := setTask s.tasks n .finishing }
    | _ => none
  | .done n, s =>
    match s.tasks n with
    | .finishing => some { s with wg := s.wg - 1, tasks := setTask s.tasks n .done }
    | _ => none
  | .append, s =>
    match s.received with
    | some pageArticles =>
      some { s with articles := s.articles ++ pageArticles, received := none }
    | none => none

/-- The state after the steps of a schedule, none if one of them cannot be taken. -/
def run (maxPages concurrentLimit : Nat) (baseUrl : String)
    (scrapePage : String → PageResult) (elapsedMs : Nat) : List Action → State → Option State
  | [], s => some s
  | a :: rest, s =>
    match step maxPages concurrentLimit baseUrl scrapePage elapsedMs a s with
    | some s' => run maxPages concurrentLimit baseUrl scrapePage elapsedMs rest s'
    | none => none

/-- The states scrapeData can be in: those a schedule leads to, with maxPages = 50
and concurrentLimit = 50 (lines 176-177). -/
def Reachable (baseUrl : String) (scrapePage : String → PageResult) (elapsedMs : Nat)
    (s : State) : Prop :=
  ∃ schedule, run 50 50 baseUrl scrapePage elapsedMs schedule initState = some s

/-- Function scrapeData under a schedule of its goroutines: what it returns, none if
the schedule is not one of its executions or stops before the return. -/
def scrapeData (baseUrl : String) (scrapePage : String → PageResult) (elapsedMs : Nat)
    (schedule : List Action) : Option (Response × Option GoError) :=
  match run 50 50 baseUrl scrapePage elapsedMs schedule initState with
  | some s => s.result
  | none => none

/-- Number of tasks among the pages below n that hold a permit. -/
def countHolders (tasks : Nat → TaskState) : Nat → Nat
  | 0 => 0
  | n + 1 => countHolders tasks n + (if (tasks n).holdsPermit = true then 1 else 0)

/-- The task was started and has not yet run wg.Done(). -/
def TaskState.active : TaskState → Bool
  | .notStarted => false
  | .done => false
  | _ => true

/-- Number of tasks among the pages below n that were started and have not yet run
wg.Done(). -/
def countActive (tasks : Nat → TaskState) : Nat → Nat
  | 0 => 0
  | n + 1 => countActive tasks n + (if (tasks n).active = true then 1 else 0)

/-- Number of page tasks in flight: started, permit not yet released. -/
def inFlight (s : State) : Nat := countHolders s.tasks 51

/-- The steps of the goroutine of a page that sends nothing (error or empty result),
run without interruption after the main goroutine started it. -/
def quietPage (n : Nat) : List Action :=
  [.main, .main, .main, .visit n, .release n, .done n]

/-- The steps of the goroutine of a page that sends its articles, run without
interruption after the main goroutine started it; the collector appends at once when
appendNow is true. -/
def sendingPage (n : Nat) (appendNow : Bool) : List Action :=
  [.main, .main, .main, .visit n, .send n] ++ (if appendNow then [.append] else [])
    ++ [.release n, .done n]

/-- The steps of the pages from first on, count of them, each quiet. -/
def quietPages : Nat → Nat → List Action
  | _, 0 => []
  | first, count + 1 => quietPage first ++ quietPages (first + 1) count

/-- The last steps of the main goroutine: leave the loop, pass wg.Wait(), close the
channel, sort, test the length and return. -/
def mainTail : List Action := [.main, .main, .main, .main, .main, .main]

/-- What holds in every state scrapeData reaches, for any maxPages and
concurrentLimit: the permits in sem are those of the tasks in flight, plus the one
the main goroutine holds between its send to sem and the go statement; the
WaitGroup counts the tasks not yet done; pages are started in order. -/
structure Inv (maxPages concurrentLimit : Nat) (s : State) : Prop where
  sem_le : s.sem ≤ concurrentLimit
  sem_eq : s.sem = countHolders s.tasks (maxPages + 1) + (if s.pc = .spawn then 1 else 0)
  wg_eq : s.wg = countActive s.tasks (maxPages + 1)
    + (if s.pc = .acquire ∨ s.pc = .spawn then 1 else 0)
  idle : ∀ n, s.page ≤ n → s.tasks n = .notStarted
  idle0 : s.tasks 0 = .notStarted
  started : ∀ n, 1 ≤ n → n < s.page → s.tasks n ≠ .notStarted
  page_pos : 1 ≤ s.page
  page_le : s.page ≤ maxPages + 1
  pc_page : (s.pc = .loop ∨ s.pc = .acquire ∨ s.pc = .spawn) ∨ s.page = maxPages + 1
  pc_inloop : (s.pc = .acquire ∨ s.pc = .spawn) → s.page ≤ maxPages
  joined : (s.pc = .close ∨ s.pc = .tail ∨ s.pc = .test ∨ s.pc = .noData ∨ s.pc = .respond
      ∨ s.pc = .returned) →
    ∀ n, 1 ≤ n → n ≤ maxPages → s.tasks n = .done

/-- The base URL the handler passes to scrapeData (line 307). -/
def beritaUrl : String := "https://dapo.kemdikbud.go.id/berita"

/-- A scrapePage for which every page is empty, without error. -/
def emptySite : String → PageResult := fun _ => ([], none)

/-- A scrapePage for which page 1 has one article and every other page is empty. -/
def onePageSite : String → PageResult := fun url =>
  if url = "https://dapo.kemdikbud.go.id/berita/laman/1" then
    ([⟨"a", "10 Februari 2024", "", "", "", ""⟩], none)
  else ([], none)

/-- The scrapePage of the three-page scenario: page 1 has one record dated
"5 Januari 2024", page 3 has one dated "10 Februari 2024" and one dated "N/A",
every other page is empty. -/
def scenarioSite : String → PageResult := fun url =>
  if url = "https://dapo.kemdikbud.go.id/berita/laman/1" then
    ([⟨"jan", "5 Januari 2024", "", "", "", ""⟩], none)
  else if url = "https://dapo.kemdikbud.go.id/berita/laman/3" then
    ([⟨"feb", "10 Februari 2024", "", "", "", ""⟩, ⟨"na", "N/A", "", "", "", ""⟩], none)
  else ([], none)

/-- A schedule of the three-page scenario in which the result of page 3 reaches the
collector before the result of page 1: page 1 is started and left waiting, page 2
and page 3 run to their end, then page 1, then the pages 4 to 50. -/
def page3FirstSchedule : List Action :=
  [.main, .main, .main] ++ quietPage 2 ++ sendingPage 3 true
    ++ [.visit 1, .send 1, .append, .release 1, .done 1] ++ quietPages 4 47 ++ mainTail

/-- A schedule in which the goroutine of page 1 sends its articles and ends, the
pages 2 to 50 run to their end, and the main goroutine passes wg.Wait(), sorts and
returns before the collector has run its append. -/
def lateAppendSchedule : List Action :=
  sendingPage 1 false ++ quietPages 2 49 ++ mainTail

/-- A schedule in which the 50 pages run one after the other, each to its end, and
the main goroutine then returns. -/
def sequentialSchedule : List Action := quietPages 1 50 ++ mainTail

/-- What holds in every state scrapeData reaches when no page contributes a record
(scrapePage gives an error or no article for every URL): nothing is sent, received
or collected, the main goroutine never reaches lines 222-232, and a returned
response is the 404 one with a nil error. -/
structure QuietInv (s : State) : Prop where
  articles_nil : s.articles = []
  received_none : s.received = none
  no_send : ∀ n pageArticles, s.tasks n ≠ .sending pageArticles
  not_respond : s.pc ≠ .respond
  result_nodata : s.result = none ∨ s.result = some (noDataResponse, none)

/-! ## Definitions used to state what parseDate does -/

/-- The fourteen replacements of parseDate (lines 278-291), in order. -/
def replacements : List (String × String) :=
  [("Januari", "January"), ("Februari", "February"), ("Maret", "March"), ("April", "April"),
   ("Mei", "May"), ("Juni", "June"), ("Juli", "July"), ("Agustus", "August"),
   ("September", "September"), ("Oktober", "October"), ("November", "November"),
   ("Desember", "December"), ("|", ""), ("&nbsp;", "")]

/-- The replacements of a table applied one after the other. -/
def applyReplacements (table : List (String × String)) (s : List Char) : List Char :=
  table.foldl (fun acc p => strings.ReplaceAll acc p.1.toList p.2.toList) s

/-- The Indonesian month names of the table of parseDate, with their month numbers. -/
def monthTable : List (String × Nat) :=
  [("Januari", 1), ("Februari", 2), ("Maret", 3), ("April", 4), ("Mei", 5), ("Juni", 6),
   ("Juli", 7), ("Agustus", 8), ("September", 9), ("Oktober", 10), ("November", 11),
   ("Desember", 12)]

/-- The text "dd month yyyy": two day characters, a space, the month name, a space
and four year characters. -/
def dateText (d1 d2 : Char) (month : List Char) (y1 y2 y3 y4 : Char) : List Char :=
  d1 :: d2 :: ' ' :: (month ++ ' ' :: y1 :: y2 :: y3 :: [y4])

/-- Noise around a date: any sequence of white space characters, "|" and "&nbsp;". -/
inductive Noise : List Char → Prop where
  | nil : Noise []
  | space (c : Char) (t : List Char) : unicode.IsSpace c = true → Noise t → Noise (c :: t)
  | bar (t : List Char) : Noise t → Noise ('|' :: t)
  | nbsp (t : List Char) : Noise t → Noise ('&' :: 'n' :: 'b' :: 's' :: 'p' :: ';' :: t)

/-- The number a two-character day text stands for. -/
def dayOf (d1 d2 : Char) : Nat := time.digitVal d1 * 10 + time.digitVal d2

/-- The number a four-character year text stands for. -/
def yearOf (y1 y2 y3 y4 : Char) : Nat :=
  ((time.digitVal y1 * 10 + time.digitVal y2) * 10 + time.digitVal y3) * 10 + time.digitVal y4

/-! The calendar, counted day by day, to say which instant a date names. -/

/-- Number of days of year y in the Gregorian calendar: a leap year has 366, and a
year is a leap year when it is a multiple of 400, or a multiple of 4 and not of 100. -/
def yearLength (y : Nat) : Nat :=
  if y % 400 = 0 then 366 else if y % 100 = 0 then 365 else if y % 4 = 0 then 366 else 365

/-- Number of days of month m (1 for January) of year y. -/
def monthLength (y m : Nat) : Nat :=
  match m with
  | 2 => if yearLength y = 366 then 29 else 28
  | 4 => 30
  | 6 => 30
  | 9 => 30
  | 11 => 30
  | _ => 31

/-- Number of days of the years 0 to y - 1, added up year by year. -/
def daysOfYears : Nat → Nat
  | 0 => 0
  | y + 1 => daysOfYears y + yearLength y

/-- Number of days of the months 1 to m of year y, added up month by month. -/
def daysOfMonths (y : Nat) : Nat → Nat
  | 0 => 0
  | m + 1 => daysOfMonths y m + monthLength y (m + 1)

/-- Seconds from 1 January of year 1, 00:00:00 UTC (the zero Time) to day d of month m
of year y, 00:00:00 UTC: 86400 for each day in between, the days counted from
1 January of year 0 less the 366 days of year 0. -/
def midnightSeconds (y m d : Nat) : Int :=
  (((daysOfYears y + daysOfMonths y (m - 1) + (d - 1) : Nat) : Int) - 366) * 86400

/-- The texts a and b have the same length and are equal ignoring ASCII case. -/
def equalFold (a b : List Char) : Bool :=
  decide (a.length = b.length) && time.match a b

/-- Number of matches of the pattern in s, found left to right without overlap
(what Regexp.FindAllString would list); the second argument counts the characters
of the current match still to be passed over. -/
def matchCount (re : List regexp.Rep) : List Char → Nat → Nat
  | [], _ => 0
  | _ :: cs, skip + 1 => matchCount re cs skip
  | c :: cs, 0 =>
    match regexp.matchHere re (c :: cs) with
    | some r => matchCount re cs (r.2 - 1) + 1
    | none => matchCount re cs 0

/-- The number a text of decimal digits stands for. -/
def numOf (ds : List Char) : Nat := ds.foldl (fun acc c => acc * 10 + time.digitVal c) 0

/-- What the three groups of a match of the date pattern look like: one or two digits,
one or more ASCII letters, four digits. -/
def GroupShape (d m y : List Char) : Prop :=
  (d.length = 1 ∨ d.length = 2) ∧ (∀ x ∈ d, regexp.perlDigit x = true) ∧ m ≠ [] ∧
  (∀ x ∈ m, regexp.asciiLetter x = true) ∧ y.length = 4 ∧ (∀ x ∈ y, regexp.perlDigit x = true)

/-! ## Definitions used to state what scrapeData collects -/

/-- The articles page n contributes: the result of scrapePage for its URL when the
error is nil (line 198), nothing otherwise. -/
def contribution (baseUrl : String) (scrapePage : String → PageResult) (n : Nat) :
    List NewsArticle :=
  if (scrapePage (pageUrl baseUrl n)).2 = none then (scrapePage (pageUrl baseUrl n)).1 else []

/-- Concatenation of the lists given for the pages 1 to count, in page order. -/
def concatPages {α : Type} (f : Nat → List α) : Nat → List α
  | 0 => []
  | count + 1 => concatPages f count ++ f (count + 1)

/-- The articles of page n that have not reached the collector: its contribution
while scrapePage is not yet called, the value being sent while the goroutine is
blocked at the send, nothing afterwards. -/
def pending (baseUrl : String) (scrapePage : String → PageResult) (tasks : Nat → TaskState)
    (n : Nat) : List NewsArticle :=
  match tasks n with
  | .notStarted => contribution baseUrl scrapePage n
  | .running => contribution baseUrl scrapePage n
  | .sending pageArticles => pageArticles
  | _ => []

/-- The URL of page n once its goroutine has called scrapePage, nothing before. -/
def attempted (baseUrl : String) (tasks : Nat → TaskState) (n : Nat) : List String :=
  match tasks n with
  | .notStarted => []
  | .running => []
  | _ => [pageUrl baseUrl n]

/-- What holds in every state scrapeData reaches, for any maxPages: each article of
a page without error is in exactly one place (collected in articles, held by the
collector between its receive and its append, or not yet sent); the URLs visited
are those of the goroutines past their call of scrapePage; when the test of
line 217 found articles empty, articles is still empty or holds the one batch
appended since; and the records returned, together with at most one batch that the
collector held or appended too late, are all the contributions. -/
structure Accounted (maxPages : Nat) (baseUrl : String) (scrapePage : String → PageResult)
    (s : State) : Prop where
  records : (s.articles ++ (s.received.getD []
      ++ concatPages (pending baseUrl scrapePage s.tasks) maxPages)).Perm
    (concatPages (contribution baseUrl scrapePage) maxPages)
  sent : ∀ n pageArticles, s.tasks n = .sending pageArticles →
    pageArticles = contribution baseUrl scrapePage n
  held : ∀ pageArticles, s.received = some pageArticles →
    ∃ n, 1 ≤ n ∧ n ≤ maxPages ∧ pageArticles = contribution baseUrl scrapePage n
  urls : s.visited.Perm (concatPages (attempted baseUrl s.tasks) maxPages)
  emptyBranch : s.pc = .noData → s.articles = [] ∨ (s.received = none ∧
    ∃ n, 1 ≤ n ∧ n ≤ maxPages ∧ s.articles = contribution baseUrl scrapePage n)
  returned : s.result = none ∨ ∃ r lost,
    s.result = some r ∧
    (r.1.Data.Dapo.Berita ++ lost).Perm
      (concatPages (contribution baseUrl scrapePage) maxPages) ∧
    (lost = [] ∨ ∃ n, 1 ≤ n ∧ n ≤ maxPages ∧ lost = contribution baseUrl scrapePage n)

/-- The collector holds no received batch and the main goroutine is at sort.Slice
with the articles collected, or further on with what lines 211-232 make of that list
when nothing is appended in between. -/
def SettledFrom (elapsedMs : Nat) (collected : List NewsArticle) (s : State) : Prop :=
  s.received = none ∧
  ((s.pc = .tail ∧ s.articles = collected ∧ s.result = none) ∨
   (s.pc = .test ∧ s.articles = sort.Slice collected dateLess ∧ s.result = none) ∨
   (s.pc = .noData ∧ (sort.Slice collected dateLess).length = 0 ∧ s.result = none) ∨
   (s.pc = .respond ∧ s.articles = sort.Slice collected dateLess ∧
      (sort.Slice collected dateLess).length ≠ 0 ∧ s.result = none) ∨
   (s.pc = .returned ∧ s.result = some (finalize elapsedMs collected)))

/-- The steps of page n, run without interruption after the main goroutine started
it, the collector appending at once what it receives: those of a sending page when
scrapePage gives articles without error, those of a quiet page otherwise. -/
def pageSteps (baseUrl : String) (scrapePage : String → PageResult) (n : Nat) : List Action :=
  if (scrapePage (pageUrl baseUrl n)).2 = none ∧ 0 < (scrapePage (pageUrl baseUrl n)).1.length
  then sendingPage n true else quietPage n

/-- The steps of the pages from first on, count of them, one page after the other. -/
def orderlyPages (baseUrl : String) (scrapePage : String → PageResult) :
    Nat → Nat → List Action
  | _, 0 => []
  | first, count + 1 =>
    pageSteps baseUrl scrapePage first ++ orderlyPages baseUrl scrapePage (first + 1) count

/-- The schedule in which the 50 pages run one after the other, the collector
appends each batch as soon as it has received it, and the main goroutine then
returns. -/
def orderlySchedule (baseUrl : String) (scrapePage : String → PageResult) : List Action :=
  orderlyPages baseUrl scrapePage 1 50 ++ mainTail

/-- The state at the loop test when the pages 1 to k have run to their end, one
after the other, and the collector has appended what they sent. -/
def stateAfter (baseUrl : String) (scrapePage : String → PageResult) (k : Nat) : State :=
  { pc := .loop, page := k + 1, sem := 0, wg := 0, closed := false,
    tasks := fun n => if 1 ≤ n ∧ n ≤ k then .done else .notStarted,
    received := none, articles := concatPages (contribution baseUrl scrapePage) k,
    visited := concatPages (fun n => [pageUrl baseUrl n]) k, result := none }

/-- The schedule of lateAppendSchedule with the append of the collector run at once
after its receive. -/
def promptAppendSchedule : List Action :=
  sendingPage 1 true ++ quietPages 2 49 ++ mainTail

/-- A scrapePage for which page 1 has two records, the older one first (dated
"05 Januari 2024", then "10 Februari 2024"), and every other page is empty. -/
def twoDatesSite : String → PageResult := fun url =>
  if url = "https://dapo.kemdikbud.go.id/berita/laman/1" then
    ([⟨"old", "05 Januari 2024", "", "", "", ""⟩, ⟨"new", "10 Februari 2024", "", "", "", ""⟩],
      none)
  else ([], none)

/-- A schedule in which the goroutine of page 1 sends its articles and ends, the
pages 2 to 50 run to their end, the main goroutine passes wg.Wait(), closes the
channel and runs sort.Slice, and only then the collector runs its append, before
the main goroutine tests len(articles) and builds the response. -/
def appendAfterSortSchedule : List Action :=
  sendingPage 1 false ++ quietPages 2 49
    ++ [.main, .main, .main, .main, .append, .main, .main]

/-! ## Theorems -/

set_option maxRecDepth 100000

namespace sort
variable {α : Type}

theorem length_Swap (data : List α) (i j : Nat) : (Swap data i j).length = data.length := by
  unfold Swap
  split <;> simp

theorem getElem?_Swap (data : List α) {i j : Nat} (hi : i < data.length) (hj : j < data.length)
    (k : Nat) :
    (Swap data i j)[k]? = if k = j then data[i]? else if k = i then data[j]? else data[k]? := by
  unfold Swap
  rw [List.getElem?_eq_getElem hi, List.getElem?_eq_getElem hj]
  simp only [List.getElem?_set]
  by_cases hkj : k = j
  · subst hkj
    simp [hj]
  · by_cases hki : k = i
    · subst hki
      simp [hkj, hi, Ne.symm hkj]
    · simp [hkj, hki, Ne.symm hkj, Ne.symm hki]

theorem kAt_Swap (key : α → Int) (data : List α) {i j : Nat} (hi : i < data.length)
    (hj : j < data.length) (k : Nat) :
    kAt key (Swap data i j) k
      = if k = j then kAt key data i else if k = i then kAt key data j else kAt key data k := by
  unfold kAt
  rw [getElem?_Swap data hi hj]
  split_ifs <;> rfl

theorem Swap_perm (data : List α) (i j : Nat) : (Swap data i j).Perm data := by
  classical
  unfold Swap
  split
  · rename_i x y hx hy
    rw [List.perm_iff_count]
    intro a
    obtain ⟨hi, rfl⟩ := List.getElem?_eq_some.mp hx
    obtain ⟨hj, rfl⟩ := List.getElem?_eq_some.mp hy
    have hj2 : j < (data.set i data[j]).length := by simpa using hj
    rw [List.count_set _ _ _ _ hj2, List.count_set _ _ _ _ hi]
    have c1 : 0 < List.count data[i] data := List.count_pos_iff.mpr (List.getElem_mem _)
    have c2 : 0 < List.count data[j] data := List.count_pos_iff.mpr (List.getElem_mem _)
    by_cases hij : i = j
    · subst hij
      simp only [List.getElem_set_self]
      by_cases e1 : data[i] = a
      · subst e1; simp
      · simp [e1]
    · have h2 : (data.set i data[j])[j] = data[j] := by
        rw [List.getElem_set_ne hij]
      rw [h2]
      by_cases e1 : data[i] = a <;> by_cases e2 : data[j] = a
      · rw [e1] at c1; simp [e1, e2]; omega
      · rw [e1] at c1; simp [e1, e2]; omega
      · rw [e2] at c2; simp [e1, e2]
      · simp [e1, e2]
  · exact List.Perm.refl _
end sort

namespace sort
variable {α : Type}

theorem SwapsIn.length_eq {a b : Nat} {d d' : List α} (h : SwapsIn a b d d') :
    d'.length = d.length := by
  induction h with
  | refl => rfl
  | step i j _ _ _ _ _ _ ih => rw [length_Swap, ih]

theorem SwapsIn.perm {a b : Nat} {d d' : List α} (h : SwapsIn a b d d') : d'.Perm d := by
  induction h with
  | refl => exact List.Perm.refl _
  | step i j _ _ _ _ _ _ ih => exact (Swap_perm _ i j).trans ih

theorem SwapsIn.getElem?_outside {a b : Nat} {d d' : List α} (h : SwapsIn a b d d') (k : Nat)
    (hk : k < a ∨ b ≤ k) : d'[k]? = d[k]? := by
  induction h with
  | refl => rfl
  | step i j _ h1 h2 h3 h4 h5 ih =>
    rw [getElem?_Swap _ (by omega) (by omega), if_neg (by omega), if_neg (by omega), ih]

theorem SwapsIn.kAt_outside (key : α → Int) {a b : Nat} {d d' : List α} (h : SwapsIn a b d d')
    (k : Nat) (hk : k < a ∨ b ≤ k) : kAt key d' k = kAt key d k := by
  unfold kAt
  rw [h.getElem?_outside k hk]

theorem SwapsIn.forall_range (key : α → Int) (Q : Int → Prop) {a b : Nat} {d d' : List α}
    (h : SwapsIn a b d d') (hQ : ∀ k, a ≤ k → k < b → Q (kAt key d k)) :
    ∀ k, a ≤ k → k < b → Q (kAt key d' k) := by
  induction h with
  | refl => exact hQ
  | step i j _ h1 h2 h3 h4 h5 ih =>
    intro k hk1 hk2
    rw [kAt_Swap key _ (by omega) (by omega)]
    split_ifs
    · exact ih i h1 h2
    · exact ih j h3 h4
    · exact ih k hk1 hk2

theorem SwapsIn.trans {a b : Nat} {d d' d'' : List α} (h1 : SwapsIn a b d d')
    (h2 : SwapsIn a b d' d'') : SwapsIn a b d d'' := by
  induction h2 with
  | refl => exact h1
  | step i j _ g1 g2 g3 g4 g5 ih => exact SwapsIn.step i j ih g1 g2 g3 g4 g5

theorem SwapsIn.mono {a b a' b' : Nat} {d d' : List α} (h : SwapsIn a b d d') (ha : a' ≤ a)
    (hb : b ≤ b') (hlen : b' ≤ d.length) : SwapsIn a' b' d d' := by
  induction h with
  | refl => exact SwapsIn.refl _
  | step i j hs g1 g2 g3 g4 g5 ih =>
    exact SwapsIn.step i j ih (by omega) (by omega) (by omega) (by omega)
      (by rw [hs.length_eq]; exact hlen)

theorem SwapsIn.swap {a b : Nat} (d : List α) {i j : Nat} (h1 : a ≤ i) (h2 : i < b) (h3 : a ≤ j)
    (h4 : j < b) (h5 : b ≤ d.length) : SwapsIn a b d (Swap d i j) :=
  SwapsIn.step i j (SwapsIn.refl d) h1 h2 h3 h4 h5

theorem Less_eq (key : α → Int) (lt : α → α → Bool)
    (hlt : ∀ x y, lt x y = decide (key x < key y)) (data : List α) {i j : Nat}
    (hi : i < data.length) (hj : j < data.length) :
    Less lt data i j = decide (kAt key data i < kAt key data j) := by
  unfold Less kAt
  rw [List.getElem?_eq_getElem hi, List.getElem?_eq_getElem hj]
  exact hlt _ _

theorem Less_true_iff (key : α → Int) (lt : α → α → Bool)
    (hlt : ∀ x y, lt x y = decide (key x < key y)) (data : List α) {i j : Nat}
    (hi : i < data.length) (hj : j < data.length) :
    Less lt data i j = true ↔ kAt key data i < kAt key data j := by
  rw [Less_eq key lt hlt data hi hj]; simp

theorem Less_false_iff (key : α → Int) (lt : α → α → Bool)
    (hlt : ∀ x y, lt x y = decide (key x < key y)) (data : List α) {i j : Nat}
    (hi : i < data.length) (hj : j < data.length) :
    Less lt data i j = false ↔ kAt key data j ≤ kAt key data i := by
  rw [Less_eq key lt hlt data hi hj]; simp

section insertion
variable (key : α → Int) (lt : α → α → Bool) (hlt : ∀ x y, lt x y = decide (key x < key y))
include hlt

theorem insertionInner_spec (a i : Nat) : ∀ (j : Nat) (data : List α), a ≤ j → j ≤ i →
    i < data.length → SortedOn key data a j → SortedOn key data j (i + 1) →
    (∀ p q, a ≤ p → p < j → j < q → q ≤ i → kAt key data p ≤ kAt key data q) →
    SwapsIn a (i + 1) data (insertionInner lt a j data) ∧
      SortedOn key (insertionInner lt a j data) a (i + 1) := by
  intro j
  induction j with
  | zero =>
    intro data ha _ _ _ h2 _
    have : a = 0 := by omega
    subst this
    exact ⟨SwapsIn.refl _, h2⟩
  | succ j ih =>
    intro data ha hji hlen h1 h2 h3
    unfold insertionInner
    split_ifs with hc
    · obtain ⟨hc1, hc2⟩ := hc
      rw [Less_true_iff key lt hlt data (by omega) (by omega)] at hc2
      have hj1 : j + 1 < data.length := by omega
      have hj0 : j < data.length := by omega
      have hlen' : i < (Swap data (j + 1) j).length := by rw [length_Swap]; exact hlen
      obtain ⟨s1, s2⟩ := ih (Swap data (j + 1) j) (by omega) (by omega) hlen'
        (by
          intro p q hp hpq hq
          rw [kAt_Swap key data hj1 hj0, kAt_Swap key data hj1 hj0]
          split_ifs <;> first
            | omega
            | exact h1 _ _ (by omega) (by omega) (by omega))
        (by
          intro p q hp hpq hq
          rw [kAt_Swap key data hj1 hj0, kAt_Swap key data hj1 hj0]
          split_ifs <;> first
            | omega
            | exact h2 _ _ (by omega) (by omega) (by omega)
            | exact h3 _ _ (by omega) (by omega) (by omega) (by omega))
        (by
          intro p q hp hpj hjq hq
          rw [kAt_Swap key data hj1 hj0, kAt_Swap key data hj1 hj0]
          split_ifs <;> first
            | omega
            | exact h1 _ _ (by omega) (by omega) (by omega)
            | exact h3 _ _ (by omega) (by omega) (by omega) (by omega))
      exact ⟨(SwapsIn.swap data (by omega) (by omega) (by omega) (by omega) (by omega)).trans s1,
        s2⟩
    · refine ⟨SwapsIn.refl _, ?_⟩
      by_cases haj : a < j + 1
      · have hc2 : Less lt data (j + 1) j = false := by
          by_contra hx
          exact hc ⟨haj, by simpa using hx⟩
        rw [Less_false_iff key lt hlt data (by omega) (by omega)] at hc2
        intro p q hp hpq hq
        by_cases hq1 : q < j + 1
        · exact h1 p q hp hpq hq1
        · by_cases hp1 : j + 1 ≤ p
          · exact h2 p q hp1 hpq hq
          · have e1 := h1 p j hp (by omega) (by omega)
            by_cases hq2 : q = j + 1
            · subst hq2; omega
            · exact h3 p q hp (by omega) (by omega) (by omega)
      · have : a = j + 1 := by omega
        subst this
        exact h2

theorem insertionOuter_spec (a b : Nat) : ∀ (fuel i : Nat) (data : List α), a < i → i ≤ b →
    b ≤ data.length → b - i ≤ fuel → SortedOn key data a i →
    SwapsIn a b data (insertionOuter lt a b fuel i data) ∧
      SortedOn key (insertionOuter lt a b fuel i data) a b := by
  intro fuel
  induction fuel with
  | zero =>
    intro i data _ hib _ hf hs
    have : i = b := by omega
    subst this
    exact ⟨SwapsIn.refl _, hs⟩
  | succ fuel ih =>
    intro i data hai hib hlen hf hs
    unfold insertionOuter
    split_ifs with hc
    · obtain ⟨s1, s2⟩ := insertionInner_spec key lt hlt a i i data (by omega) (le_refl _)
        (by omega) hs (by intro p q hp hpq hq; have : p = q := by omega
                          subst this; exact le_refl _)
        (by intro p q _ _ _ _; omega)
      have s1' : SwapsIn a b data (insertionInner lt a i data) :=
        s1.mono (le_refl _) (by omega) hlen
      obtain ⟨t1, t2⟩ := ih (i + 1) (insertionInner lt a i data) (by omega) (by omega)
        (by rw [s1.length_eq]; exact hlen) (by omega) s2
      exact ⟨s1'.trans t1, t2⟩
    · have : i = b := by omega
      subst this
      exact ⟨SwapsIn.refl _, hs⟩

theorem insertionSort_spec (data : List α) (a b : Nat) (hlen : b ≤ data.length) :
    SwapsIn a b data (insertionSort_func lt data a b) ∧
      SortedOn key (insertionSort_func lt data a b) a b := by
  unfold insertionSort_func
  by_cases hab : a + 1 ≤ b
  · exact insertionOuter_spec key lt hlt a b (b - a) (a + 1) data (by omega) hab hlen (by omega)
      (by intro p q hp hpq hq; have : p = q := by omega
          subst this; exact le_refl _)
  · have h0 : b - a = 0 := by omega
    rw [h0]
    unfold insertionOuter
    exact ⟨SwapsIn.refl _, by intro p q hp hpq hq; omega⟩

end insertion
end sort

namespace sort
variable {α : Type}

section partition
variable (key : α → Int) (lt : α → α → Bool) (hlt : ∀ x y, lt x y = decide (key x < key y))
include hlt

theorem scanUpLess_spec (data : List α) (a j : Nat) (ha : a < data.length)
    (hj : j < data.length) : ∀ (fuel i : Nat), j + 1 ≤ fuel + i → i ≤ j + 1 →
    i ≤ scanUpLess lt data a j fuel i ∧ scanUpLess lt data a j fuel i ≤ j + 1 ∧
    (∀ k, i ≤ k → k < scanUpLess lt data a j fuel i → kAt key data k < kAt key data a) ∧
    (scanUpLess lt data a j fuel i ≤ j →
      kAt key data a ≤ kAt key data (scanUpLess lt data a j fuel i)) := by
  intro fuel
  induction fuel with
  | zero =>
    intro i h1 h2
    unfold scanUpLess
    exact ⟨le_refl _, h2, fun k _ _ => by omega, fun h => by omega⟩
  | succ fuel ih =>
    intro i h1 h2
    unfold scanUpLess
    split_ifs with hc
    · obtain ⟨hc1, hc2⟩ := hc
      rw [Less_true_iff key lt hlt data (by omega) ha] at hc2
      obtain ⟨r1, r2, r3, r4⟩ := ih (i + 1) (by omega) (by omega)
      refine ⟨by omega, r2, ?_, r4⟩
      intro k hk1 hk2
      by_cases hki : k = i
      · subst hki; exact hc2
      · exact r3 k (by omega) hk2
    · refine ⟨le_refl _, h2, fun k _ _ => by omega, ?_⟩
      intro hij
      have : Less lt data i a = false := by
        by_contra hx
        exact hc ⟨hij, by simpa using hx⟩
      rwa [Less_false_iff key lt hlt data (by omega) ha] at this

theorem scanDownNotLess_spec (data : List α) (a i : Nat) (ha : a < data.length) (hi : 1 ≤ i) :
    ∀ (j : Nat), j < data.length → i ≤ j + 1 →
    scanDownNotLess lt data a i j ≤ j ∧ i ≤ scanDownNotLess lt data a i j + 1 ∧
    (∀ k, scanDownNotLess lt data a i j < k → k ≤ j → kAt key data a ≤ kAt key data k) ∧
    (i ≤ scanDownNotLess lt data a i j →
      kAt key data (scanDownNotLess lt data a i j) < kAt key data a) := by
  intro j
  induction j with
  | zero =>
    intro _ h2
    unfold scanDownNotLess
    exact ⟨le_refl _, h2, fun k _ _ => by omega, fun h => by omega⟩
  | succ j ih =>
    intro h1 h2
    unfold scanDownNotLess
    split_ifs with hc
    · obtain ⟨hc1, hc2⟩ := hc
      rw [Less_false_iff key lt hlt data (by omega) ha] at hc2
      obtain ⟨r1, r2, r3, r4⟩ := ih (by omega) (by omega)
      refine ⟨by omega, r2, ?_, r4⟩
      intro k hk1 hk2
      by_cases hkj : k = j + 1
      · subst hkj; exact hc2
      · exact r3 k hk1 (by omega)
    · refine ⟨le_refl _, h2, fun k _ _ => by omega, ?_⟩
      intro hij
      have : Less lt data (j + 1) a = true := by
        by_contra hx
        exact hc ⟨hij, by simpa using hx⟩
      rwa [Less_true_iff key lt hlt data (by omega) ha] at this

theorem partitionLoop_spec (a b : Nat) : ∀ (fuel : Nat) (d : List α) (i j : Nat),
    a + 1 ≤ i → i ≤ j + 1 → j < b → b ≤ d.length → j + 2 ≤ fuel + i →
    (∀ k, a + 1 ≤ k → k < i → kAt key d k < kAt key d a) →
    (∀ k, j < k → k < b → kAt key d a ≤ kAt key d k) →
    SwapsIn (a + 1) b d (partitionLoop lt a fuel d i j).1 ∧
    a ≤ (partitionLoop lt a fuel d i j).2 ∧ (partitionLoop lt a fuel d i j).2 < b ∧
    (∀ k, a + 1 ≤ k → k ≤ (partitionLoop lt a fuel d i j).2 →
      kAt key (partitionLoop lt a fuel d i j).1 k < kAt key d a) ∧
    (∀ k, (partitionLoop lt a fuel d i j).2 < k → k < b →
      kAt key d a ≤ kAt key (partitionLoop lt a fuel d i j).1 k) := by
  intro fuel
  induction fuel with
  | zero => intro d i j h1 h2 h3 h4 h5; omega
  | succ fuel ih =>
    intro d i j h1 h2 h3 h4 h5 hlo hhi
    unfold partitionLoop
    dsimp only
    obtain ⟨u1, u2, u3, u4⟩ := scanUpLess_spec key lt hlt d a j (by omega) (by omega)
      (j + 1 - i) i (by omega) h2
    generalize scanUpLess lt d a j (j + 1 - i) i = i' at u1 u2 u3 u4 ⊢
    obtain ⟨v1, v2, v3, v4⟩ := scanDownNotLess_spec key lt hlt d a i' (by omega) (by omega)
      j (by omega) u2
    generalize scanDownNotLess lt d a i' j = j' at v1 v2 v3 v4 ⊢
    split_ifs with hc
    · refine ⟨SwapsIn.refl _, by omega, by omega, ?_, ?_⟩
      · intro k hk1 hk2
        by_cases hki : k < i
        · exact hlo k hk1 hki
        · exact u3 k (by omega) (by omega)
      · intro k hk1 hk2
        by_cases hkj : j < k
        · exact hhi k hkj hk2
        · exact v3 k hk1 (by omega)
    · have w1 := u4 (by omega)
      have w2 := v4 (by omega)
      have hne : i' ≠ j' := by
        intro h
        rw [h] at w1
        omega
      have hi'l : i' < d.length := by omega
      have hj'l : j' < d.length := by omega
      obtain ⟨r1, r2, r3, r4, r5⟩ := ih (Swap d i' j') (i' + 1) (j' - 1) (by omega) (by omega)
        (by omega) (by rw [length_Swap]; exact h4) (by omega)
        (by
          intro k hk1 hk2
          rw [kAt_Swap key d hi'l hj'l, kAt_Swap key d hi'l hj'l]
          by_cases hki : k < i <;> split_ifs <;> first
            | omega
            | exact hlo _ (by omega) (by omega)
            | exact u3 _ (by omega) (by omega))
        (by
          intro k hk1 hk2
          rw [kAt_Swap key d hi'l hj'l, kAt_Swap key d hi'l hj'l]
          by_cases hkj : j < k <;> split_ifs <;> first
            | omega
            | exact hhi _ (by omega) (by omega)
            | exact v3 _ (by omega) (by omega))
      have hka : kAt key (Swap d i' j') a = kAt key d a := by
        rw [kAt_Swap key d hi'l hj'l, if_neg (by omega), if_neg (by omega)]
      rw [hka] at r4 r5
      exact ⟨(SwapsIn.swap d (by omega) (by omega) (by omega) (by omega) h4).trans r1,
        r2, r3, r4, r5⟩

theorem partition_spec (data : List α) (a b pivot : Nat) (hap : a ≤ pivot) (hpb : pivot < b)
    (hlen : b ≤ data.length) :
    SwapsIn a b data (partition_func lt data a b pivot).1 ∧
    a ≤ (partition_func lt data a b pivot).2.1 ∧ (partition_func lt data a b pivot).2.1 < b ∧
    (∀ k, a ≤ k → k < (partition_func lt data a b pivot).2.1 →
      kAt key (partition_func lt data a b pivot).1 k
        < kAt key (partition_func lt data a b pivot).1 (partition_func lt data a b pivot).2.1) ∧
    (∀ k, (partition_func lt data a b pivot).2.1 < k → k < b →
      kAt key (partition_func lt data a b pivot).1 (partition_func lt data a b pivot).2.1
        ≤ kAt key (partition_func lt data a b pivot).1 k) := by
  unfold partition_func
  have s0 : SwapsIn a b data (Swap data a pivot) :=
    SwapsIn.swap data (le_refl _) (by omega) hap hpb hlen
  have hl0 : (Swap data a pivot).length = data.length := length_Swap _ _ _
  dsimp only
  generalize Swap data a pivot = d0 at s0 hl0 ⊢
  obtain ⟨u1, u2, u3, u4⟩ := scanUpLess_spec key lt hlt d0 a (b - 1) (by omega) (by omega)
      (b - 1 + 1 - (a + 1)) (a + 1) (by omega) (by omega)
  generalize scanUpLess lt d0 a (b - 1) (b - 1 + 1 - (a + 1)) (a + 1) = i' at u1 u2 u3 u4 ⊢
  obtain ⟨v1, v2, v3, v4⟩ := scanDownNotLess_spec key lt hlt d0 a i' (by omega) (by omega)
      (b - 1) (by omega) u2
  generalize scanDownNotLess lt d0 a i' (b - 1) = j' at v1 v2 v3 v4 ⊢
  split_ifs with hc
  · dsimp only
    have hj'l : j' < d0.length := by omega
    have hal : a < d0.length := by omega
    refine ⟨s0.trans (SwapsIn.swap d0 (by omega) (by omega) (le_refl _) (by omega)
      (by omega)), by omega, by omega, ?_, ?_⟩
    · intro k hk1 hk2
      rw [kAt_Swap key d0 hj'l hal, kAt_Swap key d0 hj'l hal]
      split_ifs <;> first
        | omega
        | exact u3 _ (by omega) (by omega)
    · intro k hk1 hk2
      rw [kAt_Swap key d0 hj'l hal, kAt_Swap key d0 hj'l hal]
      split_ifs <;> first
        | omega
        | exact v3 _ (by omega) (by omega)
        | (have hh : j' = a := by omega
           rw [hh]; exact v3 _ (by omega) (by omega))
  · dsimp only
    have w1 := u4 (by omega)
    have w2 := v4 (by omega)
    have hne : i' ≠ j' := by
      intro h
      rw [h] at w1
      omega
    have hi'l : i' < d0.length := by omega
    have hj'l : j' < d0.length := by omega
    obtain ⟨r1, r2, r3, r4, r5⟩ := partitionLoop_spec key lt hlt a b (b - a) (Swap d0 i' j')
        (i' + 1) (j' - 1) (by omega) (by omega)
        (by omega) (by rw [length_Swap]; omega) (by omega)
        (by
          intro k hk1 hk2
          rw [kAt_Swap key d0 hi'l hj'l, kAt_Swap key d0 hi'l hj'l]
          split_ifs <;> first
            | omega
            | exact u3 _ (by omega) (by omega))
        (by
          intro k hk1 hk2
          rw [kAt_Swap key d0 hi'l hj'l, kAt_Swap key d0 hi'l hj'l]
          split_ifs <;> first
            | omega
            | exact v3 _ (by omega) (by omega))
    have hka : kAt key (Swap d0 i' j') a = kAt key d0 a := by
      rw [kAt_Swap key d0 hi'l hj'l, if_neg (by omega), if_neg (by omega)]
    rw [hka] at r4 r5
    have hl1 : (partitionLoop lt a (b - a) (Swap d0 i' j') (i' + 1) (j' - 1)).1.length
        = d0.length := by rw [r1.length_eq, length_Swap]
    have hk1a : kAt key (partitionLoop lt a (b - a) (Swap d0 i' j') (i' + 1) (j' - 1)).1 a
        = kAt key d0 a := by
      rw [r1.kAt_outside key a (by omega), hka]
    have s1 : SwapsIn a b d0 (partitionLoop lt a (b - a) (Swap d0 i' j') (i' + 1) (j' - 1)).1 :=
      (SwapsIn.swap d0 (by omega) (by omega) (by omega) (by omega) (by omega)).trans
        (r1.mono (by omega) (le_refl _) (by rw [length_Swap]; omega))
    generalize partitionLoop lt a (b - a) (Swap d0 i' j') (i' + 1) (j' - 1) = r
      at r1 r2 r3 r4 r5 hl1 hk1a s1 ⊢
    obtain ⟨d1, m⟩ := r
    simp only at r1 r2 r3 r4 r5 hl1 hk1a s1 ⊢
    have hml : m < d1.length := by omega
    have hal : a < d1.length := by omega
    refine ⟨s0.trans (s1.trans (SwapsIn.swap d1 (by omega) (by omega) (le_refl _) (by omega)
      (by omega))), r2, r3, ?_, ?_⟩
    · intro k hk1 hk2
      rw [kAt_Swap key d1 hml hal, kAt_Swap key d1 hml hal]
      split_ifs <;> first
        | omega
        | (have hq := r4 m (by omega) (by omega); omega)
        | (have hq := r4 k (by omega) (by omega); omega)
    · intro k hk1 hk2
      rw [kAt_Swap key d1 hml hal, kAt_Swap key d1 hml hal]
      split_ifs <;> first
        | omega
        | (have hq := r5 k (by omega) (by omega); omega)
        | (have hh : m = a := by omega
           have hq := r5 k (by omega) (by omega)
           rw [hh]; omega)

end partition
end sort

namespace sort
variable {α : Type}

section partitionEqual
variable (key : α → Int) (lt : α → α → Bool) (hlt : ∀ x y, lt x y = decide (key x < key y))
include hlt

theorem scanUpNotGreater_spec (data : List α) (a j : Nat) (ha : a < data.length)
    (hj : j < data.length) : ∀ (fuel i : Nat), j + 1 ≤ fuel + i → i ≤ j + 1 →
    i ≤ scanUpNotGreater lt data a j fuel i ∧ scanUpNotGreater lt data a j fuel i ≤ j + 1 ∧
    (∀ k, i ≤ k → k < scanUpNotGreater lt data a j fuel i → kAt key data k ≤ kAt key data a) ∧
    (scanUpNotGreater lt data a j fuel i ≤ j →
      kAt key data a < kAt key data (scanUpNotGreater lt data a j fuel i)) := by
  intro fuel
  induction fuel with
  | zero =>
    intro i h1 h2
    unfold scanUpNotGreater
    exact ⟨le_refl _, h2, fun k _ _ => by omega, fun h => by omega⟩
  | succ fuel ih =>
    intro i h1 h2
    unfold scanUpNotGreater
    split_ifs with hc
    · obtain ⟨hc1, hc2⟩ := hc
      rw [Less_false_iff key lt hlt data ha (by omega)] at hc2
      obtain ⟨r1, r2, r3, r4⟩ := ih (i + 1) (by omega) (by omega)
      refine ⟨by omega, r2, ?_, r4⟩
      intro k hk1 hk2
      by_cases hki : k = i
      · subst hki; exact hc2
      · exact r3 k (by omega) hk2
    · refine ⟨le_refl _, h2, fun k _ _ => by omega, ?_⟩
      intro hij
      have : Less lt data a i = true := by
        by_contra hx
        exact hc ⟨hij, by simpa using hx⟩
      rwa [Less_true_iff key lt hlt data ha (by omega)] at this

theorem scanDownGreater_spec (data : List α) (a i : Nat) (ha : a < data.length) (hi : 1 ≤ i) :
    ∀ (j : Nat), j < data.length → i ≤ j + 1 →
    scanDownGreater lt data a i j ≤ j ∧ i ≤ scanDownGreater lt data a i j + 1 ∧
    (∀ k, scanDownGreater lt data a i j < k → k ≤ j → kAt key data a < kAt key data k) ∧
    (i ≤ scanDownGreater lt data a i j →
      kAt key data (scanDownGreater lt data a i j) ≤ kAt key data a) := by
  intro j
  induction j with
  | zero =>
    intro _ h2
    unfold scanDownGreater
    exact ⟨le_refl _, h2, fun k _ _ => by omega, fun h => by omega⟩
  | succ j ih =>
    intro h1 h2
    unfold scanDownGreater
    split_ifs with hc
    · obtain ⟨hc1, hc2⟩ := hc
      rw [Less_true_iff key lt hlt data ha (by omega)] at hc2
      obtain ⟨r1, r2, r3, r4⟩ := ih (by omega) (by omega)
      refine ⟨by omega, r2, ?_, r4⟩
      intro k hk1 hk2
      by_cases hkj : k = j + 1
      · subst hkj; exact hc2
      · exact r3 k hk1 (by omega)
    · refine ⟨le_refl _, h2, fun k _ _ => by omega, ?_⟩
      intro hij
      have : Less lt data a (j + 1) = false := by
        by_contra hx
        exact hc ⟨hij, by simpa using hx⟩
      rwa [Less_false_iff key lt hlt data ha (by omega)] at this

theorem partitionEqualLoop_spec (a b : Nat) : ∀ (fuel : Nat) (d : List α) (i j : Nat),
    a + 1 ≤ i → i ≤ j + 1 → j < b → b ≤ d.length → j + 2 ≤ fuel + i →
    (∀ k, a + 1 ≤ k → k < i → kAt key d k ≤ kAt key d a) →
    (∀ k, j < k → k < b → kAt key d a < kAt key d k) →
    SwapsIn (a + 1) b d (partitionEqualLoop lt a fuel d i j).1 ∧
    a + 1 ≤ (partitionEqualLoop lt a fuel d i j).2 ∧
    (partitionEqualLoop lt a fuel d i j).2 ≤ b ∧
    (∀ k, a + 1 ≤ k → k < (partitionEqualLoop lt a fuel d i j).2 →
      kAt key (partitionEqualLoop lt a fuel d i j).1 k ≤ kAt key d a) ∧
    (∀ k, (partitionEqualLoop lt a fuel d i j).2 ≤ k → k < b →
      kAt key d a < kAt key (partitionEqualLoop lt a fuel d i j).1 k) := by
  intro fuel
  induction fuel with
  | zero => intro d i j h1 h2 h3 h4 h5; omega
  | succ fuel ih =>
    intro d i j h1 h2 h3 h4 h5 hlo hhi
    unfold partitionEqualLoop
    dsimp only
    obtain ⟨u1, u2, u3, u4⟩ := scanUpNotGreater_spec key lt hlt d a j (by omega) (by omega)
      (j + 1 - i) i (by omega) h2
    generalize scanUpNotGreater lt d a j (j + 1 - i) i = i' at u1 u2 u3 u4 ⊢
    obtain ⟨v1, v2, v3, v4⟩ := scanDownGreater_spec key lt hlt d a i' (by omega) (by omega)
      j (by omega) u2
    generalize scanDownGreater lt d a i' j = j' at v1 v2 v3 v4 ⊢
    split_ifs with hc
    · refine ⟨SwapsIn.refl _, by omega, by omega, ?_, ?_⟩
      · intro k hk1 hk2
        by_cases hki : k < i
        · exact hlo k hk1 hki
        · exact u3 k (by omega) (by omega)
      · intro k hk1 hk2
        by_cases hkj : j < k
        · exact hhi k hkj hk2
        · exact v3 k (by omega) (by omega)
    · have w1 := u4 (by omega)
      have w2 := v4 (by omega)
      have hne : i' ≠ j' := by
        intro h
        rw [h] at w1
        omega
      have hi'l : i' < d.length := by omega
      have hj'l : j' < d.length := by omega
      obtain ⟨r1, r2, r3, r4, r5⟩ := ih (Swap d i' j') (i' + 1) (j' - 1) (by omega) (by omega)
        (by omega) (by rw [length_Swap]; exact h4) (by omega)
        (by
          intro k hk1 hk2
          rw [kAt_Swap key d hi'l hj'l, kAt_Swap key d hi'l hj'l]
          by_cases hki : k < i <;> split_ifs <;> first
            | omega
            | exact hlo _ (by omega) (by omega)
            | exact u3 _ (by omega) (by omega))
        (by
          intro k hk1 hk2
          rw [kAt_Swap key d hi'l hj'l, kAt_Swap key d hi'l hj'l]
          by_cases hkj : j < k <;> split_ifs <;> first
            | omega
            | exact hhi _ (by omega) (by omega)
            | exact v3 _ (by omega) (by omega))
      have hka : kAt key (Swap d i' j') a = kAt key d a := by
        rw [kAt_Swap key d hi'l hj'l, if_neg (by omega), if_neg (by omega)]
      rw [hka] at r4 r5
      exact ⟨(SwapsIn.swap d (by omega) (by omega) (by omega) (by omega) h4).trans r1,
        r2, r3, r4, r5⟩

theorem partitionEqual_spec (data : List α) (a b pivot : Nat) (hap : a ≤ pivot) (hpb : pivot < b)
    (hlen : b ≤ data.length) :
    SwapsIn a b data (partitionEqual_func lt data a b pivot).1 ∧
    a + 1 ≤ (partitionEqual_func lt data a b pivot).2 ∧
    (partitionEqual_func lt data a b pivot).2 ≤ b ∧
    (∀ k, a ≤ k → k < (partitionEqual_func lt data a b pivot).2 →
      kAt key (partitionEqual_func lt data a b pivot).1 k ≤ kAt key data pivot) ∧
    (∀ k, (partitionEqual_func lt data a b pivot).2 ≤ k → k < b →
      kAt key data pivot < kAt key (partitionEqual_func lt data a b pivot).1 k) := by
  unfold partitionEqual_func
  have s0 : SwapsIn a b data (Swap data a pivot) :=
    SwapsIn.swap data (le_refl _) (by omega) hap hpb hlen
  have hl0 : (Swap data a pivot).length = data.length := length_Swap _ _ _
  have hp0 : kAt key (Swap data a pivot) a = kAt key data pivot := by
    rw [kAt_Swap key data (by omega) (by omega)]
    split_ifs with h h2
    · rw [h]
    · rfl
    · exact absurd rfl h2
  dsimp only
  generalize Swap data a pivot = d0 at s0 hl0 hp0 ⊢
  obtain ⟨r1, r2, r3, r4, r5⟩ := partitionEqualLoop_spec key lt hlt a b (b - a + 1) d0
    (a + 1) (b - 1) (le_refl _) (by omega) (by omega) (by omega) (by omega)
    (fun k _ _ => by omega) (fun k _ _ => by omega)
  rw [hp0] at r4 r5
  refine ⟨s0.trans (r1.mono (by omega) (le_refl _) (by omega)), r2, r3, ?_, r5⟩
  intro k hk1 hk2
  by_cases hka : k = a
  · rw [hka, r1.kAt_outside key a (by omega), hp0]
  · exact r4 k (by omega) hk2

end partitionEqual
end sort

namespace sort
variable {α : Type}

theorem siftDown_succ (lt : α → α → Bool) (hi first fuel root : Nat) (data : List α) :
    siftDown_func lt hi first (fuel + 1) root data =
      if hi ≤ 2 * root + 1 then data
      else if Less lt data (first + root) (first + bigChild lt hi first root data) = false then data
      else siftDown_func lt hi first fuel (bigChild lt hi first root data)
        (Swap data (first + root) (first + bigChild lt hi first root data)) := rfl

theorem heapRoot_max (key : α → Int) (data : List α) (first n : Nat) (h : HeapFrom key data first 0 n) :
    ∀ k, k < n → kAt key data (first + k) ≤ kAt key data (first + 0) := by
  intro k
  induction k using Nat.strong_induction_on with
  | _ k ih =>
    intro hk
    by_cases hk0 : k = 0
    · subst hk0; exact le_refl _
    · have h1 := h ((k - 1) / 2) k (Nat.zero_le _) (by omega) hk
      have h2 := ih ((k - 1) / 2) (by omega) (by omega)
      omega

section heap
variable (key : α → Int) (lt : α → α → Bool) (hlt : ∀ x y, lt x y = decide (key x < key y))
include hlt

theorem bigChild_spec (hi first r : Nat) (data : List α) (h1 : 2 * r + 1 < hi)
    (hlen : first + hi ≤ data.length) :
    (bigChild lt hi first r data = 2 * r + 1 ∨ bigChild lt hi first r data = 2 * r + 2) ∧
    bigChild lt hi first r data < hi ∧
    (∀ c, (c = 2 * r + 1 ∨ c = 2 * r + 2) → c < hi →
      kAt key data (first + c) ≤ kAt key data (first + bigChild lt hi first r data)) := by
  unfold bigChild
  split_ifs with hc
  · obtain ⟨hc1, hc2⟩ := hc
    rw [Less_true_iff key lt hlt data (by omega) (by omega)] at hc2
    refine ⟨Or.inr rfl, hc1, ?_⟩
    intro c hc hch
    rcases hc with rfl | rfl
    · exact le_of_lt hc2
    · exact le_refl _
  · refine ⟨Or.inl rfl, h1, ?_⟩
    intro c hcc hch
    rcases hcc with rfl | rfl
    · exact le_refl _
    · have : Less lt data (first + (2 * r + 1)) (first + (2 * r + 1) + 1) = false := by
        by_contra hx
        exact hc ⟨hch, by simpa using hx⟩
      rw [Less_false_iff key lt hlt data (by omega) (by omega)] at this
      exact this

theorem siftDown_spec (hi first lo : Nat) : ∀ (fuel r : Nat) (data : List α), lo ≤ r →
    hi ≤ fuel + r → first + hi ≤ data.length →
    (∀ p c, lo ≤ p → p ≠ r → (c = 2 * p + 1 ∨ c = 2 * p + 2) → c < hi →
      kAt key data (first + c) ≤ kAt key data (first + p)) →
    (∀ q c, lo ≤ q → (r = 2 * q + 1 ∨ r = 2 * q + 2) → (c = 2 * r + 1 ∨ c = 2 * r + 2) →
      c < hi → kAt key data (first + c) ≤ kAt key data (first + q)) →
    SwapsIn (first + lo) (first + hi) data (siftDown_func lt hi first fuel r data) ∧
      HeapFrom key (siftDown_func lt hi first fuel r data) first lo hi := by
  intro fuel
  induction fuel with
  | zero =>
    intro r data h1 h2 h3 hA hB
    unfold siftDown_func
    refine ⟨SwapsIn.refl _, ?_⟩
    intro p c hp hc hch
    exact hA p c hp (by omega) hc hch
  | succ fuel ih =>
    intro r data h1 h2 h3 hA hB
    rw [siftDown_succ]
    by_cases hch : hi ≤ 2 * r + 1
    · rw [if_pos hch]
      refine ⟨SwapsIn.refl _, ?_⟩
      intro p c hp hc hci
      exact hA p c hp (by omega) hc hci
    · rw [if_neg hch]
      obtain ⟨b1, b2, b3⟩ := bigChild_spec key lt hlt hi first r data (by omega) h3
      generalize bigChild lt hi first r data = c at b1 b2 b3 ⊢
      by_cases hl : Less lt data (first + r) (first + c) = false
      · rw [if_pos hl]
        rw [Less_false_iff key lt hlt data (by omega) (by omega)] at hl
        refine ⟨SwapsIn.refl _, ?_⟩
        intro p c' hp hc' hci
        by_cases hpr : p = r
        · subst hpr
          have := b3 c' hc' hci
          omega
        · exact hA p c' hp hpr hc' hci
      · rw [if_neg hl]
        have hl' : Less lt data (first + r) (first + c) = true := by simpa using hl
        rw [Less_true_iff key lt hlt data (by omega) (by omega)] at hl'
        have hrl : first + r < data.length := by omega
        have hcl : first + c < data.length := by omega
        obtain ⟨s1, s2⟩ := ih c (Swap data (first + r) (first + c)) (by omega) (by omega)
          (by rw [length_Swap]; exact h3)
          (by
            intro p c' hp hpc hc' hci
            rw [kAt_Swap key data hrl hcl, kAt_Swap key data hrl hcl]
            by_cases hpr : p = r
            · subst hpr
              have := b3 c' hc' hci
              split_ifs <;> omega
            · split_ifs <;> first
                | omega
                | exact hA _ _ (by omega) (by omega) (by omega) (by omega)
                | exact hB _ _ (by omega) (by omega) (by omega) (by omega))
          (by
            intro q c' hq hcq hc' hci
            rw [kAt_Swap key data hrl hcl, kAt_Swap key data hrl hcl]
            have hqr : q = r := by omega
            subst hqr
            split_ifs <;> first
              | omega
              | exact hA _ _ (by omega) (by omega) (by omega) (by omega))
        exact ⟨(SwapsIn.swap data (by omega) (by omega) (by omega) (by omega) h3).trans s1, s2⟩

theorem heapBuild_spec (hi first : Nat) : ∀ (n : Nat) (data : List α),
    first + hi ≤ data.length → HeapFrom key data first n hi →
    SwapsIn first (first + hi) data (heapBuild lt hi first n data) ∧
      HeapFrom key (heapBuild lt hi first n data) first 0 hi := by
  intro n
  induction n with
  | zero =>
    intro data _ h
    exact ⟨SwapsIn.refl _, h⟩
  | succ n ih =>
    intro data hlen h
    unfold heapBuild
    obtain ⟨s1, s2⟩ := siftDown_spec key lt hlt hi first n hi n data (le_refl _) (by omega) hlen
      (by intro p c hp hpn hc hci; exact h p c (by omega) hc hci)
      (by intro q c hq hnq _ _; omega)
    obtain ⟨t1, t2⟩ := ih (siftDown_func lt hi first hi n data)
      (by rw [s1.length_eq]; exact hlen) s2
    exact ⟨(s1.mono (by omega) (le_refl _) hlen).trans t1, t2⟩

theorem heapPop_spec (hi first : Nat) : ∀ (n : Nat) (data : List α), n ≤ hi →
    first + hi ≤ data.length → HeapFrom key data first 0 n →
    SortedOn key data (first + n) (first + hi) →
    (∀ p q, p < n → n ≤ q → q < hi → kAt key data (first + p) ≤ kAt key data (first + q)) →
    SwapsIn first (first + hi) data (heapPop lt first n data) ∧
      SortedOn key (heapPop lt first n data) first (first + hi) := by
  intro n
  induction n with
  | zero =>
    intro data _ _ _ hs _
    exact ⟨SwapsIn.refl _, hs⟩
  | succ n ih =>
    intro data hn hlen hh hs hc
    unfold heapPop
    have hmax := heapRoot_max key data first (n + 1) hh
    have h0l : first < data.length := by omega
    have hnl : first + n < data.length := by omega
    have e0 : ∀ k, kAt key (Swap data first (first + n)) k
        = if k = first + n then kAt key data (first + 0)
          else if k = first then kAt key data (first + n) else kAt key data k := by
      intro k
      rw [kAt_Swap key data h0l hnl]
      rfl
    have sw : SwapsIn first (first + hi) data (Swap data first (first + n)) :=
      SwapsIn.swap data (le_refl _) (by omega) (by omega) (by omega) hlen
    have hl1 : (Swap data first (first + n)).length = data.length := length_Swap _ _ _
    obtain ⟨s1, s2⟩ := siftDown_spec key lt hlt n first 0 n 0 (Swap data first (first + n))
      (le_refl _) (by omega) (by omega)
      (by
        intro p c hp hp0 hc hci
        rw [e0, e0]
        split_ifs <;> first
          | omega
          | exact hh _ _ (by omega) (by omega) (by omega))
      (by intro q c _ h0 _ _; omega)
    have hl2 : (siftDown_func lt n first n 0 (Swap data first (first + n))).length
        = data.length := by rw [s1.length_eq, hl1]
    have s1' : SwapsIn first (first + hi) (Swap data first (first + n))
        (siftDown_func lt n first n 0 (Swap data first (first + n))) := by
      exact s1.mono (by omega) (by omega) (by omega)
    have hout : ∀ k, first + n ≤ k →
        kAt key (siftDown_func lt n first n 0 (Swap data first (first + n))) k
          = kAt key (Swap data first (first + n)) k := by
      intro k hk
      exact s1.kAt_outside key k (Or.inr hk)
    have hin : ∀ k, first + 0 ≤ k → k < first + n →
        kAt key (siftDown_func lt n first n 0 (Swap data first (first + n))) k
          ≤ kAt key data (first + 0) := by
      apply s1.forall_range key (fun v => v ≤ kAt key data (first + 0))
      intro k hk1 hk2
      rw [e0]
      split_ifs <;> first
        | omega
        | exact hmax n (by omega)
        | (have hq := hmax (k - first) (by omega)
           rw [show first + (k - first) = k by omega] at hq
           exact hq)
    obtain ⟨t1, t2⟩ := ih (siftDown_func lt n first n 0 (Swap data first (first + n)))
      (by omega) (by rw [hl2]; exact hlen) s2
      (by
        intro p q hp hpq hq
        rw [hout p (by omega), hout q (by omega), e0, e0]
        by_cases hpn : p = first + n
        · rw [if_pos hpn]
          by_cases hqn : q = first + n
          · rw [if_pos hqn]
          · rw [if_neg hqn, if_neg (by omega)]
            have := hc 0 (q - first) (by omega) (by omega) (by omega)
            rw [show first + (q - first) = q by omega] at this
            exact this
        · rw [if_neg hpn, if_neg (by omega), if_neg (by omega), if_neg (by omega)]
          exact hs p q (by omega) hpq hq)
      (by
        intro p q hp hpq hq
        rw [hout (first + q) (by omega), e0]
        have := hin (first + p) (by omega) (by omega)
        by_cases hqn : q = n
        · subst hqn
          rw [if_pos rfl]
          exact this
        · rw [if_neg (by omega), if_neg (by omega)]
          have := hc 0 q (by omega) (by omega) hq
          omega)
    exact ⟨sw.trans (s1'.trans t1), t2⟩

theorem heapSort_spec (data : List α) (a b : Nat) (hab : a ≤ b) (hlen : b ≤ data.length) :
    SwapsIn a b data (heapSort_func lt data a b) ∧
      SortedOn key (heapSort_func lt data a b) a b := by
  unfold heapSort_func
  dsimp only
  have hb : a + (b - a) = b := by omega
  obtain ⟨s1, s2⟩ := heapBuild_spec key lt hlt (b - a) a ((b - a - 1) / 2 + 1) data (by omega)
    (by intro p c hp hc hci; omega)
  obtain ⟨t1, t2⟩ := heapPop_spec key lt hlt (b - a) a (b - a)
    (heapBuild lt (b - a) a ((b - a - 1) / 2 + 1) data) (le_refl _)
    (by rw [s1.length_eq]; omega) s2
    (by intro p q hp hpq hq; omega)
    (by intro p q hp hpq hq; omega)
  rw [hb] at s1 t1 t2
  exact ⟨s1.trans t1, t2⟩

end heap
end sort

namespace sort
variable {α : Type}

theorem LowerBound.of_swapsIn (key : α → Int) {a b : Nat} {d d' : List α}
    (h : LowerBound key d a b) (s : SwapsIn a b d d') : LowerBound key d' a b := by
  rcases h with h | h
  · exact Or.inl h
  · by_cases ha : a = 0
    · exact Or.inl ha
    · right
      rw [s.kAt_outside key (a - 1) (by omega)]
      exact s.forall_range key (fun v => kAt key d (a - 1) ≤ v) h

theorem order2_cases (lt : α → α → Bool) (data : List α) (a b s : Nat) :
    ((order2_func lt data a b s).1 = a ∧ (order2_func lt data a b s).2.1 = b) ∨
      ((order2_func lt data a b s).1 = b ∧ (order2_func lt data a b s).2.1 = a) := by
  unfold order2_func
  split_ifs
  · exact Or.inr ⟨rfl, rfl⟩
  · exact Or.inl ⟨rfl, rfl⟩

theorem median_mem (lt : α → α → Bool) (data : List α) (a b c s : Nat) :
    (median_func lt data a b c s).1 = a ∨ (median_func lt data a b c s).1 = b ∨
      (median_func lt data a b c s).1 = c := by
  unfold median_func
  dsimp only
  have o1 := order2_cases lt data a b s
  generalize order2_func lt data a b s = r1 at o1 ⊢
  have o2 := order2_cases lt data r1.2.1 c r1.2.2
  generalize order2_func lt data r1.2.1 c r1.2.2 = r2 at o2 ⊢
  have o3 := order2_cases lt data r1.1 r2.1 r2.2.2
  generalize order2_func lt data r1.1 r2.1 r2.2.2 = r3 at o3 ⊢
  omega

theorem choosePivot_range (lt : α → α → Bool) (data : List α) (a b : Nat) (hab : a < b) :
    a ≤ (choosePivot_func lt data a b).1 ∧ (choosePivot_func lt data a b).1 < b := by
  have key : ∀ r : Nat × Nat, (a ≤ r.1 ∧ r.1 < b) →
      a ≤ (if r.2 = 0 then (r.1, sortedHint.increasingHint)
        else if r.2 = 12 then (r.1, sortedHint.decreasingHint)
        else (r.1, sortedHint.unknownHint)).1 ∧
      (if r.2 = 0 then (r.1, sortedHint.increasingHint)
        else if r.2 = 12 then (r.1, sortedHint.decreasingHint)
        else (r.1, sortedHint.unknownHint)).1 < b := by
    intro r hr
    split_ifs <;> exact hr
  unfold choosePivot_func
  dsimp only
  apply key
  split_ifs with h8 h50
  · unfold medianAdjacent_func
    have m1 := median_mem lt data (a + (b - a) / 4 * 1 - 1) (a + (b - a) / 4 * 1)
      (a + (b - a) / 4 * 1 + 1) 0
    generalize median_func lt data (a + (b - a) / 4 * 1 - 1) (a + (b - a) / 4 * 1)
      (a + (b - a) / 4 * 1 + 1) 0 = r1 at m1 ⊢
    have m2 := median_mem lt data (a + (b - a) / 4 * 2 - 1) (a + (b - a) / 4 * 2)
      (a + (b - a) / 4 * 2 + 1) r1.2
    generalize median_func lt data (a + (b - a) / 4 * 2 - 1) (a + (b - a) / 4 * 2)
      (a + (b - a) / 4 * 2 + 1) r1.2 = r2 at m2 ⊢
    have m3 := median_mem lt data (a + (b - a) / 4 * 3 - 1) (a + (b - a) / 4 * 3)
      (a + (b - a) / 4 * 3 + 1) r2.2
    generalize median_func lt data (a + (b - a) / 4 * 3 - 1) (a + (b - a) / 4 * 3)
      (a + (b - a) / 4 * 3 + 1) r2.2 = r3 at m3 ⊢
    have m4 := median_mem lt data r1.1 r2.1 r3.1 r3.2
    omega
  · have m := median_mem lt data (a + (b - a) / 4 * 1) (a + (b - a) / 4 * 2)
      (a + (b - a) / 4 * 3) 0
    omega
  · dsimp only
    omega

theorem reverseLoop_swapsIn (a b : Nat) : ∀ (fuel i j : Nat) (data : List α), a ≤ i → j < b →
    b ≤ data.length → SwapsIn a b data (reverseLoop fuel i j data) := by
  intro fuel
  induction fuel with
  | zero => intro i j data _ _ _; exact SwapsIn.refl _
  | succ fuel ih =>
    intro i j data hi hj hlen
    unfold reverseLoop
    split_ifs with hc
    · exact (SwapsIn.swap data hi (by omega) (by omega) hj hlen).trans
        (ih (i + 1) (j - 1) _ (by omega) (by omega) (by rw [length_Swap]; exact hlen))
    · exact SwapsIn.refl _

theorem reverseRange_swapsIn (data : List α) (a b : Nat) (hab : a < b) (hlen : b ≤ data.length) :
    SwapsIn a b data (reverseRange_func data a b) := by
  unfold reverseRange_func
  exact reverseLoop_swapsIn a b _ _ _ _ (le_refl _) (by omega) hlen

theorem lenAux_pow (fuel : Nat) : ∀ n, n ≤ fuel → 1 ≤ n → 2 ^ bits.lenAux fuel n ≤ 2 * n := by
  induction fuel with
  | zero => intro n h1 h2; omega
  | succ fuel ih =>
    intro n h1 h2
    unfold bits.lenAux
    rw [if_neg (by omega)]
    by_cases hn : n = 1
    · subst hn
      have : bits.lenAux fuel (1 / 2) = 0 := by
        cases fuel with
        | zero => rfl
        | succ f => unfold bits.lenAux; simp
      rw [this]
      decide
    · have := ih (n / 2) (by omega) (by omega)
      rw [pow_succ]
      omega

theorem nextPowerOfTwo_le (length : Nat) (h : 1 ≤ length) :
    nextPowerOfTwo length ≤ 2 * length := by
  unfold nextPowerOfTwo bits.Len
  rw [Nat.one_shiftLeft]
  exact (Nat.mod_le _ _).trans (lenAux_pow length length (le_refl _) h)

theorem breakLoop_swapsIn (a b length modulus idx : Nat) (hl : length = b - a) (h8 : 8 ≤ length)
    (hm : modulus ≤ 2 * length) (hidx : idx = a + (length / 4) * 2 - 1) :
    ∀ (n i random : Nat) (data : List α), i + n ≤ 3 → b ≤ data.length →
      SwapsIn a b data (breakLoop a length modulus idx n i random data) := by
  intro n
  induction n with
  | zero => intro i random data _ _; exact SwapsIn.refl _
  | succ n ih =>
    intro i random data hi hlen
    unfold breakLoop
    dsimp only
    have hand : xorshiftNext random &&& (modulus - 1) ≤ modulus - 1 := Nat.and_le_right
    generalize xorshiftNext random &&& (modulus - 1) = other at hand ⊢
    refine (SwapsIn.swap data (i := idx + i)
      (j := a + if length ≤ other then other - length else other)
      (by omega) (by omega) (by omega) ?_ hlen).trans
      (ih (i + 1) _ _ (by omega) (by rw [length_Swap]; exact hlen))
    split_ifs <;> omega

theorem breakPatterns_swapsIn (data : List α) (a b : Nat) (hlen : b ≤ data.length) :
    SwapsIn a b data (breakPatterns_func data a b) := by
  unfold breakPatterns_func
  dsimp only
  split_ifs with h8
  · exact breakLoop_swapsIn a b (b - a) _ _ rfl h8 (nextPowerOfTwo_le _ (by omega)) rfl
      3 0 _ data (by omega) hlen
  · exact SwapsIn.refl _

theorem shiftGreater_swapsIn (lt : α → α → Bool) (i b : Nat) : ∀ (fuel j : Nat) (data : List α), i < j →
    b ≤ data.length → SwapsIn i b data (shiftGreater lt b fuel j data) := by
  intro fuel
  induction fuel with
  | zero => intro j data _ _; exact SwapsIn.refl _
  | succ fuel ih =>
    intro j data hij hlen
    unfold shiftGreater
    split_ifs with h1 h2
    · exact SwapsIn.refl _
    · exact (SwapsIn.swap data (by omega) h1 (by omega) (by omega) hlen).trans
        (ih (j + 1) _ (by omega) (by rw [length_Swap]; exact hlen))
    · exact SwapsIn.refl _

theorem SortedOn.of_outside (key : α → Int) {a i b : Nat} {d d' : List α} (hs : SortedOn key d a i)
    (s : SwapsIn i b d d') : SortedOn key d' a i := by
  intro p q hp hpq hq
  rw [s.kAt_outside key p (by omega), s.kAt_outside key q (by omega)]
  exact hs p q hp hpq hq

section partialInsertion
variable (key : α → Int) (lt : α → α → Bool) (hlt : ∀ x y, lt x y = decide (key x < key y))
include hlt

theorem scanSorted_spec (data : List α) (a b : Nat) (hlen : b ≤ data.length) :
    ∀ (fuel i : Nat), a < i → i ≤ b → b ≤ fuel + i → SortedOn key data a i →
    i ≤ scanSorted lt data b fuel i ∧ scanSorted lt data b fuel i ≤ b ∧
    SortedOn key data a (scanSorted lt data b fuel i) ∧
    (scanSorted lt data b fuel i < b →
      kAt key data (scanSorted lt data b fuel i)
        < kAt key data (scanSorted lt data b fuel i - 1)) := by
  intro fuel
  induction fuel with
  | zero =>
    intro i h1 h2 h3 hs
    unfold scanSorted
    exact ⟨le_refl _, h2, hs, fun h => by omega⟩
  | succ fuel ih =>
    intro i h1 h2 h3 hs
    unfold scanSorted
    split_ifs with hc
    · obtain ⟨hc1, hc2⟩ := hc
      rw [Less_false_iff key lt hlt data (by omega) (by omega)] at hc2
      obtain ⟨r1, r2, r3, r4⟩ := ih (i + 1) (by omega) (by omega) (by omega)
        (by
          intro p q hp hpq hq
          by_cases hqi : q = i
          · by_cases hpi : p = i
            · rw [hpi, hqi]
            · have := hs p (i - 1) hp (by omega) (by omega)
              rw [hqi]
              omega
          · exact hs p q hp hpq (by omega))
      exact ⟨by omega, r2, r3, r4⟩
    · refine ⟨le_refl _, h2, hs, ?_⟩
      intro hib
      have : Less lt data i (i - 1) = true := by
        by_contra hx
        exact hc ⟨hib, by simpa using hx⟩
      rwa [Less_true_iff key lt hlt data (by omega) (by omega)] at this

theorem shiftSmaller_eq (a b : Nat) : ∀ (j : Nat) (data : List α), a ≤ j → j < b →
    b ≤ data.length → LowerBound key data a b →
    shiftSmaller lt j data = insertionInner lt a j data := by
  intro j
  induction j with
  | zero => intro data _ _ _ _; rfl
  | succ j ih =>
    intro data haj hjb hlen hlb
    unfold shiftSmaller insertionInner
    by_cases hl : Less lt data (j + 1) j = false
    · rw [if_pos hl, if_neg (by rw [hl]; simp)]
    · rw [if_neg hl]
      have hl' : Less lt data (j + 1) j = true := by simpa using hl
      have hk := (Less_true_iff key lt hlt data (by omega) (by omega)).mp hl'
      by_cases haj' : a < j + 1
      · rw [if_pos ⟨haj', hl'⟩]
        have sw : SwapsIn a b data (Swap data (j + 1) j) :=
          SwapsIn.swap data (by omega) (by omega) (by omega) (by omega) hlen
        exact ih _ (by omega) (by omega) (by rw [length_Swap]; exact hlen)
          (hlb.of_swapsIn key sw)
      · have haeq : a = j + 1 := by omega
        subst haeq
        rcases hlb with h0 | h0
        · omega
        · have := h0 (j + 1) (le_refl _) hjb
          simp only [Nat.add_sub_cancel] at this
          omega

theorem partialSteps_spec (a b : Nat) : ∀ (steps i : Nat) (data : List α), a < i → i ≤ b →
    b ≤ data.length → SortedOn key data a i → LowerBound key data a b →
    SwapsIn a b data (partialSteps lt a b steps i data).1 ∧
    ((partialSteps lt a b steps i data).2 = true →
      SortedOn key (partialSteps lt a b steps i data).1 a b) := by
  intro steps
  induction steps with
  | zero =>
    intro i data _ _ _ _ _
    unfold partialSteps
    exact ⟨SwapsIn.refl _, fun h => by simp at h⟩
  | succ steps ih =>
    intro i data hai hib hlen hs hlb
    unfold partialSteps
    dsimp only
    obtain ⟨r1, r2, r3, r4⟩ := scanSorted_spec key lt hlt data a b hlen (b - i) i hai hib
      (by omega) hs
    generalize scanSorted lt data b (b - i) i = i' at r1 r2 r3 r4 ⊢
    by_cases hib' : i' = b
    · rw [if_pos hib']
      subst hib'
      exact ⟨SwapsIn.refl _, fun _ => r3⟩
    · rw [if_neg hib']
      by_cases h50 : b - a < 50
      · rw [if_pos h50]
        exact ⟨SwapsIn.refl _, fun h => by simp at h⟩
      · rw [if_neg h50]
        have hi'l : i' < data.length := by omega
        have hi'1 : i' - 1 < data.length := by omega
        have sw1 : SwapsIn a b data (Swap data i' (i' - 1)) :=
          SwapsIn.swap data (by omega) (by omega) (by omega) (by omega) hlen
        have hl1 : (Swap data i' (i' - 1)).length = data.length := length_Swap _ _ _
        have hs1 : SortedOn key (Swap data i' (i' - 1)) a (i' - 1) := by
          intro p q hp hpq hq
          rw [kAt_Swap key data hi'l hi'1, kAt_Swap key data hi'l hi'1]
          rw [if_neg (by omega), if_neg (by omega), if_neg (by omega), if_neg (by omega)]
          exact r3 p q hp hpq (by omega)
        have hlb1 := hlb.of_swapsIn key sw1
        generalize Swap data i' (i' - 1) = d1 at sw1 hl1 hs1 hlb1 ⊢
        have step2 : SwapsIn a b d1 (if 2 ≤ i' - a then shiftSmaller lt (i' - 1) d1 else d1) ∧
            SortedOn key (if 2 ≤ i' - a then shiftSmaller lt (i' - 1) d1 else d1) a i' := by
          split_ifs with h2
          · rw [shiftSmaller_eq key lt hlt a b (i' - 1) d1 (by omega) (by omega) (by omega) hlb1]
            obtain ⟨s1, s2⟩ := insertionInner_spec key lt hlt a (i' - 1) (i' - 1) d1 (by omega)
              (le_refl _) (by omega) hs1
              (by intro p q hp hpq hq
                  have : p = q := by omega
                  rw [this])
              (by intro p q _ _ _ _; omega)
            rw [show i' - 1 + 1 = i' by omega] at s1 s2
            exact ⟨s1.mono (le_refl _) (by omega) (by omega), s2⟩
          · refine ⟨SwapsIn.refl _, ?_⟩
            intro p q hp hpq hq
            have : p = q := by omega
            rw [this]
        obtain ⟨sw2, hs2⟩ := step2
        have hl2 : (if 2 ≤ i' - a then shiftSmaller lt (i' - 1) d1 else d1).length
            = data.length := by rw [sw2.length_eq, hl1]
        have hlb2 := hlb1.of_swapsIn key sw2
        generalize (if 2 ≤ i' - a then shiftSmaller lt (i' - 1) d1 else d1) = d2
          at sw2 hs2 hl2 hlb2 ⊢
        have step3 : SwapsIn i' b d2
            (if 2 ≤ b - i' then shiftGreater lt b (b - i') (i' + 1) d2 else d2) := by
          split_ifs with h2
          · exact shiftGreater_swapsIn lt i' b _ _ _ (by omega) (by omega)
          · exact SwapsIn.refl _
        have sw3 : SwapsIn a b d2
            (if 2 ≤ b - i' then shiftGreater lt b (b - i') (i' + 1) d2 else d2) :=
          step3.mono (by omega) (le_refl _) (by omega)
        have hs3 := SortedOn.of_outside key hs2 step3
        have hlb3 := hlb2.of_swapsIn key sw3
        generalize (if 2 ≤ b - i' then shiftGreater lt b (b - i') (i' + 1) d2 else d2) = d3
          at sw3 hs3 hlb3 ⊢
        obtain ⟨t1, t2⟩ := ih i' d3 (by omega) (by omega)
          (by rw [sw3.length_eq, hl2]; exact hlen) hs3 hlb3
        exact ⟨sw1.trans (sw2.trans (sw3.trans t1)), t2⟩

theorem partialInsertionSort_spec (data : List α) (a b : Nat) (hab : a < b)
    (hlen : b ≤ data.length) (hlb : LowerBound key data a b) :
    SwapsIn a b data (partialInsertionSort_func lt data a b).1 ∧
    ((partialInsertionSort_func lt data a b).2 = true →
      SortedOn key (partialInsertionSort_func lt data a b).1 a b) := by
  unfold partialInsertionSort_func
  exact partialSteps_spec key lt hlt a b 5 (a + 1) data (by omega) (by omega) hlen
    (by intro p q hp hpq hq
        have : p = q := by omega
        rw [this]) hlb

end partialInsertion
end sort

namespace sort
variable {α : Type}

theorem LowerBound.restrict (key : α → Int) {a b m : Nat} {d : List α}
    (h : LowerBound key d a b) (hm : m ≤ b) : LowerBound key d a m := by
  rcases h with h | h
  · exact Or.inl h
  · exact Or.inr fun k hk1 hk2 => h k hk1 (by omega)

theorem sortedOn_of_parts (key : α → Int) (d : List α) (a mid b : Nat) (P : Int)
    (h1 : SortedOn key d a mid) (h2 : SortedOn key d (mid + 1) b)
    (h3 : ∀ k, a ≤ k → k < mid → kAt key d k ≤ P) (h4 : kAt key d mid = P)
    (h5 : ∀ k, mid < k → k < b → P ≤ kAt key d k) : SortedOn key d a b := by
  intro p q hp hpq hq
  by_cases hq1 : q < mid
  · exact h1 p q hp hpq hq1
  · by_cases hp1 : mid < p
    · exact h2 p q (by omega) hpq hq
    · by_cases hpm : p = mid
      · by_cases hqm : q = mid
        · rw [hpm, hqm]
        · have := h5 q (by omega) hq
          rw [hpm, h4]
          exact this
      · have e1 := h3 p hp (by omega)
        by_cases hqm : q = mid
        · rw [hqm, h4]
          exact e1
        · have := h5 q (by omega) hq
          omega

section pdq
variable (key : α → Int) (lt : α → α → Bool) (hlt : ∀ x y, lt x y = decide (key x < key y))
include hlt

theorem pdqsort_spec : ∀ (fuel : Nat) (data : List α) (a b limit : Nat) (wB wP : Bool),
    a ≤ b → b ≤ data.length → b - a ≤ fuel → LowerBound key data a b →
    SwapsIn a b data (pdqsort_func lt fuel data a b limit wB wP) ∧
      SortedOn key (pdqsort_func lt fuel data a b limit wB wP) a b := by
  intro fuel
  induction fuel with
  | zero =>
    intro data a b limit wB wP hab hlen hf hlb
    unfold pdqsort_func
    exact ⟨SwapsIn.refl _, by intro p q hp hpq hq; omega⟩
  | succ fuel ih =>
    intro data a b limit wB wP hab hlen hf hlb
    unfold pdqsort_func
    dsimp only
    by_cases h12 : b - a ≤ 12
    · rw [if_pos h12]
      exact insertionSort_spec key lt hlt data a b hlen
    · rw [if_neg h12]
      by_cases hl0 : limit = 0
      · rw [if_pos hl0]
        exact heapSort_spec key lt hlt data a b hab hlen
      · rw [if_neg hl0]
        have sw1 : SwapsIn a b data (if wB = false then breakPatterns_func data a b else data) := by
          split_ifs
          · exact breakPatterns_swapsIn data a b hlen
          · exact SwapsIn.refl _
        generalize (if wB = false then breakPatterns_func data a b else data) = d1 at sw1 ⊢
        generalize (if wB = false then limit - 1 else limit) = limit'
        have hpr := choosePivot_range lt d1 a b (by omega)
        generalize choosePivot_func lt d1 a b = ph at hpr ⊢
        generalize (if ph.2 = sortedHint.decreasingHint then sortedHint.increasingHint
          else ph.2) = hint
        have hl1 : d1.length = data.length := sw1.length_eq
        have sw2 : SwapsIn a b d1
            (if ph.2 = sortedHint.decreasingHint then reverseRange_func d1 a b else d1) := by
          split_ifs
          · exact reverseRange_swapsIn d1 a b (by omega) (by omega)
          · exact SwapsIn.refl _
        generalize (if ph.2 = sortedHint.decreasingHint then reverseRange_func d1 a b else d1)
          = d2 at sw2 ⊢
        have hpv : a ≤ (if ph.2 = sortedHint.decreasingHint then b - 1 - (ph.1 - a) else ph.1) ∧
            (if ph.2 = sortedHint.decreasingHint then b - 1 - (ph.1 - a) else ph.1) < b := by
          split_ifs <;> omega
        generalize (if ph.2 = sortedHint.decreasingHint then b - 1 - (ph.1 - a) else ph.1)
          = pivot at hpv ⊢
        generalize (wB && wP && decide (hint = sortedHint.increasingHint)) = tp
        have hl2 : d2.length = data.length := by rw [sw2.length_eq, hl1]
        have hlb2 : LowerBound key d2 a b := (hlb.of_swapsIn key sw1).of_swapsIn key sw2
        have hpis : SwapsIn a b d2
              (if tp = true then partialInsertionSort_func lt d2 a b else (d2, false)).1 ∧
            ((if tp = true then partialInsertionSort_func lt d2 a b else (d2, false)).2 = true →
              SortedOn key
                (if tp = true then partialInsertionSort_func lt d2 a b else (d2, false)).1 a b) := by
          split_ifs
          · exact partialInsertionSort_spec key lt hlt d2 a b (by omega) (by omega) hlb2
          · exact ⟨SwapsIn.refl _, fun h => by simp at h⟩
        generalize (if tp = true then partialInsertionSort_func lt d2 a b else (d2, false))
          = pis at hpis ⊢
        obtain ⟨d3, ok⟩ := pis
        obtain ⟨sw3, hok⟩ := hpis
        dsimp only at sw3 hok ⊢
        have sw03 : SwapsIn a b data d3 := sw1.trans (sw2.trans sw3)
        have hl3 : d3.length = data.length := sw03.length_eq
        have hlb3 : LowerBound key d3 a b := hlb.of_swapsIn key sw03
        by_cases hret : (tp && ok) = true
        · rw [if_pos hret]
          simp only [Bool.and_eq_true] at hret
          exact ⟨sw03, hok hret.2⟩
        · rw [if_neg hret]
          by_cases hpe : 0 < a ∧ Less lt d3 (a - 1) pivot = false
          · rw [if_pos hpe]
            obtain ⟨hpe1, hpe2⟩ := hpe
            rw [Less_false_iff key lt hlt d3 (by omega) (by omega)] at hpe2
            obtain ⟨e1, e2, e3, e4, e5⟩ := partitionEqual_spec key lt hlt d3 a b pivot hpv.1 hpv.2
              (by omega)
            generalize partitionEqual_func lt d3 a b pivot = pe at e1 e2 e3 e4 e5 ⊢
            obtain ⟨d4, mid⟩ := pe
            dsimp only at e1 e2 e3 e4 e5 ⊢
            have hl4 : d4.length = data.length := by rw [e1.length_eq, hl3]
            have hlb4 : LowerBound key d4 a b := hlb3.of_swapsIn key e1
            have hlow : ∀ k, a ≤ k → k < b → kAt key d3 pivot ≤ kAt key d4 k := by
              rcases hlb4 with h0 | h0
              · omega
              · intro k hk1 hk2
                have := h0 k hk1 hk2
                rw [e1.kAt_outside key (a - 1) (by omega)] at this
                omega
            obtain ⟨s1, s2⟩ := ih d4 mid b limit' wB wP e3 (by omega) (by omega)
              (Or.inr (by
                intro k hk1 hk2
                have q1 := e4 (mid - 1) (by omega) (by omega)
                have q2 := e5 k hk1 hk2
                omega))
            generalize pdqsort_func lt fuel d4 mid b limit' wB wP = out at s1 s2 ⊢
            refine ⟨sw03.trans (e1.trans (s1.mono (by omega) (le_refl _) (by omega))), ?_⟩
            have hhi : ∀ k, mid ≤ k → k < b → kAt key d3 pivot < kAt key out k :=
              s1.forall_range key (fun v => kAt key d3 pivot < v) e5
            intro p q hp hpq hq
            by_cases hpm : mid ≤ p
            · exact s2 p q hpm hpq hq
            · rw [s1.kAt_outside key p (by omega)]
              have q1 := e4 p hp (by omega)
              by_cases hqm : mid ≤ q
              · have := hhi q hqm hq
                omega
              · rw [s1.kAt_outside key q (by omega)]
                have := hlow q (by omega) hq
                omega
          · rw [if_neg hpe]
            obtain ⟨f1, f2, f3, f4, f5⟩ := partition_spec key lt hlt d3 a b pivot hpv.1 hpv.2
              (by omega)
            generalize partition_func lt d3 a b pivot = pt at f1 f2 f3 f4 f5 ⊢
            obtain ⟨d4, mid, ap⟩ := pt
            dsimp only at f1 f2 f3 f4 f5 ⊢
            have hl4 : d4.length = data.length := by rw [f1.length_eq, hl3]
            have hlb4 : LowerBound key d4 a b := hlb3.of_swapsIn key f1
            have sw04 : SwapsIn a b data d4 := sw03.trans f1
            split_ifs with hside
            · obtain ⟨s1, s2⟩ := ih d4 a mid limit' true true f2 (by omega) (by omega)
                (hlb4.restrict key (by omega))
              generalize pdqsort_func lt fuel d4 a mid limit' true true = dA at s1 s2 ⊢
              have hlA : dA.length = data.length := by rw [s1.length_eq, hl4]
              have hmA : kAt key dA mid = kAt key d4 mid := s1.kAt_outside key mid (by omega)
              obtain ⟨t1, t2⟩ := ih dA (mid + 1) b limit' (decide ((b - a) / 8 ≤ mid - a)) ap
                (by omega) (by omega) (by omega)
                (Or.inr (by
                  intro k hk1 hk2
                  rw [Nat.add_sub_cancel, hmA, s1.kAt_outside key k (by omega)]
                  exact f5 k (by omega) hk2))
              generalize pdqsort_func lt fuel dA (mid + 1) b limit'
                (decide ((b - a) / 8 ≤ mid - a)) ap = out at t1 t2 ⊢
              refine ⟨sw04.trans ((s1.mono (le_refl _) (by omega) (by omega)).trans
                (t1.mono (by omega) (le_refl _) (by omega))), ?_⟩
              apply sortedOn_of_parts key out a mid b (kAt key d4 mid)
              · exact SortedOn.of_outside key s2 (t1.mono (by omega) (le_refl _) (by omega))
              · exact t2
              · intro k hk1 hk2
                rw [t1.kAt_outside key k (by omega)]
                exact le_of_lt (s1.forall_range key (fun v => v < kAt key d4 mid) f4 k hk1 hk2)
              · rw [t1.kAt_outside key mid (by omega), hmA]
              · intro k hk1 hk2
                apply t1.forall_range key (fun v => kAt key d4 mid ≤ v) ?_ k (by omega) hk2
                intro k hk1 hk2
                rw [s1.kAt_outside key k (by omega)]
                exact f5 k (by omega) hk2
            · obtain ⟨s1, s2⟩ := ih d4 (mid + 1) b limit' true true (by omega) (by omega)
                (by omega)
                (Or.inr (by
                  intro k hk1 hk2
                  rw [Nat.add_sub_cancel]
                  exact f5 k (by omega) hk2))
              generalize pdqsort_func lt fuel d4 (mid + 1) b limit' true true = dA at s1 s2 ⊢
              have hlA : dA.length = data.length := by rw [s1.length_eq, hl4]
              have hmA : kAt key dA mid = kAt key d4 mid := s1.kAt_outside key mid (by omega)
              have hlbA : LowerBound key dA a mid := by
                rcases hlb4 with h0 | h0
                · exact Or.inl h0
                · by_cases ha0 : a = 0
                  · exact Or.inl ha0
                  · right
                    intro k hk1 hk2
                    rw [s1.kAt_outside key (a - 1) (by omega), s1.kAt_outside key k (by omega)]
                    exact h0 k hk1 (by omega)
              obtain ⟨t1, t2⟩ := ih dA a mid limit' (decide ((b - a) / 8 ≤ b - mid)) ap
                f2 (by omega) (by omega) hlbA
              generalize pdqsort_func lt fuel dA a mid limit'
                (decide ((b - a) / 8 ≤ b - mid)) ap = out at t1 t2 ⊢
              refine ⟨sw04.trans ((s1.mono (by omega) (le_refl _) (by omega)).trans
                (t1.mono (le_refl _) (by omega) (by omega))), ?_⟩
              apply sortedOn_of_parts key out a mid b (kAt key d4 mid)
              · exact t2
              · intro p q hp hpq hq
                rw [t1.kAt_outside key p (by omega), t1.kAt_outside key q (by omega)]
                exact s2 p q hp hpq hq
              · intro k hk1 hk2
                apply le_of_lt
                apply t1.forall_range key (fun v => v < kAt key d4 mid) ?_ k hk1 hk2
                intro k hk1 hk2
                rw [s1.kAt_outside key k (by omega)]
                exact f4 k hk1 hk2
              · rw [t1.kAt_outside key mid (by omega), hmA]
              · intro k hk1 hk2
                rw [t1.kAt_outside key k (by omega)]
                exact s1.forall_range key (fun v => kAt key d4 mid ≤ v)
                  (fun k hk1 hk2 => f5 k (by omega) hk2) k (by omega) hk2

theorem Slice_spec (x : List α) :
    (Slice x lt).Perm x ∧ SortedOn key (Slice x lt) 0 x.length := by
  unfold Slice
  obtain ⟨s1, s2⟩ := pdqsort_spec key lt hlt (x.length + 1) x 0 x.length (bits.Len x.length)
    true true (Nat.zero_le _) (le_refl _) (by omega) (Or.inl rfl)
  exact ⟨s1.perm, s2⟩

end pdq
end sort

namespace sort
variable {α : Type}

theorem lenAux_ne_zero (fuel n : Nat) (h1 : 1 ≤ n) (h2 : n ≤ fuel) : bits.lenAux fuel n ≠ 0 := by
  cases fuel with
  | zero => omega
  | succ f =>
    unfold bits.lenAux
    rw [if_neg (by omega)]
    omega

section sortedInput
variable (key : α → Int) (lt : α → α → Bool) (hlt : ∀ x y, lt x y = decide (key x < key y))
include hlt

theorem Less_false_of_sorted (data : List α) (a b : Nat) (hlen : b ≤ data.length)
    (hs : SortedOn key data a b) (x y : Nat) (hx : a ≤ x) (hxy : x ≤ y) (hy : y < b) :
    Less lt data y x = false := by
  rw [Less_false_iff key lt hlt data (by omega) (by omega)]
  exact hs x y hx hxy hy

theorem insertionInner_of_sorted (data : List α) (a b : Nat) (hlen : b ≤ data.length)
    (hs : SortedOn key data a b) (i : Nat) (hai : a < i) (hib : i < b) :
    insertionInner lt a i data = data := by
  cases i with
  | zero => rfl
  | succ j =>
    unfold insertionInner
    rw [if_neg]
    intro h
    have := Less_false_of_sorted key lt hlt data a b hlen hs j (j + 1) (by omega) (by omega) hib
    rw [this] at h
    simp at h

theorem insertionOuter_of_sorted (data : List α) (a b : Nat) (hlen : b ≤ data.length)
    (hs : SortedOn key data a b) : ∀ (fuel i : Nat), a < i →
    insertionOuter lt a b fuel i data = data := by
  intro fuel
  induction fuel with
  | zero => intro i _; rfl
  | succ fuel ih =>
    intro i hai
    unfold insertionOuter
    split_ifs with hc
    · rw [insertionInner_of_sorted key lt hlt data a b hlen hs i hai hc]
      exact ih (i + 1) (by omega)
    · rfl

theorem order2_of_sorted (data : List α) (a b : Nat) (hlen : b ≤ data.length)
    (hs : SortedOn key data a b) (x y s : Nat) (hx : a ≤ x) (hxy : x ≤ y) (hy : y < b) :
    order2_func lt data x y s = (x, y, s) := by
  unfold order2_func
  rw [Less_false_of_sorted key lt hlt data a b hlen hs x y hx hxy hy]
  simp

theorem median_of_sorted (data : List α) (a b : Nat) (hlen : b ≤ data.length)
    (hs : SortedOn key data a b) (x y z s : Nat) (hx : a ≤ x) (hxy : x ≤ y) (hyz : y ≤ z)
    (hz : z < b) : median_func lt data x y z s = (y, s) := by
  unfold median_func
  dsimp only
  rw [order2_of_sorted key lt hlt data a b hlen hs x y s hx hxy (by omega)]
  dsimp only
  rw [order2_of_sorted key lt hlt data a b hlen hs y z s (by omega) hyz hz]
  dsimp only
  rw [order2_of_sorted key lt hlt data a b hlen hs x y s hx hxy (by omega)]

theorem choosePivot_of_sorted (data : List α) (a b : Nat) (hlen : b ≤ data.length)
    (hs : SortedOn key data a b) :
    (choosePivot_func lt data a b).2 = sortedHint.increasingHint := by
  unfold choosePivot_func
  dsimp only
  have key2 : ∀ r : Nat × Nat, r.2 = 0 →
      (if r.2 = 0 then (r.1, sortedHint.increasingHint)
        else if r.2 = 12 then (r.1, sortedHint.decreasingHint)
        else (r.1, sortedHint.unknownHint)).2 = sortedHint.increasingHint := by
    intro r hr
    rw [if_pos hr]
  apply key2
  split_ifs with h8 h50
  · unfold medianAdjacent_func
    rw [median_of_sorted key lt hlt data a b hlen hs _ _ _ 0 (by omega) (by omega) (by omega)
      (by omega)]
    dsimp only
    rw [median_of_sorted key lt hlt data a b hlen hs _ _ _ 0 (by omega) (by omega) (by omega)
      (by omega)]
    dsimp only
    rw [median_of_sorted key lt hlt data a b hlen hs _ _ _ 0 (by omega) (by omega) (by omega)
      (by omega)]
    dsimp only
    rw [median_of_sorted key lt hlt data a b hlen hs _ _ _ 0 (by omega) (by omega) (by omega)
      (by omega)]
  · rw [median_of_sorted key lt hlt data a b hlen hs _ _ _ 0 (by omega) (by omega) (by omega)
      (by omega)]
  · rfl

theorem scanSorted_of_sorted (data : List α) (a b : Nat) (hlen : b ≤ data.length)
    (hs : SortedOn key data a b) : ∀ (fuel i : Nat), a < i → i ≤ b → b ≤ fuel + i →
    scanSorted lt data b fuel i = b := by
  intro fuel
  induction fuel with
  | zero =>
    intro i _ h2 h3
    unfold scanSorted
    omega
  | succ fuel ih =>
    intro i h1 h2 h3
    unfold scanSorted
    split_ifs with hc
    · exact ih (i + 1) (by omega) (by omega) (by omega)
    · by_cases hib : i < b
      · exfalso
        exact hc ⟨hib, Less_false_of_sorted key lt hlt data a b hlen hs (i - 1) i (by omega)
          (by omega) hib⟩
      · omega

theorem partialInsertionSort_of_sorted (data : List α) (a b : Nat) (hab : a < b)
    (hlen : b ≤ data.length) (hs : SortedOn key data a b) :
    partialInsertionSort_func lt data a b = (data, true) := by
  unfold partialInsertionSort_func partialSteps
  dsimp only
  rw [scanSorted_of_sorted key lt hlt data a b hlen hs (b - (a + 1)) (a + 1) (by omega)
    (by omega) (by omega)]
  rw [if_pos rfl]

theorem pdqsort_of_sorted (data : List α) (a b fuel limit : Nat) (hlen : b ≤ data.length)
    (hs : SortedOn key data a b) (hl : limit ≠ 0) :
    pdqsort_func lt (fuel + 1) data a b limit true true = data := by
  unfold pdqsort_func
  dsimp only
  by_cases h12 : b - a ≤ 12
  · rw [if_pos h12]
    unfold insertionSort_func
    exact insertionOuter_of_sorted key lt hlt data a b hlen hs _ _ (by omega)
  · rw [if_neg h12, if_neg hl]
    simp only [Bool.true_eq_false, if_false, Bool.true_and]
    rw [choosePivot_of_sorted key lt hlt data a b hlen hs]
    simp only [reduceCtorEq, if_false, decide_True, if_true, Bool.true_and]
    rw [partialInsertionSort_of_sorted key lt hlt data a b (by omega) hlen hs]
    simp

theorem Slice_of_sorted (x : List α) (hs : SortedOn key x 0 x.length) : Slice x lt = x := by
  unfold Slice
  dsimp only
  by_cases h0 : x.length = 0
  · rw [h0]
    unfold pdqsort_func
    dsimp only
    rw [if_pos (by omega)]
    rfl
  · exact pdqsort_of_sorted key lt hlt x 0 x.length x.length (bits.Len x.length) (le_refl _) hs
      (lenAux_ne_zero _ _ (by omega) (le_refl _))

theorem Slice_idempotent (x : List α) : Slice (Slice x lt) lt = Slice x lt := by
  obtain ⟨h1, h2⟩ := Slice_spec key lt hlt x
  apply Slice_of_sorted key lt hlt
  rw [h1.length_eq]
  exact h2

end sortedInput
end sort

theorem Parse_ok_or_zero (value : List Char) :
    (time.Parse value).2 = none ∨ (time.Parse value).1 = time.Time.zero := by
  unfold time.Parse
  repeat' split
  all_goals first
    | exact Or.inr rfl
    | exact Or.inl rfl

theorem Parse_error_zero (value : List Char) (h : (time.Parse value).2 ≠ none) :
    (time.Parse value).1 = time.Time.zero := by
  rcases Parse_ok_or_zero value with h1 | h1
  · exact absurd h1 h
  · exact h1

theorem parseDate_error_zero (dateStr : String) (h : (parseDate dateStr).2 ≠ none) :
    (parseDate dateStr).1 = time.Time.zero := by
  unfold parseDate at h ⊢
  dsimp only at h ⊢
  split_ifs at h ⊢ with hm
  · rfl
  · exact Parse_error_zero _ h

theorem dateLess_eq_key (x y : NewsArticle) :
    dateLess x y = decide (dateKey x < dateKey y) := by
  unfold dateLess time.Time.After dateKey
  simp

theorem kAt_getElem? {α : Type} (key : α → Int) (data : List α) (i : Nat) (x : α)
    (h : data[i]? = some x) : sort.kAt key data i = key x := by
  unfold sort.kAt
  rw [h]

theorem sortedByDate (articles : List NewsArticle) :
    (sort.Slice articles dateLess).Perm articles ∧
      sort.SortedOn dateKey (sort.Slice articles dateLess) 0 articles.length :=
  sort.Slice_spec dateKey dateLess dateLess_eq_key articles

theorem finalize_berita (elapsedMs : Nat) (articles : List NewsArticle) :
    (finalize elapsedMs articles).1.Data.Dapo.Berita = sort.Slice articles dateLess := by
  unfold finalize
  dsimp only
  split_ifs with h
  · dsimp only
    exact (List.length_eq_zero.mp h).symm
  · rfl

theorem countHolders_setTask (tasks : Nat → TaskState) (n : Nat) (t : TaskState) :
    ∀ N, countHolders (setTask tasks n t) N
        + (if n < N ∧ (tasks n).holdsPermit = true then 1 else 0)
      = countHolders tasks N + (if n < N ∧ t.holdsPermit = true then 1 else 0) := by
  intro N
  induction N with
  | zero => simp [countHolders]
  | succ N ih =>
    unfold countHolders
    by_cases hn : N = n
    · subst hn
      have e1 : countHolders (setTask tasks N t) N = countHolders tasks N := by
        have := ih
        simp only [lt_irrefl, false_and, if_false, add_zero] at this
        exact this
      have e2 : setTask tasks N t N = t := by simp [setTask]
      rw [e1, e2]
      simp only [Nat.lt_succ_self, true_and]
      omega
    · have e2 : setTask tasks n t N = tasks N := by simp [setTask, hn]
      rw [e2]
      have h1 : n < N + 1 ↔ n < N := by
        constructor <;> intro h <;> omega
      simp only [h1]
      omega

theorem countActive_setTask (tasks : Nat → TaskState) (n : Nat) (t : TaskState) :
    ∀ N, countActive (setTask tasks n t) N
        + (if n < N ∧ (tasks n).active = true then 1 else 0)
      = countActive tasks N + (if n < N ∧ t.active = true then 1 else 0) := by
  intro N
  induction N with
  | zero => simp [countActive]
  | succ N ih =>
    unfold countActive
    by_cases hn : N = n
    · subst hn
      have e1 : countActive (setTask tasks N t) N = countActive tasks N := by
        have := ih
        simp only [lt_irrefl, false_and, if_false, add_zero] at this
        exact this
      have e2 : setTask tasks N t N = t := by simp [setTask]
      rw [e1, e2]
      simp only [Nat.lt_succ_self, true_and]
      omega
    · have e2 : setTask tasks n t N = tasks N := by simp [setTask, hn]
      rw [e2]
      have h1 : n < N + 1 ↔ n < N := by
        constructor <;> intro h <;> omega
      simp only [h1]
      omega

theorem countHolders_eq_zero (tasks : Nat → TaskState) :
    ∀ N, (∀ n, n < N → (tasks n).holdsPermit = false) → countHolders tasks N = 0 := by
  intro N
  induction N with
  | zero => intro _; rfl
  | succ N ih =>
    intro h
    unfold countHolders
    rw [ih (fun n hn => h n (by omega)), h N (by omega)]
    simp

theorem countActive_eq_zero_iff (tasks : Nat → TaskState) :
    ∀ N, countActive tasks N = 0 → ∀ n, n < N → (tasks n).active = false := by
  intro N
  induction N with
  | zero => intro _ n hn; omega
  | succ N ih =>
    intro h n hn
    unfold countActive at h
    by_cases hN : n = N
    · subst hN
      by_contra hc
      have : (tasks n).active = true := by simpa using hc
      rw [this] at h
      simp at h
    · exact ih (by omega) n (by omega)

theorem initState_inv (maxPages concurrentLimit : Nat) : Inv maxPages concurrentLimit initState := by
  have h1 : ∀ N, countHolders (fun _ => TaskState.notStarted) N = 0 := fun N =>
    countHolders_eq_zero _ N (fun _ _ => rfl)
  have h2 : ∀ N, countActive (fun _ => TaskState.notStarted) N = 0 := by
    intro N
    induction N with
    | zero => rfl
    | succ N ih => unfold countActive; rw [ih]; rfl
  refine ⟨?_, ?_, ?_, ?_, ?_, ?_, ?_, ?_, ?_, ?_, ?_⟩
  · exact Nat.zero_le _
  · show 0 = countHolders (fun _ => TaskState.notStarted) (maxPages + 1) + 0
    rw [h1]
  · show 0 = countActive (fun _ => TaskState.notStarted) (maxPages + 1) + 0
    rw [h2]
  · intro n _; rfl
  · rfl
  · intro n h1 h2
    have : initState.page = 1 := rfl
    omega
  · exact le_refl _
  · show 1 ≤ maxPages + 1
    omega
  · exact Or.inl (Or.inl rfl)
  · intro h
    rcases h with h | h <;> cases h
  · intro h
    have hpc : initState.pc = .loop := rfl
    rw [hpc] at h
    simp at h

theorem Inv.lt_page {maxPages concurrentLimit : Nat} {s : State}
    (hinv : Inv maxPages concurrentLimit s) (n : Nat) (h : s.tasks n ≠ .notStarted) :
    1 ≤ n ∧ n < s.page ∧ n < maxPages + 1 := by
  have h1 : n < s.page := by
    by_contra hc
    exact h (hinv.idle n (by omega))
  have h2 : n ≠ 0 := by
    intro h0
    rw [h0] at h
    exact h hinv.idle0
  have := hinv.page_le
  omega

theorem step_main_inv (maxPages concurrentLimit : Nat) (baseUrl : String)
    (scrapePage : String → PageResult) (elapsedMs : Nat) (s s' : State)
    (hinv : Inv maxPages concurrentLimit s)
    (h : step maxPages concurrentLimit baseUrl scrapePage elapsedMs .main s = some s') :
    Inv maxPages concurrentLimit s' := by
  obtain ⟨i1, i2, i3, i4, i5, i6, i7, i8, i9, i10, i11⟩ := hinv
  unfold step at h
  dsimp only at h
  split at h
  · rename_i hpc
    rw [hpc] at i2 i3
    simp only [reduceCtorEq, if_false, or_self, add_zero] at i2 i3
    split_ifs at h with hp
    · cases h
      refine ⟨i1, ?_, ?_, i4, i5, i6, i7, i8, ?_, ?_, ?_⟩ <;> dsimp only
      · simp only [reduceCtorEq, if_false, add_zero]; exact i2
      · simp only [true_or, if_true]; omega
      · exact Or.inl (Or.inr (Or.inl rfl))
      · intro _; exact hp
      · intro hc; simp at hc
    · cases h
      refine ⟨i1, ?_, ?_, i4, i5, i6, i7, i8, ?_, ?_, ?_⟩ <;> dsimp only
      · simp only [reduceCtorEq, if_false, add_zero]; exact i2
      · simp only [reduceCtorEq, or_self, if_false, add_zero]; exact i3
      · right; omega
      · intro hc; rcases hc with hc | hc <;> cases hc
      · intro hc; simp at hc
  · rename_i hpc
    rw [hpc] at i2 i3
    simp only [reduceCtorEq, if_false, true_or, if_true, add_zero] at i2 i3
    split_ifs at h with hp
    cases h
    refine ⟨?_, ?_, ?_, i4, i5, i6, i7, i8, ?_, ?_, ?_⟩ <;> dsimp only
    · omega
    · simp only [if_true]; omega
    · simp only [or_true, if_true]; exact i3
    · exact Or.inl (Or.inr (Or.inr rfl))
    · intro _; exact i10 (Or.inl hpc)
    · intro hc; simp at hc
  · rename_i hpc
    rw [hpc] at i2 i3
    simp only [if_true, or_true] at i2 i3
    have hpl := i10 (Or.inr hpc)
    have hidle := i4 s.page (le_refl _)
    have c1 := countHolders_setTask s.tasks s.page .running (maxPages + 1)
    have c2 := countActive_setTask s.tasks s.page .running (maxPages + 1)
    rw [hidle] at c1 c2
    simp only [TaskState.holdsPermit, TaskState.active, and_true, Bool.false_eq_true,
      and_false, if_false, add_zero] at c1 c2
    rw [if_pos (by omega)] at c1 c2
    cases h
    refine ⟨i1, ?_, ?_, ?_, ?_, ?_, ?_, ?_, ?_, ?_, ?_⟩ <;> dsimp only
    · simp only [reduceCtorEq, if_false, add_zero]; omega
    · simp only [reduceCtorEq, or_self, if_false, add_zero]; omega
    · intro n hn
      simp only [setTask]
      rw [if_neg (by omega)]
      exact i4 n (by omega)
    · simp only [setTask]
      rw [if_neg (by omega)]
      exact i5
    · intro n hn1 hn2
      simp only [setTask]
      split_ifs with hnp
      · simp
      · exact i6 n hn1 (by omega)
    · omega
    · omega
    · exact Or.inl (Or.inl rfl)
    · intro hc; rcases hc with hc | hc <;> cases hc
    · intro hc; simp at hc
  · rename_i hpc
    rw [hpc] at i2 i3 i9
    simp only [reduceCtorEq, if_false, or_self, add_zero, false_or] at i2 i3 i9
    split_ifs at h with hw
    cases h
    refine ⟨i1, ?_, ?_, i4, i5, i6, i7, i8, ?_, ?_, ?_⟩ <;> dsimp only
    · simp only [reduceCtorEq, if_false, add_zero]; exact i2
    · simp only [reduceCtorEq, or_self, if_false, add_zero]; exact i3
    · exact Or.inr i9
    · intro hc; rcases hc with hc | hc <;> cases hc
    · intro _ n hn1 hn2
      have hact := countActive_eq_zero_iff s.tasks (maxPages + 1) (by omega) n (by omega)
      have hst := i6 n hn1 (by omega)
      revert hact hst
      cases s.tasks n <;> simp [TaskState.active]
  · rename_i hpc
    have hj := i11 (by simp [hpc])
    rw [hpc] at i2 i3 i9
    simp only [reduceCtorEq, if_false, or_self, add_zero, false_or] at i2 i3 i9
    cases h
    refine ⟨i1, ?_, ?_, i4, i5, i6, i7, i8, ?_, ?_, ?_⟩ <;> dsimp only
    · simp only [reduceCtorEq, if_false, add_zero]; exact i2
    · simp only [reduceCtorEq, or_self, if_false, add_zero]; exact i3
    · exact Or.inr i9
    · intro hc; rcases hc with hc | hc <;> cases hc
    · intro _; exact hj
  · rename_i hpc
    have hj := i11 (by simp [hpc])
    rw [hpc] at i2 i3 i9
    simp only [reduceCtorEq, if_false, or_self, add_zero, false_or] at i2 i3 i9
    cases h
    refine ⟨i1, ?_, ?_, i4, i5, i6, i7, i8, ?_, ?_, ?_⟩ <;> dsimp only
    · simp only [reduceCtorEq, if_false, add_zero]; exact i2
    · simp only [reduceCtorEq, or_self, if_false, add_zero]; exact i3
    · exact Or.inr i9
    · intro hc; rcases hc with hc | hc <;> cases hc
    · intro _; exact hj
  · rename_i hpc
    have hj := i11 (by simp [hpc])
    rw [hpc] at i2 i3 i9
    simp only [reduceCtorEq, if_false, or_self, add_zero, false_or] at i2 i3 i9
    split_ifs at h
    · cases h
      refine ⟨i1, ?_, ?_, i4, i5, i6, i7, i8, ?_, ?_, ?_⟩ <;> dsimp only
      · simp only [reduceCtorEq, if_false, add_zero]; exact i2
      · simp only [reduceCtorEq, or_self, if_false, add_zero]; exact i3
      · exact Or.inr i9
      · intro hc; rcases hc with hc | hc <;> cases hc
      · intro _; exact hj
    · cases h
      refine ⟨i1, ?_, ?_, i4, i5, i6, i7, i8, ?_, ?_, ?_⟩ <;> dsimp only
      · simp only [reduceCtorEq, if_false, add_zero]; exact i2
      · simp only [reduceCtorEq, or_self, if_false, add_zero]; exact i3
      · exact Or.inr i9
      · intro hc; rcases hc with hc | hc <;> cases hc
      · intro _; exact hj
  · rename_i hpc
    have hj := i11 (by simp [hpc])
    rw [hpc] at i2 i3 i9
    simp only [reduceCtorEq, if_false, or_self, add_zero, false_or] at i2 i3 i9
    cases h
    refine ⟨i1, ?_, ?_, i4, i5, i6, i7, i8, ?_, ?_, ?_⟩ <;> dsimp only
    · simp only [reduceCtorEq, if_false, add_zero]; exact i2
    · simp only [reduceCtorEq, or_self, if_false, add_zero]; exact i3
    · exact Or.inr i9
    · intro hc; rcases hc with hc | hc <;> cases hc
    · intro _; exact hj
  · rename_i hpc
    have hj := i11 (by simp [hpc])
    rw [hpc] at i2 i3 i9
    simp only [reduceCtorEq, if_false, or_self, add_zero, false_or] at i2 i3 i9
    cases h
    refine ⟨i1, ?_, ?_, i4, i5, i6, i7, i8, ?_, ?_, ?_⟩ <;> dsimp only
    · simp only [reduceCtorEq, if_false, add_zero]; exact i2
    · simp only [reduceCtorEq, or_self, if_false, add_zero]; exact i3
    · exact Or.inr i9
    · intro hc; rcases hc with hc | hc <;> cases hc
    · intro _; exact hj
  · cases h

theorem task_step_inv (maxPages concurrentLimit : Nat) (s s' : State) (n : Nat)
    (told tnew : TaskState) (hinv : Inv maxPages concurrentLimit s) (ht : s.tasks n = told)
    (hold : told ≠ .notStarted) (hnd : told ≠ .done) (hnew : tnew ≠ .notStarted)
    (hsem : s'.sem + (if told.holdsPermit = true then 1 else 0)
      = s.sem + (if tnew.holdsPermit = true then 1 else 0))
    (hsemle : s'.sem ≤ s.sem)
    (hwg : s'.wg + (if told.active = true then 1 else 0)
      = s.wg + (if tnew.active = true then 1 else 0))
    (h1 : s'.pc = s.pc) (h2 : s'.page = s.page) (h5 : s'.tasks = setTask s.tasks n tnew) :
    Inv maxPages concurrentLimit s' := by
  have hn := hinv.lt_page n (by rw [ht]; exact hold)
  obtain ⟨i1, i2, i3, i4, i5, i6, i7, i8, i9, i10, i11⟩ := hinv
  have c1 := countHolders_setTask s.tasks n tnew (maxPages + 1)
  have c2 := countActive_setTask s.tasks n tnew (maxPages + 1)
  rw [ht] at c1 c2
  simp only [hn.2.2, true_and] at c1 c2
  refine ⟨?_, ?_, ?_, ?_, ?_, ?_, ?_, ?_, ?_, ?_, ?_⟩
  · omega
  · rw [h5, h1]; omega
  · rw [h5, h1]; omega
  · intro k hk
    rw [h5]
    simp only [setTask]
    rw [if_neg (by omega)]
    exact i4 k (by omega)
  · rw [h5]
    simp only [setTask]
    rw [if_neg (by omega)]
    exact i5
  · intro k hk1 hk2
    rw [h5]
    simp only [setTask]
    split_ifs with hkn
    · exact hnew
    · exact i6 k hk1 (by omega)
  · omega
  · omega
  · rw [h1, h2]; exact i9
  · rw [h1, h2]; exact i10
  · rw [h1]
    intro hc
    exfalso
    have := i11 hc n hn.1 (by omega)
    rw [ht] at this
    exact hnd this

theorem countHolders_pos (tasks : Nat → TaskState) (n N : Nat) (hn : n < N)
    (h : (tasks n).holdsPermit = true) : 1 ≤ countHolders tasks N := by
  have := countHolders_setTask tasks n .notStarted N
  rw [if_pos ⟨hn, h⟩, if_neg (by simp [TaskState.holdsPermit])] at this
  omega

theorem countActive_pos (tasks : Nat → TaskState) (n N : Nat) (hn : n < N)
    (h : (tasks n).active = true) : 1 ≤ countActive tasks N := by
  have := countActive_setTask tasks n .notStarted N
  rw [if_pos ⟨hn, h⟩, if_neg (by simp [TaskState.active])] at this
  omega

theorem step_inv (maxPages concurrentLimit : Nat) (baseUrl : String)
    (scrapePage : String → PageResult) (elapsedMs : Nat) (a : Action) (s s' : State)
    (hinv : Inv maxPages concurrentLimit s)
    (h : step maxPages concurrentLimit baseUrl scrapePage elapsedMs a s = some s') :
    Inv maxPages concurrentLimit s' := by
  cases a with
  | main => exact step_main_inv maxPages concurrentLimit baseUrl scrapePage elapsedMs s s' hinv h
  | visit n =>
    unfold step at h
    dsimp only at h
    split at h
    · rename_i ht
      cases h
      split_ifs
      · exact task_step_inv maxPages concurrentLimit s _ n .running
          (.sending (scrapePage (pageUrl baseUrl n)).1) hinv ht (by simp) (by simp)
          (by simp) (by simp [TaskState.holdsPermit]) (le_refl _) (by simp [TaskState.active])
          rfl rfl rfl
      · exact task_step_inv maxPages concurrentLimit s _ n .running .releasing hinv ht (by simp)
          (by simp) (by simp) (by simp [TaskState.holdsPermit]) (le_refl _)
          (by simp [TaskState.active]) rfl rfl rfl
    · cases h
  | send n =>
    unfold step at h
    dsimp only at h
    split at h
    · rename_i pageArticles ht hr
      split_ifs at h
      cases h
      exact task_step_inv maxPages concurrentLimit s _ n (.sending pageArticles) .releasing hinv ht
        (by simp) (by simp) (by simp) (by simp [TaskState.holdsPermit]) (le_refl _)
        (by simp [TaskState.active]) rfl rfl rfl
    · cases h
  | release n =>
    unfold step at h
    dsimp only at h
    split at h
    · rename_i ht
      cases h
      have hn := hinv.lt_page n (by rw [ht]; simp)
      have hpos := countHolders_pos s.tasks n (maxPages + 1) hn.2.2 (by rw [ht]; rfl)
      have hsem := hinv.sem_eq
      exact task_step_inv maxPages concurrentLimit s _ n .releasing .finishing hinv ht
        (by simp) (by simp) (by simp)
        (by simp only [TaskState.holdsPermit, if_true, Bool.false_eq_true, if_false]; omega)
        (by dsimp only; omega) (by simp [TaskState.active]) rfl rfl rfl
    · cases h
  | done n =>
    unfold step at h
    dsimp only at h
    split at h
    · rename_i ht
      cases h
      have hn := hinv.lt_page n (by rw [ht]; simp)
      have hpos := countActive_pos s.tasks n (maxPages + 1) hn.2.2 (by rw [ht]; rfl)
      have hwg := hinv.wg_eq
      exact task_step_inv maxPages concurrentLimit s _ n .finishing .done hinv ht
        (by simp) (by simp) (by simp)
        (by simp [TaskState.holdsPermit]) (le_refl _)
        (by simp only [TaskState.active, if_true, Bool.false_eq_true, if_false]; omega)
        rfl rfl rfl
    · cases h
  | append =>
    unfold step at h
    dsimp only at h
    split at h
    · cases h
      obtain ⟨i1, i2, i3, i4, i5, i6, i7, i8, i9, i10, i11⟩ := hinv
      exact ⟨i1, i2, i3, i4, i5, i6, i7, i8, i9, i10, i11⟩
    · cases h

theorem run_inv (maxPages concurrentLimit : Nat) (baseUrl : String)
    (scrapePage : String → PageResult) (elapsedMs : Nat) :
    ∀ (schedule : List Action) (s s' : State), Inv maxPages concurrentLimit s →
      run maxPages concurrentLimit baseUrl scrapePage elapsedMs schedule s = some s' →
      Inv maxPages concurrentLimit s' := by
  intro schedule
  induction schedule with
  | nil =>
    intro s s' hinv h
    unfold run at h
    cases h
    exact hinv
  | cons a rest ih =>
    intro s s' hinv h
    unfold run at h
    split at h
    · rename_i s1 hs1
      exact ih s1 s' (step_inv maxPages concurrentLimit baseUrl scrapePage elapsedMs a s s1 hinv
        hs1) h
    · cases h

theorem inFlight_and_permits (maxPages concurrentLimit : Nat) (s : State)
    (hinv : Inv maxPages concurrentLimit s) :
    countHolders s.tasks (maxPages + 1) ≤ concurrentLimit ∧
    ((∀ n, 1 ≤ n → n ≤ maxPages → s.tasks n = .done) → s.sem = 0) ∧
    (s.pc = .returned → s.sem = 0) := by
  have hall : (∀ n, 1 ≤ n → n ≤ maxPages → s.tasks n = .done) → s.sem = 0 := by
    intro hd
    have hz : countHolders s.tasks (maxPages + 1) = 0 := by
      apply countHolders_eq_zero
      intro n hn
      by_cases h0 : n = 0
      · rw [h0, hinv.idle0]; rfl
      · rw [hd n (by omega) (by omega)]; rfl
    have hpc : s.pc ≠ .spawn := by
      intro hc
      have h1 := hinv.pc_inloop (Or.inr hc)
      have h2 := hinv.idle s.page (le_refl _)
      have h3 := hd s.page hinv.page_pos h1
      rw [h2] at h3
      cases h3
    have := hinv.sem_eq
    rw [hz, if_neg hpc] at this
    exact this
  refine ⟨?_, hall, ?_⟩
  · have h1 := hinv.sem_eq
    have h2 := hinv.sem_le
    omega
  · intro hr
    exact hall (hinv.joined (by simp [hr]))

theorem finalize_nil (elapsedMs : Nat) : finalize elapsedMs [] = (noDataResponse, none) := by
  unfold finalize sort.Slice sort.pdqsort_func
  rfl

theorem finalize_error (elapsedMs : Nat) (articles : List NewsArticle) :
    (finalize elapsedMs articles).2 = none := by
  unfold finalize
  dsimp only
  split_ifs <;> rfl

theorem finalize_response (elapsedMs : Nat) (articles : List NewsArticle) :
    (articles = [] → finalize elapsedMs articles = (noDataResponse, none)) ∧
    (articles ≠ [] → finalize elapsedMs articles
      = (⟨"200", "success", toString elapsedMs ++ " ms", ⟨⟨sort.Slice articles dateLess⟩⟩⟩,
          none)) := by
  constructor
  · intro h
    rw [h]
    exact finalize_nil elapsedMs
  · intro h
    have hl : (sort.Slice articles dateLess).length ≠ 0 := by
      rw [(sortedByDate articles).1.length_eq]
      exact fun h0 => h (List.length_eq_zero.mp h0)
    unfold finalize
    dsimp only
    rw [if_neg hl]

theorem Slice_nil : sort.Slice ([] : List NewsArticle) dateLess = [] := by
  unfold sort.Slice sort.pdqsort_func
  rfl

theorem finalize_eq (elapsedMs : Nat) (articles : List NewsArticle) :
    finalize elapsedMs articles
      = if (sort.Slice articles dateLess).length = 0 then (noDataResponse, none)
        else success elapsedMs (sort.Slice articles dateLess) := rfl

theorem step_result (maxPages concurrentLimit : Nat) (baseUrl : String)
    (scrapePage : String → PageResult) (elapsedMs : Nat) (a : Action) (s s' : State)
    (h : step maxPages concurrentLimit baseUrl scrapePage elapsedMs a s = some s')
    (hr : s.result = none ∨ ∃ r, s.result = some r ∧ r.2 = none) :
    s'.result = none ∨ ∃ r, s'.result = some r ∧ r.2 = none := by
  cases a with
  | main =>
    unfold step at h
    dsimp only at h
    split at h
    · split_ifs at h <;> cases h <;> exact hr
    · split_ifs at h; cases h; exact hr
    · cases h; exact hr
    · split_ifs at h; cases h; exact hr
    · cases h; exact hr
    · cases h; exact hr
    · split_ifs at h <;> cases h <;> exact hr
    · cases h; exact Or.inr ⟨_, rfl, rfl⟩
    · cases h; exact Or.inr ⟨_, rfl, rfl⟩
    · cases h
  | visit n =>
    unfold step at h
    dsimp only at h
    split at h
    · cases h; exact hr
    · cases h
  | send n =>
    unfold step at h
    dsimp only at h
    split at h
    · split_ifs at h; cases h; exact hr
    · cases h
  | release n =>
    unfold step at h
    dsimp only at h
    split at h
    · cases h; exact hr
    · cases h
  | done n =>
    unfold step at h
    dsimp only at h
    split at h
    · cases h; exact hr
    · cases h
  | append =>
    unfold step at h
    dsimp only at h
    split at h
    · cases h; exact hr
    · cases h

theorem run_result (maxPages concurrentLimit : Nat) (baseUrl : String)
    (scrapePage : String → PageResult) (elapsedMs : Nat) :
    ∀ (schedule : List Action) (s s' : State),
      run maxPages concurrentLimit baseUrl scrapePage elapsedMs schedule s = some s' →
      (s.result = none ∨ ∃ r, s.result = some r ∧ r.2 = none) →
      s'.result = none ∨ ∃ r, s'.result = some r ∧ r.2 = none := by
  intro schedule
  induction schedule with
  | nil =>
    intro s s' h hr
    unfold run at h
    cases h
    exact hr
  | cons a rest ih =>
    intro s s' h hr
    unfold run at h
    split at h
    · rename_i s1 hs1
      exact ih s1 s' h (step_result maxPages concurrentLimit baseUrl scrapePage elapsedMs a s s1
        hs1 hr)
    · cases h

theorem scrapeData_error_nil (baseUrl : String) (scrapePage : String → PageResult)
    (elapsedMs : Nat) (schedule : List Action) (r : Response × Option GoError)
    (h : scrapeData baseUrl scrapePage elapsedMs schedule = some r) : r.2 = none := by
  unfold scrapeData at h
  split at h
  · rename_i s hs
    rcases run_result 50 50 baseUrl scrapePage elapsedMs schedule initState s hs (Or.inl rfl)
      with h1 | ⟨r1, h1, h2⟩
    · rw [h1] at h; cases h
    · rw [h1] at h
      cases h
      exact h2
  · cases h

theorem step_quiet (maxPages concurrentLimit : Nat) (baseUrl : String)
    (scrapePage : String → PageResult) (elapsedMs : Nat)
    (hq : ∀ url, (scrapePage url).2 ≠ none ∨ (scrapePage url).1.length = 0)
    (a : Action) (s s' : State)
    (h : step maxPages concurrentLimit baseUrl scrapePage elapsedMs a s = some s')
    (hinv : QuietInv s) : QuietInv s' := by
  obtain ⟨q1, q2, q3, q5, q4⟩ := hinv
  cases a with
  | main =>
    unfold step at h
    dsimp only at h
    split at h
    · split_ifs at h <;> cases h <;> exact ⟨q1, q2, q3, by simp, q4⟩
    · split_ifs at h; cases h; exact ⟨q1, q2, q3, by simp, q4⟩
    · cases h
      refine ⟨q1, q2, ?_, by simp, q4⟩
      intro n pageArticles
      dsimp only
      unfold setTask
      split_ifs
      · simp
      · exact q3 n pageArticles
    · split_ifs at h; cases h; exact ⟨q1, q2, q3, by simp, q4⟩
    · cases h; exact ⟨q1, q2, q3, by simp, q4⟩
    · cases h
      refine ⟨?_, q2, q3, by simp, q4⟩
      dsimp only
      rw [q1]
      exact Slice_nil
    · split_ifs at h with hl
      · cases h; exact ⟨q1, q2, q3, by simp, q4⟩
      · exact absurd (by rw [q1]; rfl) hl
    · cases h; exact ⟨q1, q2, q3, by simp, Or.inr rfl⟩
    · rename_i hpc
      exact absurd hpc q5
    · cases h
  | visit n =>
    unfold step at h
    dsimp only at h
    split at h
    · cases h
      refine ⟨q1, q2, ?_, q5, q4⟩
      intro k pageArticles
      dsimp only
      unfold setTask
      split_ifs with h1 h2
      · exfalso
        rcases hq (pageUrl baseUrl n) with h3 | h3
        · exact h3 h2.1
        · omega
      · simp
      · exact q3 k pageArticles
    · cases h
  | send n =>
    unfold step at h
    dsimp only at h
    split at h
    · rename_i pageArticles ht hr
      exact absurd ht (q3 n pageArticles)
    · cases h
  | release n =>
    unfold step at h
    dsimp only at h
    split at h
    · cases h
      refine ⟨q1, q2, ?_, q5, q4⟩
      intro k pageArticles
      dsimp only
      unfold setTask
      split_ifs
      · simp
      · exact q3 k pageArticles
    · cases h
  | done n =>
    unfold step at h
    dsimp only at h
    split at h
    · cases h
      refine ⟨q1, q2, ?_, q5, q4⟩
      intro k pageArticles
      dsimp only
      unfold setTask
      split_ifs
      · simp
      · exact q3 k pageArticles
    · cases h
  | append =>
    unfold step at h
    dsimp only at h
    split at h
    · rename_i pageArticles hr
      rw [q2] at hr
      cases hr
    · cases h

theorem run_quiet (maxPages concurrentLimit : Nat) (baseUrl : String)
    (scrapePage : String → PageResult) (elapsedMs : Nat)
    (hq : ∀ url, (scrapePage url).2 ≠ none ∨ (scrapePage url).1.length = 0) :
    ∀ (schedule : List Action) (s s' : State),
      run maxPages concurrentLimit baseUrl scrapePage elapsedMs schedule s = some s' →
      QuietInv s → QuietInv s' := by
  intro schedule
  induction schedule with
  | nil =>
    intro s s' h hr
    unfold run at h
    cases h
    exact hr
  | cons a rest ih =>
    intro s s' h hr
    unfold run at h
    split at h
    · rename_i s1 hs1
      exact ih s1 s' h (step_quiet maxPages concurrentLimit baseUrl scrapePage elapsedMs hq a s s1
        hs1 hr)
    · cases h

theorem scrapeData_quiet (baseUrl : String) (scrapePage : String → PageResult)
    (elapsedMs : Nat) (hq : ∀ url, (scrapePage url).2 ≠ none ∨ (scrapePage url).1.length = 0)
    (schedule : List Action) (r : Response × Option GoError)
    (h : scrapeData baseUrl scrapePage elapsedMs schedule = some r) :
    r = (noDataResponse, none) := by
  unfold scrapeData at h
  split at h
  · rename_i s hs
    have hi := run_quiet 50 50 baseUrl scrapePage elapsedMs hq schedule initState s hs
      ⟨rfl, rfl, fun _ _ => by simp [initState], by simp [initState], Or.inl rfl⟩
    rcases hi.result_nodata with h1 | h1
    · rw [h1] at h; cases h
    · rw [h1] at h
      cases h
      rfl
  · cases h

theorem cleanDate_eq (s : List Char) :
    cleanDate s = applyReplacements replacements (strings.TrimSpace s) := by
  unfold cleanDate applyReplacements replacements
  simp only [List.foldl]

theorem isPrefixOf_of_append (c : Char) (T : List Char) :
    ∀ (old X : List Char), c ∉ old → old.isPrefixOf (X ++ c :: T) = true →
      old.isPrefixOf X = true := by
  intro old
  induction old with
  | nil => intro X _ _; simp
  | cons a o ih =>
    intro X hc h
    cases X with
    | nil =>
      simp only [List.nil_append, List.isPrefixOf, Bool.and_eq_true, beq_iff_eq] at h
      exact absurd (h.1 ▸ List.mem_cons_self a o) hc
    | cons x X' =>
      simp only [List.cons_append, List.isPrefixOf, Bool.and_eq_true, beq_iff_eq] at h ⊢
      exact ⟨h.1, ih X' (fun hm => hc (List.mem_cons_of_mem _ hm)) h.2⟩

theorem isPrefixOf_length (old X : List Char) (h : old.isPrefixOf X = true) :
    old.length ≤ X.length :=
  (List.isPrefixOf_iff_prefix.mp h).length_le

theorem isPrefixOf_append (old X Y : List Char) (h : old.isPrefixOf X = true) :
    old.isPrefixOf (X ++ Y) = true :=
  List.isPrefixOf_iff_prefix.mpr ((List.isPrefixOf_iff_prefix.mp h).trans (List.prefix_append X Y))

theorem replaceFrom_nil (old new : List Char) (k : Nat) : strings.replaceFrom old new k [] = [] := by
  cases k <;> rfl

theorem replaceFrom_cons_succ (old new : List Char) (k : Nat) (c : Char) (cs : List Char) :
    strings.replaceFrom old new (k + 1) (c :: cs) = strings.replaceFrom old new k cs := rfl

theorem replaceFrom_cons_zero (old new : List Char) (c : Char) (cs : List Char) :
    strings.replaceFrom old new 0 (c :: cs)
      = if old.isPrefixOf (c :: cs) then new ++ strings.replaceFrom old new (old.length - 1) cs
        else c :: strings.replaceFrom old new 0 cs := rfl

theorem replaceFrom_split (old new : List Char) (c : Char) (T : List Char) (hc : c ∉ old)
    (hne : old ≠ []) : ∀ (A : List Char) (k : Nat), k ≤ A.length →
    strings.replaceFrom old new k (A ++ c :: T)
      = strings.replaceFrom old new k A ++ c :: strings.replaceFrom old new 0 T := by
  intro A
  induction A with
  | nil =>
    intro k hk
    have hk0 : k = 0 := by simpa using hk
    subst hk0
    have hp : old.isPrefixOf (c :: T) = false := by
      cases old with
      | nil => exact absurd rfl hne
      | cons a o =>
        have : a ≠ c := fun h => hc (h ▸ List.mem_cons_self a o)
        simp [List.isPrefixOf, this]
    rw [List.nil_append, replaceFrom_cons_zero, hp, replaceFrom_nil]
    simp
  | cons x A' ih =>
    intro k hk
    cases k with
    | succ k' =>
      rw [List.cons_append, replaceFrom_cons_succ, replaceFrom_cons_succ]
      exact ih k' (by simpa using hk)
    | zero =>
      rw [List.cons_append, replaceFrom_cons_zero, replaceFrom_cons_zero]
      by_cases hp : old.isPrefixOf (x :: (A' ++ c :: T)) = true
      · have hp' : old.isPrefixOf (x :: A') = true := by
          have := isPrefixOf_of_append c T old (x :: A') hc (by simpa using hp)
          exact this
        have hl := isPrefixOf_length old (x :: A') hp'
        rw [if_pos hp, if_pos hp', ih (old.length - 1) (by simp at hl; omega)]
        simp
      · have hp' : ¬ old.isPrefixOf (x :: A') = true := by
          intro h
          exact hp (by simpa using isPrefixOf_append old (x :: A') (c :: T) h)
        rw [if_neg hp, if_neg hp', ih 0 (Nat.zero_le _)]
        simp

theorem replaceFrom_forall (old new : List Char) (P : Char → Prop) (hnew : ∀ x ∈ new, P x) :
    ∀ (A : List Char) (k : Nat), (∀ x ∈ A, P x) → ∀ x ∈ strings.replaceFrom old new k A, P x := by
  intro A
  induction A with
  | nil =>
    intro k _ x hx
    rw [replaceFrom_nil] at hx
    cases hx
  | cons a A' ih =>
    intro k hA x hx
    have hA' : ∀ x ∈ A', P x := fun x hx => hA x (List.mem_cons_of_mem _ hx)
    cases k with
    | succ k' =>
      rw [replaceFrom_cons_succ] at hx
      exact ih k' hA' x hx
    | zero =>
      rw [replaceFrom_cons_zero] at hx
      split_ifs at hx
      · rcases List.mem_append.mp hx with h | h
        · exact hnew x h
        · exact ih _ hA' x h
      · rcases List.mem_cons.mp hx with h | h
        · rw [h]; exact hA a (List.mem_cons_self a A')
        · exact ih _ hA' x h

theorem ReplaceAll_single (old new : List Char) (c : Char) (T : List Char) (hc : c ∉ old)
    (hne : old ≠ []) :
    strings.ReplaceAll (c :: T) old new = c :: strings.ReplaceAll T old new := by
  unfold strings.ReplaceAll
  have := replaceFrom_split old new c T hc hne [] 0 (Nat.zero_le _)
  simpa [replaceFrom_nil] using this

theorem ReplaceAll_split (old new : List Char) (c : Char) (A T : List Char) (hc : c ∉ old)
    (hne : old ≠ []) :
    strings.ReplaceAll (A ++ c :: T) old new
      = strings.ReplaceAll A old new ++ c :: strings.ReplaceAll T old new := by
  unfold strings.ReplaceAll
  exact replaceFrom_split old new c T hc hne A 0 (Nat.zero_le _)

/-- The condition on a replacement under which it leaves digits and spaces alone:
the old text is not empty and has no digit and no space, the new text has no digit. -/
theorem ReplaceAll_dateText (old new : List Char) (hne : old ≠ [])
    (hold : ∀ x ∈ old, regexp.perlDigit x = false ∧ x ≠ ' ')
    (A B M : List Char) (d1 d2 y1 y2 y3 y4 : Char)
    (h1 : regexp.perlDigit d1 = true) (h2 : regexp.perlDigit d2 = true)
    (h3 : regexp.perlDigit y1 = true) (h4 : regexp.perlDigit y2 = true)
    (h5 : regexp.perlDigit y3 = true) (h6 : regexp.perlDigit y4 = true) :
    strings.ReplaceAll (A ++ dateText d1 d2 M y1 y2 y3 y4 ++ B) old new
      = strings.ReplaceAll A old new
        ++ dateText d1 d2 (strings.ReplaceAll M old new) y1 y2 y3 y4
        ++ strings.ReplaceAll B old new := by
  have hd : ∀ c, regexp.perlDigit c = true → c ∉ old := by
    intro c hc hm
    rw [(hold c hm).1] at hc
    cases hc
  have hs : ' ' ∉ old := fun hm => (hold ' ' hm).2 rfl
  unfold dateText
  simp only [List.cons_append, List.append_assoc, List.nil_append]
  rw [ReplaceAll_split old new d1 A _ (hd d1 h1) hne,
    ReplaceAll_single old new d2 _ (hd d2 h2) hne,
    ReplaceAll_single old new ' ' _ hs hne,
    ReplaceAll_split old new ' ' M _ hs hne,
    ReplaceAll_single old new y1 _ (hd y1 h3) hne,
    ReplaceAll_single old new y2 _ (hd y2 h4) hne,
    ReplaceAll_single old new y3 _ (hd y3 h5) hne,
    ReplaceAll_single old new y4 _ (hd y4 h6) hne]

theorem applyReplacements_dateText (d1 d2 y1 y2 y3 y4 : Char)
    (h1 : regexp.perlDigit d1 = true) (h2 : regexp.perlDigit d2 = true)
    (h3 : regexp.perlDigit y1 = true) (h4 : regexp.perlDigit y2 = true)
    (h5 : regexp.perlDigit y3 = true) (h6 : regexp.perlDigit y4 = true) :
    ∀ (table : List (String × String)),
      (∀ p ∈ table, p.1.toList ≠ [] ∧ ∀ x ∈ p.1.toList, regexp.perlDigit x = false ∧ x ≠ ' ') →
      ∀ (A B M : List Char),
        applyReplacements table (A ++ dateText d1 d2 M y1 y2 y3 y4 ++ B)
          = applyReplacements table A
            ++ dateText d1 d2 (applyReplacements table M) y1 y2 y3 y4
            ++ applyReplacements table B := by
  intro table
  induction table with
  | nil => intro _ A B M; rfl
  | cons p rest ih =>
    intro ht A B M
    unfold applyReplacements
    simp only [List.foldl_cons]
    rw [ReplaceAll_dateText p.1.toList p.2.toList (ht p (List.mem_cons_self _ _)).1
      (ht p (List.mem_cons_self _ _)).2 A B M d1 d2 y1 y2 y3 y4 h1 h2 h3 h4 h5 h6]
    exact ih (fun q hq => ht q (List.mem_cons_of_mem _ hq)) _ _ _

theorem applyReplacements_forall (P : Char → Prop) :
    ∀ (table : List (String × String)), (∀ p ∈ table, ∀ x ∈ p.2.toList, P x) →
      ∀ (A : List Char), (∀ x ∈ A, P x) → ∀ x ∈ applyReplacements table A, P x := by
  intro table
  induction table with
  | nil => intro _ A hA; exact hA
  | cons p rest ih =>
    intro ht A hA
    unfold applyReplacements
    simp only [List.foldl_cons]
    apply ih (fun q hq => ht q (List.mem_cons_of_mem _ hq))
    exact replaceFrom_forall p.1.toList p.2.toList P (ht p (List.mem_cons_self _ _)) A 0 hA

theorem replacements_old_ok :
    ∀ p ∈ replacements, p.1.toList ≠ [] ∧
      ∀ x ∈ p.1.toList, regexp.perlDigit x = false ∧ x ≠ ' ' := by
  decide

theorem replacements_new_ok :
    ∀ p ∈ replacements, ∀ x ∈ p.2.toList, regexp.perlDigit x = false := by
  decide

theorem dropWhile_append_cons (p : Char → Bool) (c : Char) (T : List Char) (hc : p c = false) :
    ∀ (A : List Char), (A ++ c :: T).dropWhile p = A.dropWhile p ++ c :: T := by
  intro A
  induction A with
  | nil => simp [List.dropWhile, hc]
  | cons a A' ih =>
    by_cases ha : p a = true
    · simp only [List.cons_append, List.dropWhile_cons, ha, if_true]
      exact ih
    · simp [List.dropWhile_cons, ha]

theorem TrimSpace_dateText (A B M : List Char) (d1 d2 y1 y2 y3 y4 : Char)
    (h1 : unicode.IsSpace d1 = false) (h6 : unicode.IsSpace y4 = false) :
    strings.TrimSpace (A ++ dateText d1 d2 M y1 y2 y3 y4 ++ B)
      = A.dropWhile unicode.IsSpace ++ dateText d1 d2 M y1 y2 y3 y4
        ++ (B.reverse.dropWhile unicode.IsSpace).reverse := by
  unfold strings.TrimSpace dateText
  simp only [List.cons_append, List.append_assoc, List.nil_append]
  rw [dropWhile_append_cons unicode.IsSpace d1 _ h1 A]
  have e : A.dropWhile unicode.IsSpace ++ d1 :: d2 :: ' ' :: (M ++ ' ' :: y1 :: y2 :: y3 :: y4 :: B)
      = (A.dropWhile unicode.IsSpace ++ d1 :: d2 :: ' ' :: (M ++ ' ' :: y1 :: y2 :: [y3]))
        ++ y4 :: B := by simp
  rw [e, List.reverse_append, List.reverse_cons, List.append_assoc]
  rw [show [y4] ++ (A.dropWhile unicode.IsSpace ++ d1 :: d2 :: ' ' ::
      (M ++ ' ' :: y1 :: y2 :: [y3])).reverse
    = y4 :: (A.dropWhile unicode.IsSpace ++ d1 :: d2 :: ' ' ::
      (M ++ ' ' :: y1 :: y2 :: [y3])).reverse from rfl]
  rw [dropWhile_append_cons unicode.IsSpace y4 _ h6 B.reverse, List.reverse_append,
    List.reverse_cons, List.reverse_reverse]
  simp

theorem matchHere_cons (r : regexp.Rep) (rs : List regexp.Rep) (s : List Char) :
    regexp.matchHere (r :: rs) s
      = regexp.tryCounts (regexp.matchHere rs) r.capture r.min s (regexp.spanLen r.cls r.max s) :=
  rfl

theorem tryCounts_top (cont : List Char → Option (List (List Char) × Nat)) (capture : Bool)
    (min : Nat) (s : List Char) (n : Nat) (r : List (List Char) × Nat) (hmin : min ≤ n)
    (hc : cont (s.drop n) = some r) :
    regexp.tryCounts cont capture min s n
      = some (if capture then s.take n :: r.1 else r.1, n + r.2) := by
  cases n with
  | zero =>
    have h0 : min = 0 := by omega
    simp only [List.drop_zero] at hc
    unfold regexp.tryCounts
    rw [if_pos h0, hc]
    simp
  | succ n =>
    unfold regexp.tryCounts
    rw [if_pos hmin, hc]

theorem spanLen_none_cons (cls : Char → Bool) (c : Char) (cs : List Char) :
    regexp.spanLen cls none (c :: cs) = if cls c then regexp.spanLen cls none cs + 1 else 0 :=
  rfl

theorem spanLen_none_append (cls : Char → Bool) (c : Char) (T : List Char) (hc : cls c = false) :
    ∀ (E : List Char), (∀ x ∈ E, cls x = true) →
      regexp.spanLen cls none (E ++ c :: T) = E.length := by
  intro E
  induction E with
  | nil => intro _; rw [List.nil_append, spanLen_none_cons, hc]; rfl
  | cons e E' ih =>
    intro hE
    have he : cls e = true := hE e (List.mem_cons_self _ _)
    rw [List.cons_append, spanLen_none_cons, he, if_pos rfl,
      ih (fun x hx => hE x (List.mem_cons_of_mem _ hx)), List.length_cons]

theorem digit_not_space (c : Char) (h : regexp.perlDigit c = true) :
    regexp.perlSpace c = false ∧ regexp.asciiLetter c = false ∧ unicode.IsSpace c = false
      ∧ c ≠ ' ' := by
  unfold regexp.perlDigit at h
  simp only [Bool.and_eq_true, decide_eq_true_eq] at h
  have hne : ∀ d : Char, (d.toNat < 48 ∨ 57 < d.toNat) → c ≠ d := by
    intro d hd hcd
    rw [hcd] at h
    omega
  refine ⟨?_, ?_, ?_, hne ' ' (by decide)⟩
  · unfold regexp.perlSpace
    simp only [Bool.or_eq_false_iff, beq_eq_false_iff_ne, ne_eq]
    omega
  · unfold regexp.asciiLetter
    simp only [Bool.or_eq_false_iff, Bool.and_eq_false_iff, decide_eq_false_iff_not]
    constructor <;> omega
  · unfold unicode.IsSpace
    simp only [Bool.or_eq_false_iff, beq_eq_false_iff_ne, ne_eq, Bool.and_eq_false_iff,
      decide_eq_false_iff_not]
    omega

theorem matchHere_nondigit (a : Char) (rest : List Char) (h : regexp.perlDigit a = false) :
    regexp.matchHere dateRe (a :: rest) = none := by
  unfold dateRe
  rw [matchHere_cons]
  simp [regexp.spanLen, h, regexp.tryCounts]

theorem FindStringSubmatch_skip (c : Char) (T : List Char) :
    ∀ (A : List Char), (∀ x ∈ A, regexp.perlDigit x = false) →
      regexp.FindStringSubmatch dateRe (A ++ c :: T)
        = regexp.FindStringSubmatch dateRe (c :: T) := by
  intro A
  induction A with
  | nil => intro _; rfl
  | cons a A' ih =>
    intro hA
    rw [List.cons_append]
    unfold regexp.FindStringSubmatch
    rw [matchHere_nondigit a _ (hA a (List.mem_cons_self _ _))]
    exact ih (fun x hx => hA x (List.mem_cons_of_mem _ hx))

theorem matchHere_dateText (E B : List Char) (d1 d2 y1 y2 y3 y4 : Char)
    (hE : ∀ x ∈ E, regexp.asciiLetter x = true) (hne : E ≠ [])
    (h1 : regexp.perlDigit d1 = true) (h2 : regexp.perlDigit d2 = true)
    (h3 : regexp.perlDigit y1 = true) (h4 : regexp.perlDigit y2 = true)
    (h5 : regexp.perlDigit y3 = true) (h6 : regexp.perlDigit y4 = true) :
    regexp.matchHere dateRe (dateText d1 d2 E y1 y2 y3 y4 ++ B)
      = some ([[d1, d2], E, [y1, y2, y3, y4]], 2 + (1 + (E.length + (1 + (4 + 0))))) := by
  have m4 : regexp.matchHere [⟨regexp.perlDigit, 4, some 4, true⟩] (y1 :: y2 :: y3 :: y4 :: B)
      = some ([[y1, y2, y3, y4]], 4 + 0) := by
    rw [matchHere_cons]
    have hs : regexp.spanLen regexp.perlDigit (some 4) (y1 :: y2 :: y3 :: y4 :: B) = 4 := by
      simp [regexp.spanLen, h3, h4, h5, h6]
    dsimp only
    rw [hs, tryCounts_top _ true 4 _ 4 ([], 0) (le_refl _) rfl]
    rfl
  have m3 : regexp.matchHere [⟨regexp.perlSpace, 1, some 1, false⟩,
      ⟨regexp.perlDigit, 4, some 4, true⟩] (' ' :: y1 :: y2 :: y3 :: y4 :: B)
      = some ([[y1, y2, y3, y4]], 1 + (4 + 0)) := by
    rw [matchHere_cons]
    have hs : regexp.spanLen regexp.perlSpace (some 1) (' ' :: y1 :: y2 :: y3 :: y4 :: B) = 1 := by
      simp [regexp.spanLen, regexp.perlSpace]
    dsimp only
    rw [hs, tryCounts_top _ false 1 _ 1 _ (le_refl _) (show _ = some _ from m4)]
    rfl
  have m2 : regexp.matchHere [⟨regexp.asciiLetter, 1, none, true⟩,
      ⟨regexp.perlSpace, 1, some 1, false⟩, ⟨regexp.perlDigit, 4, some 4, true⟩]
      (E ++ ' ' :: y1 :: y2 :: y3 :: y4 :: B)
      = some ([E, [y1, y2, y3, y4]], E.length + (1 + (4 + 0))) := by
    rw [matchHere_cons]
    dsimp only
    rw [spanLen_none_append regexp.asciiLetter ' ' _ (by decide) E hE]
    have hlen : 1 ≤ E.length := by
      cases E with
      | nil => exact absurd rfl hne
      | cons _ _ => simp
    have := tryCounts_top (regexp.matchHere [⟨regexp.perlSpace, 1, some 1, false⟩,
      ⟨regexp.perlDigit, 4, some 4, true⟩]) true 1 (E ++ ' ' :: y1 :: y2 :: y3 :: y4 :: B)
      E.length _ hlen (by rw [List.drop_left]; exact m3)
    rw [this]
    simp
  have m1 : regexp.matchHere [⟨regexp.perlSpace, 1, some 1, false⟩,
      ⟨regexp.asciiLetter, 1, none, true⟩,
      ⟨regexp.perlSpace, 1, some 1, false⟩, ⟨regexp.perlDigit, 4, some 4, true⟩]
      (' ' :: (E ++ ' ' :: y1 :: y2 :: y3 :: y4 :: B))
      = some ([E, [y1, y2, y3, y4]], 1 + (E.length + (1 + (4 + 0)))) := by
    rw [matchHere_cons]
    have hs : regexp.spanLen regexp.perlSpace (some 1)
        (' ' :: (E ++ ' ' :: y1 :: y2 :: y3 :: y4 :: B)) = 1 := by
      simp [regexp.spanLen, regexp.perlSpace]
    dsimp only
    rw [hs, tryCounts_top _ false 1 _ 1 _ (le_refl _) (show _ = some _ from m2)]
    rfl
  unfold dateRe dateText
  rw [matchHere_cons]
  have hs : regexp.spanLen regexp.perlDigit (some 2)
      (d1 :: d2 :: ' ' :: (E ++ ' ' :: y1 :: y2 :: y3 :: [y4]) ++ B) = 2 := by
    simp [regexp.spanLen, h1, h2]
  dsimp only
  rw [hs]
  have e : (d1 :: d2 :: ' ' :: (E ++ ' ' :: y1 :: y2 :: y3 :: [y4]) ++ B)
      = d1 :: d2 :: ' ' :: (E ++ ' ' :: y1 :: y2 :: y3 :: y4 :: B) := by simp
  rw [e, tryCounts_top _ true 1 _ 2 _ (by omega) (show _ = some _ from m1)]
  rfl

theorem FindStringSubmatch_dateText (A E B : List Char) (d1 d2 y1 y2 y3 y4 : Char)
    (hA : ∀ x ∈ A, regexp.perlDigit x = false)
    (hE : ∀ x ∈ E, regexp.asciiLetter x = true) (hne : E ≠ [])
    (h1 : regexp.perlDigit d1 = true) (h2 : regexp.perlDigit d2 = true)
    (h3 : regexp.perlDigit y1 = true) (h4 : regexp.perlDigit y2 = true)
    (h5 : regexp.perlDigit y3 = true) (h6 : regexp.perlDigit y4 = true) :
    regexp.FindStringSubmatch dateRe (A ++ dateText d1 d2 E y1 y2 y3 y4 ++ B)
      = [dateText d1 d2 E y1 y2 y3 y4, [d1, d2], E, [y1, y2, y3, y4]] := by
  have e : A ++ dateText d1 d2 E y1 y2 y3 y4 ++ B
      = A ++ d1 :: (d2 :: ' ' :: (E ++ ' ' :: y1 :: y2 :: y3 :: [y4]) ++ B) := by
    simp [dateText]
  rw [e, FindStringSubmatch_skip d1 _ A hA]
  have m := matchHere_dateText E B d1 d2 y1 y2 y3 y4 hE hne h1 h2 h3 h4 h5 h6
  have e2 : d1 :: (d2 :: ' ' :: (E ++ ' ' :: y1 :: y2 :: y3 :: [y4]) ++ B)
      = dateText d1 d2 E y1 y2 y3 y4 ++ B := by simp [dateText]
  unfold regexp.FindStringSubmatch
  rw [e2, m]
  dsimp only
  have hl : (dateText d1 d2 E y1 y2 y3 y4).length = 2 + (1 + (E.length + (1 + (4 + 0)))) := by
    simp [dateText]
    omega
  rw [← hl, List.take_left]

theorem match_take : ∀ (v val : List Char),
    time.match (val.take v.length) v = time.match val v := by
  intro v
  induction v with
  | nil => intro val; cases val <;> simp [time.match]
  | cons a v' ih =>
    intro val
    cases val with
    | nil => simp [time.match]
    | cons x val' =>
      simp only [List.length_cons, List.take_succ_cons, time.match]
      rw [ih val']

theorem match_append_false : ∀ (X v Y : List Char), time.match X v = false →
    time.match (X ++ Y) v = false := by
  intro X
  induction X with
  | nil => intro v Y h; cases v <;> simp [time.match] at h
  | cons x X' ih =>
    intro v Y h
    cases v with
    | nil => simp [time.match] at h
    | cons a v' =>
      rw [List.cons_append]
      unfold time.match at h ⊢
      rw [Bool.and_eq_false_iff] at h ⊢
      rcases h with h | h
      · exact Or.inl h
      · exact Or.inr (ih v' Y h)

theorem match_append_true : ∀ (X v Y : List Char), X.length = v.length →
    time.match X v = true → time.match (X ++ Y) v = true := by
  intro X
  induction X with
  | nil =>
    intro v Y hl _
    cases v with
    | nil => cases Y <;> simp [time.match]
    | cons _ _ => simp at hl
  | cons x X' ih =>
    intro v Y hl h
    cases v with
    | nil => simp at hl
    | cons a v' =>
      rw [List.cons_append]
      unfold time.match at h ⊢
      rw [Bool.and_eq_true] at h ⊢
      exact ⟨h.1, ih v' Y (by simpa using hl) h.2⟩

theorem lookup_extend (E : List Char) (c : Char) (T : List Char) :
    ∀ (tab : List String) (i k : Nat) (name : String),
      (∀ v ∈ tab.take k, time.match E v.toList = false) →
      tab[k]? = some name → name.length = E.length → time.match E name.toList = true →
      time.lookup tab (E ++ c :: T) i = some (i + k, c :: T) := by
  intro tab
  induction tab with
  | nil => intro i k name _ hk; simp at hk
  | cons v tab' ih =>
    intro i k name hbefore hk hlen hm
    unfold time.lookup
    cases k with
    | zero =>
      simp only [List.getElem?_cons_zero, Option.some.injEq] at hk
      subst hk
      have hl : v.toList.length = E.length := hlen
      have h1 : v.length ≤ (E ++ c :: T).length := by
        rw [List.length_append, ← hlen]
        omega
      have hv : v.length = v.toList.length := rfl
      have h2 : time.match ((E ++ c :: T).take v.length) v.toList = true := by
        rw [hv, match_take]
        exact match_append_true E v.toList (c :: T) hl.symm hm
      rw [if_pos ⟨h1, h2⟩, hlen, List.drop_left]
      rfl
    | succ k' =>
      have hv : v.length = v.toList.length := rfl
      have h2 : time.match ((E ++ c :: T).take v.length) v.toList = false := by
        rw [hv, match_take]
        exact match_append_false E v.toList (c :: T) (hbefore v (by simp))
      rw [if_neg (by rw [h2]; simp)]
      have := ih (i + 1) k' name
        (fun w hw => hbefore w (by simp only [List.take_succ_cons]; exact List.mem_cons_of_mem _ hw))
        (by simpa using hk) hlen hm
      rw [this]
      congr 2
      omega

theorem digitVal_lt (c : Char) (h : regexp.perlDigit c = true) : time.digitVal c < 10 := by
  unfold regexp.perlDigit at h
  simp only [Bool.and_eq_true, decide_eq_true_eq] at h
  unfold time.digitVal
  omega

theorem skipSpace_cons (x : Char) (t : List Char) (hx : x ≠ ' ') :
    time.skipSpace (' ' :: x :: t) = some (x :: t) := by
  have h1 : List.dropWhile (fun c => c == ' ') (' ' :: x :: t) = x :: t := by
    rw [List.dropWhile_cons_of_pos (by simp), List.dropWhile_cons_of_neg (by simpa using hx)]
  show (if ' ' = ' ' then some (List.dropWhile (fun c => c == ' ') (' ' :: x :: t)) else none)
    = some (x :: t)
  rw [if_pos rfl, h1]

theorem Parse_formatted (E : List Char) (mi : Nat) (d1 d2 y1 y2 y3 y4 : Char)
    (hlook : time.lookup time.longMonthNames (E ++ ' ' :: y1 :: y2 :: y3 :: [y4]) 0
      = some (mi, ' ' :: y1 :: y2 :: y3 :: [y4]))
    (hE : ∀ x ∈ E, regexp.asciiLetter x = true) (hne : E ≠ [])
    (h1 : regexp.perlDigit d1 = true) (h2 : regexp.perlDigit d2 = true)
    (h3 : regexp.perlDigit y1 = true) (h4 : regexp.perlDigit y2 = true)
    (h5 : regexp.perlDigit y3 = true) (h6 : regexp.perlDigit y4 = true) :
    time.Parse ([d1, d2] ++ " ".toList ++ E ++ " ".toList ++ [y1, y2, y3, y4])
      = if dayOf d1 d2 < 1 ∨ time.daysIn (mi + 1) (yearOf y1 y2 y3 y4) < dayOf d1 d2 then
          (time.Time.zero, some (.parseError "day out of range"))
        else (time.Date (yearOf y1 y2 y3 y4) (mi + 1) (dayOf d1 d2), none) := by
  have e : [d1, d2] ++ " ".toList ++ E ++ " ".toList ++ [y1, y2, y3, y4]
      = d1 :: d2 :: ' ' :: (E ++ ' ' :: y1 :: y2 :: y3 :: [y4]) := by
    simp
  rw [e]
  have g1 : time.getnum (d1 :: d2 :: ' ' :: (E ++ ' ' :: y1 :: y2 :: y3 :: [y4])) true
      = some (dayOf d1 d2, ' ' :: (E ++ ' ' :: y1 :: y2 :: y3 :: [y4])) := by
    simp [time.getnum, h1, h2, dayOf]
  have g2 : time.skipSpace (' ' :: (E ++ ' ' :: y1 :: y2 :: y3 :: [y4]))
      = some (E ++ ' ' :: y1 :: y2 :: y3 :: [y4]) := by
    cases E with
    | nil => exact absurd rfl hne
    | cons x E' =>
      have hx : x ≠ ' ' := by
        intro hx
        have := hE x (List.mem_cons_self _ _)
        rw [hx] at this
        revert this
        decide
      exact skipSpace_cons x _ hx
  have hy1 : y1 ≠ ' ' := (digit_not_space y1 h3).2.2.2
  have g3 : time.skipSpace (' ' :: y1 :: y2 :: y3 :: [y4]) = some (y1 :: y2 :: y3 :: [y4]) :=
    skipSpace_cons y1 _ hy1
  have g4 : time.atoi (List.take 4 (y1 :: y2 :: y3 :: [y4])) = some (yearOf y1 y2 y3 y4) := by
    simp [time.atoi, h3, h4, h5, h6, yearOf]
  unfold time.Parse
  rw [g1]
  dsimp only
  rw [g2]
  dsimp only
  rw [hlook]
  dsimp only
  rw [g3]
  dsimp only
  rw [if_neg (by simp [h3]), g4]
  dsimp only
  rw [if_neg (by simp)]

theorem monthTable_facts :
    ∀ p ∈ monthTable,
      (∀ x ∈ applyReplacements replacements p.1.toList, regexp.asciiLetter x = true) ∧
      applyReplacements replacements p.1.toList ≠ [] ∧
      (∀ v ∈ time.longMonthNames.take (p.2 - 1),
        time.match (applyReplacements replacements p.1.toList) v.toList = false) ∧
      time.longMonthNames[p.2 - 1]?
        = some (String.mk (applyReplacements replacements p.1.toList)) ∧
      time.match (applyReplacements replacements p.1.toList)
        (applyReplacements replacements p.1.toList) = true ∧
      p.2 - 1 + 1 = p.2 := by
  decide

theorem parseDate_dateText (pre post : List Char) (name : String) (m : Nat)
    (d1 d2 y1 y2 y3 y4 : Char) (hpre : ∀ x ∈ pre, regexp.perlDigit x = false)
    (hm : (name, m) ∈ monthTable)
    (h1 : regexp.perlDigit d1 = true) (h2 : regexp.perlDigit d2 = true)
    (h3 : regexp.perlDigit y1 = true) (h4 : regexp.perlDigit y2 = true)
    (h5 : regexp.perlDigit y3 = true) (h6 : regexp.perlDigit y4 = true) :
    parseDate (String.mk (pre ++ dateText d1 d2 name.toList y1 y2 y3 y4 ++ post))
      = if dayOf d1 d2 < 1 ∨ time.daysIn m (yearOf y1 y2 y3 y4) < dayOf d1 d2 then
          (time.Time.zero, some (.parseError "day out of range"))
        else (time.Date (yearOf y1 y2 y3 y4) m (dayOf d1 d2), none) := by
  obtain ⟨f1, f2, f3, f4, f5, f6⟩ := monthTable_facts (name, m) hm
  dsimp only at f1 f2 f3 f4 f5 f6
  generalize hE : applyReplacements replacements name.toList = E at f1 f2 f3 f4 f5
  have hlook := lookup_extend E ' ' (y1 :: y2 :: y3 :: [y4]) time.longMonthNames 0 (m - 1)
    (String.mk E) f3 f4 rfl f5
  rw [Nat.zero_add] at hlook
  have hP := Parse_formatted E (m - 1) d1 d2 y1 y2 y3 y4 hlook f1 f2 h1 h2 h3 h4 h5 h6
  rw [f6] at hP
  have hpre' : ∀ x ∈ applyReplacements replacements (pre.dropWhile unicode.IsSpace),
      regexp.perlDigit x = false := by
    apply applyReplacements_forall (fun x => regexp.perlDigit x = false) replacements
      replacements_new_ok
    intro x hx
    exact hpre x ((List.dropWhile_suffix _).subset hx)
  have hclean : cleanDate (pre ++ dateText d1 d2 name.toList y1 y2 y3 y4 ++ post)
      = applyReplacements replacements (pre.dropWhile unicode.IsSpace)
        ++ dateText d1 d2 (applyReplacements replacements name.toList) y1 y2 y3 y4
        ++ applyReplacements replacements (post.reverse.dropWhile unicode.IsSpace).reverse := by
    rw [cleanDate_eq, TrimSpace_dateText pre post name.toList d1 d2 y1 y2 y3 y4
      (digit_not_space d1 h1).2.2.1 (digit_not_space y4 h6).2.2.1,
      applyReplacements_dateText d1 d2 y1 y2 y3 y4 h1 h2 h3 h4 h5 h6 replacements
        replacements_old_ok]
  rw [hE] at hclean
  have hfind := FindStringSubmatch_dateText
    (applyReplacements replacements (pre.dropWhile unicode.IsSpace)) E
    (applyReplacements replacements (post.reverse.dropWhile unicode.IsSpace).reverse)
    d1 d2 y1 y2 y3 y4 hpre' f1 f2 h1 h2 h3 h4 h5 h6
  have hl : (String.mk (pre ++ dateText d1 d2 name.toList y1 y2 y3 y4 ++ post)).toList
      = pre ++ dateText d1 d2 name.toList y1 y2 y3 y4 ++ post := rfl
  unfold parseDate
  dsimp only
  rw [hl, hclean, hfind]
  rw [if_neg (by simp)]
  exact hP

theorem tryCounts_zero (cont : List Char → Option (List (List Char) × Nat)) (capture : Bool)
    (min : Nat) (s : List Char) :
    regexp.tryCounts cont capture min s 0
      = if min = 0 then (cont s).map fun r => (if capture then [] :: r.1 else r.1, r.2)
        else none := rfl

theorem tryCounts_succ (cont : List Char → Option (List (List Char) × Nat)) (capture : Bool)
    (min : Nat) (s : List Char) (n : Nat) :
    regexp.tryCounts cont capture min s (n + 1)
      = if min ≤ n + 1 then
          match cont (s.drop (n + 1)) with
          | some r => some (if capture then s.take (n + 1) :: r.1 else r.1, n + 1 + r.2)
          | none => regexp.tryCounts cont capture min s n
        else none := rfl

theorem tryCounts_some (cont : List Char → Option (List (List Char) × Nat)) (capture : Bool)
    (min : Nat) (s : List Char) : ∀ (k : Nat) (r : List (List Char) × Nat),
    regexp.tryCounts cont capture min s k = some r →
    ∃ n r', min ≤ n ∧ n ≤ k ∧ cont (s.drop n) = some r' ∧
      r = (if capture then s.take n :: r'.1 else r'.1, n + r'.2) := by
  intro k
  induction k with
  | zero =>
    intro r h
    rw [tryCounts_zero] at h
    by_cases h0 : min = 0
    · rw [if_pos h0] at h
      cases hc : cont s with
      | none => rw [hc] at h; cases h
      | some r' =>
        rw [hc] at h
        simp only [Option.map_some', Option.some.injEq] at h
        refine ⟨0, r', by omega, le_refl _, by simpa using hc, ?_⟩
        rw [← h]
        simp
    · rw [if_neg h0] at h
      cases h
  | succ k ih =>
    intro r h
    rw [tryCounts_succ] at h
    by_cases h0 : min ≤ k + 1
    · rw [if_pos h0] at h
      cases hc : cont (s.drop (k + 1)) with
      | some r' =>
        rw [hc] at h
        simp only [Option.some.injEq] at h
        exact ⟨k + 1, r', h0, le_refl _, hc, h.symm⟩
      | none =>
        rw [hc] at h
        obtain ⟨n, r', h1, h2, h3, h4⟩ := ih r h
        exact ⟨n, r', h1, by omega, h3, h4⟩
    · rw [if_neg h0] at h
      cases h

theorem spanLen_take (cls : Char → Bool) : ∀ (s : List Char) (cap : Option Nat) (n : Nat),
    n ≤ regexp.spanLen cls cap s → (∀ x ∈ s.take n, cls x = true) ∧ n ≤ s.length := by
  intro s
  induction s with
  | nil =>
    intro cap n h
    have : regexp.spanLen cls cap [] = 0 := by
      cases cap with
      | none => rfl
      | some c => cases c <;> rfl
    rw [this] at h
    have hn : n = 0 := by omega
    subst hn
    simp
  | cons c cs ih =>
    intro cap n h
    cases n with
    | zero => simp
    | succ n' =>
      cases cap with
      | none =>
        rw [spanLen_none_cons] at h
        split_ifs at h with hc
        · obtain ⟨a1, a2⟩ := ih none n' (by omega)
          refine ⟨?_, by simp; omega⟩
          intro x hx
          simp only [List.take_succ_cons, List.mem_cons] at hx
          rcases hx with hx | hx
          · rw [hx]; exact hc
          · exact a1 x hx
        · omega
      | some cp =>
        cases cp with
        | zero =>
          have : regexp.spanLen cls (some 0) (c :: cs) = 0 := rfl
          omega
        | succ cp' =>
          have e : regexp.spanLen cls (some (cp' + 1)) (c :: cs)
              = if cls c then regexp.spanLen cls (some cp') cs + 1 else 0 := rfl
          rw [e] at h
          split_ifs at h with hc
          · obtain ⟨a1, a2⟩ := ih (some cp') n' (by omega)
            refine ⟨?_, by simp; omega⟩
            intro x hx
            simp only [List.take_succ_cons, List.mem_cons] at hx
            rcases hx with hx | hx
            · rw [hx]; exact hc
            · exact a1 x hx
          · omega

theorem spanLen_le_cap (cls : Char → Bool) : ∀ (s : List Char) (cp : Nat),
    regexp.spanLen cls (some cp) s ≤ cp := by
  intro s
  induction s with
  | nil => intro cp; cases cp <;> exact Nat.zero_le _
  | cons c cs ih =>
    intro cp
    cases cp with
    | zero => exact Nat.zero_le _
    | succ cp' =>
      have e : regexp.spanLen cls (some (cp' + 1)) (c :: cs)
          = if cls c then regexp.spanLen cls (some cp') cs + 1 else 0 := rfl
      rw [e]
      split_ifs
      · have := ih cp'
        omega
      · omega

theorem matchHere_shape (s : List Char) (r : List (List Char) × Nat)
    (h : regexp.matchHere dateRe s = some r) :
    ∃ d m y, r.1 = [d, m, y] ∧ GroupShape d m y := by
  unfold dateRe at h
  rw [matchHere_cons] at h
  obtain ⟨n1, r1, a1, a2, a3, a4⟩ := tryCounts_some _ _ _ _ _ _ h
  dsimp only at a1 a2 a3 a4
  have c1 := spanLen_le_cap regexp.perlDigit s 2
  obtain ⟨t1, l1⟩ := spanLen_take regexp.perlDigit s (some 2) n1 a2
  rw [matchHere_cons] at a3
  obtain ⟨n2, r2, b1, b2, b3, b4⟩ := tryCounts_some _ _ _ _ _ _ a3
  dsimp only at b1 b2 b3 b4
  rw [matchHere_cons] at b3
  obtain ⟨n3, r3, e1, e2, e3, e4⟩ := tryCounts_some _ _ _ _ _ _ b3
  dsimp only at e1 e2 e3 e4
  obtain ⟨t3, l3⟩ := spanLen_take regexp.asciiLetter _ none n3 e2
  rw [matchHere_cons] at e3
  obtain ⟨n4, r4, f1, f2, f3, f4⟩ := tryCounts_some _ _ _ _ _ _ e3
  dsimp only at f1 f2 f3 f4
  rw [matchHere_cons] at f3
  obtain ⟨n5, r5, g1, g2, g3, g4⟩ := tryCounts_some _ _ _ _ _ _ f3
  dsimp only at g1 g2 g3 g4
  have c5 := spanLen_le_cap regexp.perlDigit (List.drop n4 (List.drop n3 (List.drop n2
    (List.drop n1 s)))) 4
  obtain ⟨t5, l5⟩ := spanLen_take regexp.perlDigit _ (some 4) n5 g2
  have hr5 : r5 = ([], 0) := by
    have : regexp.matchHere [] (List.drop n5 (List.drop n4 (List.drop n3 (List.drop n2
      (List.drop n1 s))))) = some ([], 0) := rfl
    rw [this] at g3
    exact (Option.some.inj g3).symm
  refine ⟨s.take n1, (List.drop n2 (List.drop n1 s)).take n3,
    (List.drop n4 (List.drop n3 (List.drop n2 (List.drop n1 s)))).take n5, ?_, ?_⟩
  · rw [a4, b4, e4, f4, g4, hr5]
    simp
  · refine ⟨?_, t1, ?_, t3, ?_, t5⟩
    · rw [List.length_take, min_eq_left l1]
      omega
    · intro hnil
      have := congrArg List.length hnil
      rw [List.length_take, min_eq_left l3] at this
      simp at this
      omega
    · rw [List.length_take, min_eq_left l5]
      omega

theorem FindStringSubmatch_cases : ∀ (s : List Char),
    regexp.FindStringSubmatch dateRe s = [] ∨
    ∃ w d m y, regexp.FindStringSubmatch dateRe s = [w, d, m, y] ∧ GroupShape d m y := by
  intro s
  induction s with
  | nil =>
    left
    unfold regexp.FindStringSubmatch
    have : regexp.matchHere dateRe [] = none := by decide
    rw [this]
  | cons c cs ih =>
    unfold regexp.FindStringSubmatch
    cases hm : regexp.matchHere dateRe (c :: cs) with
    | none => exact ih
    | some r =>
      right
      obtain ⟨d, m, y, h1, h2⟩ := matchHere_shape (c :: cs) r hm
      exact ⟨(c :: cs).take r.2, d, m, y, by dsimp only; rw [h1], h2⟩

theorem lookup_some : ∀ (tab : List String) (val : List Char) (i j : Nat) (rest : List Char),
    time.lookup tab val i = some (j, rest) →
    ∃ k name, tab[k]? = some name ∧ j = i + k ∧
      time.match (val.take name.length) name.toList = true ∧ name.length ≤ val.length ∧
      rest = val.drop name.length := by
  intro tab
  induction tab with
  | nil => intro val i j rest h; cases h
  | cons v tab' ih =>
    intro val i j rest h
    unfold time.lookup at h
    split_ifs at h with hc
    · simp only [Option.some.injEq, Prod.mk.injEq] at h
      exact ⟨0, v, by simp, by omega, hc.2, hc.1, h.2.symm⟩
    · obtain ⟨k, name, h1, h2, h3, h4, h5⟩ := ih val (i + 1) j rest h
      exact ⟨k + 1, name, by simpa using h1, by omega, h3, h4, h5⟩

theorem match_space : ∀ (X Y v : List Char), time.match (X ++ ' ' :: Y) v = true →
    X.length < v.length → ' ' ∈ v := by
  intro X
  induction X with
  | nil =>
    intro Y v h hl
    cases v with
    | nil => simp at hl
    | cons a v' =>
      rw [List.nil_append] at h
      unfold time.match at h
      simp only [Bool.and_eq_true, Bool.or_eq_true, beq_iff_eq, decide_eq_true_eq] at h
      rcases h.1 with h1 | h1
      · rw [← h1]; exact List.mem_cons_self _ _
      · exfalso
        have : (' '.toNat ||| 32) = 32 := by decide
        rw [this] at h1
        omega
  | cons x X' ih =>
    intro Y v h hl
    cases v with
    | nil => simp at hl
    | cons a v' =>
      rw [List.cons_append] at h
      unfold time.match at h
      rw [Bool.and_eq_true] at h
      exact List.mem_cons_of_mem _ (ih Y v' h.2 (by simpa using hl))

theorem match_append_eq (X v Y : List Char) (hl : X.length = v.length) :
    time.match (X ++ Y) v = time.match X v := by
  cases h : time.match X v with
  | true => exact match_append_true X v Y hl h
  | false => exact match_append_false X v Y h

theorem longMonthNames_no_space : ∀ name ∈ time.longMonthNames, ' ' ∉ name.toList := by
  decide

theorem letter_not_space (x : Char) (h : regexp.asciiLetter x = true) : x ≠ ' ' := by
  intro hx
  rw [hx] at h
  revert h
  decide

theorem skipSpace_letter (x : Char) (t : List Char) (hx : x ≠ ' ') :
    time.skipSpace (x :: t) = none := by
  show (if x = ' ' then some (List.dropWhile (fun c => c == ' ') (x :: t)) else none) = none
  rw [if_neg hx]

theorem atoi_digits (y : List Char) (hy : ∀ x ∈ y, regexp.perlDigit x = true) :
    time.atoi y = some (numOf y) := by
  unfold time.atoi numOf
  rw [if_pos (by simpa [List.all_eq_true] using hy)]

theorem Parse_shape (d m y : List Char) (hs : GroupShape d m y)
    (h : (time.Parse (d ++ " ".toList ++ m ++ " ".toList ++ y)).2 = none) :
    d.length = 2 ∧ ∃ k, k < 12 ∧ equalFold m (time.longMonthNames.getD k "").toList = true ∧
      1 ≤ numOf d ∧ numOf d ≤ time.daysIn (k + 1) (numOf y) ∧
      (time.Parse (d ++ " ".toList ++ m ++ " ".toList ++ y)).1
        = time.Date (numOf y) (k + 1) (numOf d) := by
  obtain ⟨s1, s2, s3, s4, s5, s6⟩ := hs
  have e : d ++ " ".toList ++ m ++ " ".toList ++ y = d ++ ' ' :: (m ++ ' ' :: y) := by simp
  rw [e] at h ⊢
  obtain ⟨x, m', rfl⟩ := List.exists_cons_of_ne_nil s3
  have hx : x ≠ ' ' := letter_not_space x (s4 x (List.mem_cons_self _ _))
  have g2 : time.skipSpace (' ' :: (x :: m' ++ ' ' :: y)) = some (x :: m' ++ ' ' :: y) :=
    skipSpace_cons x _ hx
  rcases s1 with hd | hd
  · exfalso
    obtain ⟨c0, rfl⟩ := List.length_eq_one.mp hd
    have g1 : time.getnum ([c0] ++ ' ' :: (x :: m' ++ ' ' :: y)) true = none := by
      simp [time.getnum, s2, regexp.perlDigit]
    unfold time.Parse at h
    rw [g1] at h
    cases h
  · refine ⟨hd, ?_⟩
    obtain ⟨c0, c1, rfl⟩ := List.length_eq_two.mp hd
    have hc0 := s2 c0 (by simp)
    have hc1 := s2 c1 (by simp)
    have g1 : time.getnum ([c0, c1] ++ ' ' :: (x :: m' ++ ' ' :: y)) true
        = some (numOf [c0, c1], ' ' :: (x :: m' ++ ' ' :: y)) := by
      simp [time.getnum, hc0, hc1, numOf]
    unfold time.Parse at h ⊢
    rw [g1] at h ⊢
    dsimp only at h ⊢
    rw [g2] at h ⊢
    dsimp only at h ⊢
    cases hl : time.lookup time.longMonthNames (x :: m' ++ ' ' :: y) 0 with
    | none =>
      rw [hl] at h
      cases h
    | some r =>
      obtain ⟨mi, v3⟩ := r
      rw [hl] at h
      dsimp only at h ⊢
      obtain ⟨k, name, k1, k2, k3, k4, k5⟩ := lookup_some _ _ _ _ _ hl
      obtain ⟨hk12', hkn⟩ := List.getElem?_eq_some.mp k1
      have hname : name ∈ time.longMonthNames := hkn ▸ List.getElem_mem hk12'
      have hk12 : k < 12 := hk12'
      have hgetD : time.longMonthNames.getD k "" = name := by
        rw [List.getD_eq_getElem?_getD, k1]
        rfl
      have hv : name.length = name.toList.length := rfl
      rw [hv, match_take] at k3
      rcases Nat.lt_trichotomy name.length (x :: m').length with hlt | heq | hgt
      · exfalso
        have hdrop : v3 = (x :: m').drop name.length ++ ' ' :: y := by
          rw [k5, List.drop_append_of_le_length (Nat.le_of_lt hlt)]
        have hne : (x :: m').drop name.length ≠ [] := by
          intro hnil
          have := congrArg List.length hnil
          simp only [List.length_drop, List.length_nil] at this
          omega
        obtain ⟨z, zs, hz⟩ := List.exists_cons_of_ne_nil hne
        have hzm : z ∈ x :: m' := by
          apply List.mem_of_mem_drop (n := name.length)
          rw [hz]
          exact List.mem_cons_self _ _
        rw [hdrop, hz, List.cons_append,
          skipSpace_letter z _ (letter_not_space z (s4 z hzm))] at h
        cases h
      · have hv3 : v3 = ' ' :: y := by
          rw [k5, heq, List.drop_left]
        have hyne : y ≠ [] := by
          intro hnil
          rw [hnil] at s5
          cases s5
        obtain ⟨y1, y', rfl⟩ := List.exists_cons_of_ne_nil hyne
        have hy1 : y1 ≠ ' ' := (digit_not_space y1 (s6 y1 (List.mem_cons_self _ _))).2.2.2
        have g3 : time.skipSpace (' ' :: y1 :: y') = some (y1 :: y') := skipSpace_cons y1 _ hy1
        have g4 : time.atoi (List.take 4 (y1 :: y')) = some (numOf (y1 :: y')) := by
          rw [← s5, List.take_length]
          exact atoi_digits _ s6
        have g5 : (List.drop 4 (y1 :: y')).length = 0 := by
          rw [List.length_drop, s5]
        have g6 : ¬ ((y1 :: y').length < 4 ∨
            (Option.map regexp.perlDigit (y1 :: y').head?).getD false = false) := by
          rw [s5]
          simp [s6 y1 (List.mem_cons_self _ _)]
        rw [hv3, g3] at h ⊢
        dsimp only at h ⊢
        rw [if_neg g6, g4] at h ⊢
        dsimp only at h ⊢
        rw [if_neg (by rw [g5]; simp)] at h ⊢
        have hmi : mi = k := by omega
        subst hmi
        by_cases hday : numOf [c0, c1] < 1 ∨ time.daysIn (mi + 1) (numOf (y1 :: y')) < numOf [c0, c1]
        · rw [if_pos hday] at h
          cases h
        · rw [if_neg hday]
          refine ⟨mi, hk12, ?_, by omega, by omega, rfl⟩
          rw [hgetD]
          unfold equalFold
          rw [Bool.and_eq_true]
          refine ⟨by simpa using heq.symm, ?_⟩
          rw [← match_append_eq (x :: m') name.toList (' ' :: y1 :: y') heq.symm]
          exact k3
      · exfalso
        exact longMonthNames_no_space name hname (match_space (x :: m') y name.toList k3 hgt)

theorem concatPages_congr {α : Type} (f g : Nat → List α) :
    ∀ N, (∀ k, 1 ≤ k → k ≤ N → f k = g k) → concatPages f N = concatPages g N := by
  intro N
  induction N with
  | zero => intro _; rfl
  | succ N ih =>
    intro h
    unfold concatPages
    rw [ih (fun k h1 h2 => h k h1 (by omega)), h (N + 1) (by omega) (le_refl _)]

theorem concatPages_nil {α : Type} (f : Nat → List α) (N : Nat)
    (h : ∀ k, 1 ≤ k → k ≤ N → f k = []) : concatPages f N = [] := by
  induction N with
  | zero => rfl
  | succ N ih =>
    unfold concatPages
    rw [ih (fun k h1 h2 => h k h1 (by omega)), h (N + 1) (by omega) (le_refl _)]
    rfl

theorem concatPages_update {α : Type} (f g : Nat → List α) (n : Nat) (hn1 : 1 ≤ n)
    (h : ∀ k, k ≠ n → f k = g k) (hg : g n = []) :
    ∀ N, n ≤ N → (concatPages f N).Perm (f n ++ concatPages g N) := by
  intro N
  induction N with
  | zero => intro hn2; omega
  | succ N ih =>
    intro hn2
    unfold concatPages
    by_cases hn : n = N + 1
    · rw [concatPages_congr f g N (fun k _ h2 => h k (by omega)), ← hn, hg, List.append_nil]
      exact List.perm_append_comm
    · rw [h (N + 1) (fun hc => hn hc.symm), ← List.append_assoc]
      exact (ih (by omega)).append_right _

theorem pending_setTask_ne (baseUrl : String) (scrapePage : String → PageResult)
    (tasks : Nat → TaskState) (n k : Nat) (t : TaskState) (h : k ≠ n) :
    pending baseUrl scrapePage (setTask tasks n t) k = pending baseUrl scrapePage tasks k := by
  unfold pending setTask
  rw [if_neg h]

theorem attempted_setTask_ne (baseUrl : String) (tasks : Nat → TaskState) (n k : Nat)
    (t : TaskState) (h : k ≠ n) :
    attempted baseUrl (setTask tasks n t) k = attempted baseUrl tasks k := by
  unfold attempted setTask
  rw [if_neg h]

theorem pending_setTask_same (baseUrl : String) (scrapePage : String → PageResult)
    (tasks : Nat → TaskState) (n : Nat) (t : TaskState) (N : Nat)
    (h : pending baseUrl scrapePage (setTask tasks n t) n = pending baseUrl scrapePage tasks n) :
    concatPages (pending baseUrl scrapePage (setTask tasks n t)) N
      = concatPages (pending baseUrl scrapePage tasks) N := by
  apply concatPages_congr
  intro k _ _
  by_cases hk : k = n
  · rw [hk]; exact h
  · exact pending_setTask_ne baseUrl scrapePage tasks n k t hk

theorem attempted_setTask_same (baseUrl : String) (tasks : Nat → TaskState) (n : Nat)
    (t : TaskState) (N : Nat)
    (h : attempted baseUrl (setTask tasks n t) n = attempted baseUrl tasks n) :
    concatPages (attempted baseUrl (setTask tasks n t)) N
      = concatPages (attempted baseUrl tasks) N := by
  apply concatPages_congr
  intro k _ _
  by_cases hk : k = n
  · rw [hk]; exact h
  · exact attempted_setTask_ne baseUrl tasks n k t hk

theorem pending_setTask_self (baseUrl : String) (scrapePage : String → PageResult)
    (tasks : Nat → TaskState) (n : Nat) (t : TaskState) :
    pending baseUrl scrapePage (setTask tasks n t) n
      = pending baseUrl scrapePage (fun _ => t) n := by
  unfold pending setTask
  rw [if_pos rfl]

theorem attempted_setTask_self (baseUrl : String) (tasks : Nat → TaskState) (n : Nat)
    (t : TaskState) :
    attempted baseUrl (setTask tasks n t) n = attempted baseUrl (fun _ => t) n := by
  unfold attempted setTask
  rw [if_pos rfl]

theorem initState_accounted (maxPages : Nat) (baseUrl : String)
    (scrapePage : String → PageResult) :
    Accounted maxPages baseUrl scrapePage initState := by
  refine ⟨?_, ?_, ?_, ?_, (fun h => by cases h), Or.inl rfl⟩
  · show ([] ++ ([] ++ concatPages (pending baseUrl scrapePage (fun _ => .notStarted))
      maxPages)).Perm _
    rw [List.nil_append, List.nil_append,
      concatPages_congr (pending baseUrl scrapePage (fun _ => .notStarted))
        (contribution baseUrl scrapePage) maxPages (fun k _ _ => rfl)]
  · intro n pageArticles h
    cases h
  · intro pageArticles h
    cases h
  · show List.Perm [] (concatPages (attempted baseUrl (fun _ => .notStarted)) maxPages)
    rw [concatPages_nil (attempted baseUrl (fun _ => .notStarted)) maxPages (fun k _ _ => rfl)]

theorem task_step_accounted (maxPages concurrentLimit : Nat) (baseUrl : String)
    (scrapePage : String → PageResult) (s s' : State) (n : Nat)
    (tnew : TaskState) (hinv : Inv maxPages concurrentLimit s)
    (hacc : Accounted maxPages baseUrl scrapePage s)
    (hp : pending baseUrl scrapePage (fun _ => tnew) n = pending baseUrl scrapePage s.tasks n)
    (ha : attempted baseUrl (fun _ => tnew) n = attempted baseUrl s.tasks n)
    (hs : ∀ pageArticles, tnew ≠ .sending pageArticles)
    (h1 : s'.tasks = setTask s.tasks n tnew) (h2 : s'.articles = s.articles)
    (h3 : s'.received = s.received) (h4 : s'.visited = s.visited)
    (h5 : s'.result = s.result) (h6 : s'.pc = s.pc) :
    Accounted maxPages baseUrl scrapePage s' := by
  have _ := hinv
  obtain ⟨a1, a2, a3, a4, a6, a5⟩ := hacc
  refine ⟨?_, ?_, ?_, ?_, ?_, ?_⟩
  · rw [h1, h2, h3, pending_setTask_same baseUrl scrapePage s.tasks n tnew maxPages
      ((pending_setTask_self baseUrl scrapePage s.tasks n tnew).trans hp)]
    exact a1
  · intro k pageArticles hk
    rw [h1] at hk
    unfold setTask at hk
    split_ifs at hk with hkn
    · exact absurd hk (hs pageArticles)
    · exact a2 k pageArticles hk
  · rw [h3]; exact a3
  · rw [h1, h4, attempted_setTask_same baseUrl s.tasks n tnew maxPages
      ((attempted_setTask_self baseUrl s.tasks n tnew).trans ha)]
    exact a4
  · rw [h6, h2, h3]; exact a6
  · rw [h5]; exact a5

theorem same_step_accounted (maxPages : Nat) (baseUrl : String)
    (scrapePage : String → PageResult) (s s' : State)
    (hacc : Accounted maxPages baseUrl scrapePage s)
    (h1 : s'.tasks = s.tasks) (h2 : s'.articles = s.articles)
    (h3 : s'.received = s.received) (h4 : s'.visited = s.visited)
    (h5 : s'.result = s.result) (h6 : s'.pc ≠ .noData) :
    Accounted maxPages baseUrl scrapePage s' := by
  obtain ⟨a1, a2, a3, a4, _, a5⟩ := hacc
  refine ⟨?_, ?_, ?_, ?_, ?_, ?_⟩
  · rw [h1, h2, h3]; exact a1
  · rw [h1]; exact a2
  · rw [h3]; exact a3
  · rw [h1, h4]; exact a4
  · intro hc; exact absurd hc h6
  · rw [h5]; exact a5

theorem step_main_accounted (maxPages concurrentLimit : Nat) (baseUrl : String)
    (scrapePage : String → PageResult) (elapsedMs : Nat) (s s' : State)
    (hinv : Inv maxPages concurrentLimit s)
    (hacc : Accounted maxPages baseUrl scrapePage s)
    (h : step maxPages concurrentLimit baseUrl scrapePage elapsedMs .main s = some s') :
    Accounted maxPages baseUrl scrapePage s' := by
  unfold step at h
  dsimp only at h
  split at h
  · split_ifs at h <;> cases h <;>
      exact same_step_accounted maxPages baseUrl scrapePage s _ hacc rfl rfl rfl rfl rfl
        (by simp)
  · split_ifs at h
    cases h
    exact same_step_accounted maxPages baseUrl scrapePage s _ hacc rfl rfl rfl rfl rfl
      (by simp)
  · cases h
    have hidle := hinv.idle s.page (le_refl _)
    obtain ⟨a1, a2, a3, a4, a6, a5⟩ := hacc
    refine ⟨?_, ?_, a3, ?_, (fun hc => by cases hc), a5⟩
    · dsimp only
      rw [pending_setTask_same baseUrl scrapePage s.tasks s.page .running maxPages
        (by rw [pending_setTask_self]; unfold pending; rw [hidle])]
      exact a1
    · intro k pageArticles hk
      dsimp only at hk
      unfold setTask at hk
      split_ifs at hk with hkn
      exact a2 k pageArticles hk
    · dsimp only
      rw [attempted_setTask_same baseUrl s.tasks s.page .running maxPages
        (by rw [attempted_setTask_self]; unfold attempted; rw [hidle])]
      exact a4
  · split_ifs at h
    cases h
    exact same_step_accounted maxPages baseUrl scrapePage s _ hacc rfl rfl rfl rfl rfl
      (by simp)
  · cases h
    exact same_step_accounted maxPages baseUrl scrapePage s _ hacc rfl rfl rfl rfl rfl
      (by simp)
  · cases h
    obtain ⟨a1, a2, a3, a4, a6, a5⟩ := hacc
    refine ⟨?_, a2, a3, a4, (fun hc => by cases hc), a5⟩
    dsimp only
    exact ((sortedByDate s.articles).1.append_right _).trans a1
  · rename_i hpc
    obtain ⟨a1, a2, a3, a4, a6, a5⟩ := hacc
    split_ifs at h with hl
    · cases h
      exact ⟨a1, a2, a3, a4, fun _ => Or.inl (List.length_eq_zero.mp hl), a5⟩
    · cases h
      exact ⟨a1, a2, a3, a4, (fun hc => by cases hc), a5⟩
  · rename_i hpc
    cases h
    have hdone := hinv.joined (by simp [hpc])
    obtain ⟨a1, a2, a3, a4, a6, a5⟩ := hacc
    have a1' := a1
    rw [concatPages_nil (pending baseUrl scrapePage s.tasks) maxPages, List.append_nil] at a1'
    · refine ⟨a1, a2, a3, a4, (fun hc => by cases hc),
        Or.inr ⟨_, s.articles ++ s.received.getD [], rfl, a1', ?_⟩⟩
      rcases a6 hpc with h0 | ⟨hr, n, hn1, hn2, hn⟩
      · rw [h0, List.nil_append]
        cases hr : s.received with
        | none => exact Or.inl rfl
        | some pageArticles => exact Or.inr (a3 pageArticles hr)
      · rw [hr, Option.getD_none, List.append_nil]
        exact Or.inr ⟨n, hn1, hn2, hn⟩
    · intro k hk1 hk2
      unfold pending
      rw [hdone k hk1 hk2]
  · rename_i hpc
    cases h
    have hdone := hinv.joined (by simp [hpc])
    obtain ⟨a1, a2, a3, a4, a6, a5⟩ := hacc
    have a1' := a1
    rw [concatPages_nil (pending baseUrl scrapePage s.tasks) maxPages, List.append_nil] at a1'
    · refine ⟨a1, a2, a3, a4, (fun hc => by cases hc),
        Or.inr ⟨_, s.received.getD [], rfl, a1', ?_⟩⟩
      cases hr : s.received with
      | none => exact Or.inl rfl
      | some pageArticles => exact Or.inr (a3 pageArticles hr)
    · intro k hk1 hk2
      unfold pending
      rw [hdone k hk1 hk2]
  · cases h

theorem step_accounted (maxPages concurrentLimit : Nat) (baseUrl : String)
    (scrapePage : String → PageResult) (elapsedMs : Nat) (a : Action) (s s' : State)
    (hinv : Inv maxPages concurrentLimit s)
    (hacc : Accounted maxPages baseUrl scrapePage s)
    (h : step maxPages concurrentLimit baseUrl scrapePage elapsedMs a s = some s') :
    Accounted maxPages baseUrl scrapePage s' := by
  cases a with
  | main =>
    exact step_main_accounted maxPages concurrentLimit baseUrl scrapePage elapsedMs s s' hinv
      hacc h
  | visit n =>
    unfold step at h
    dsimp only at h
    split at h
    · rename_i ht
      cases h
      have hn := hinv.lt_page n (by rw [ht]; simp)
      obtain ⟨a1, a2, a3, a4, a6, a5⟩ := hacc
      have hpend : pending baseUrl scrapePage (setTask s.tasks n
          (if (scrapePage (pageUrl baseUrl n)).2 = none
              ∧ 0 < (scrapePage (pageUrl baseUrl n)).1.length
            then .sending (scrapePage (pageUrl baseUrl n)).1 else .releasing)) n
          = pending baseUrl scrapePage s.tasks n := by
        rw [pending_setTask_self]
        unfold pending contribution
        rw [ht]
        dsimp only
        by_cases hc : (scrapePage (pageUrl baseUrl n)).2 = none
            ∧ 0 < (scrapePage (pageUrl baseUrl n)).1.length
        · rw [if_pos hc, if_pos hc.1]
        · rw [if_neg hc]
          dsimp only
          split_ifs with he
          · have hl : (scrapePage (pageUrl baseUrl n)).1.length = 0 := by
              by_contra hne
              exact hc ⟨he, by omega⟩
            exact (List.length_eq_zero.mp hl).symm
          · rfl
      refine ⟨?_, ?_, a3, ?_, a6, a5⟩
      · dsimp only
        rw [pending_setTask_same baseUrl scrapePage s.tasks n _ maxPages hpend]
        exact a1
      · intro k pageArticles hk
        dsimp only at hk
        unfold setTask at hk
        split_ifs at hk with hkn hc
        · cases hk
          rw [hkn]
          unfold contribution
          rw [if_pos hc.1]
        · exact a2 k pageArticles hk
      · dsimp only
        have hu := concatPages_update
          (attempted baseUrl (setTask s.tasks n
            (if (scrapePage (pageUrl baseUrl n)).2 = none
                ∧ 0 < (scrapePage (pageUrl baseUrl n)).1.length
              then .sending (scrapePage (pageUrl baseUrl n)).1 else .releasing)))
          (attempted baseUrl s.tasks) n hn.1
          (fun k hk => attempted_setTask_ne baseUrl s.tasks n k _ hk)
          (by unfold attempted; rw [ht]) maxPages (by omega)
        have hself : attempted baseUrl (setTask s.tasks n
            (if (scrapePage (pageUrl baseUrl n)).2 = none
                ∧ 0 < (scrapePage (pageUrl baseUrl n)).1.length
              then .sending (scrapePage (pageUrl baseUrl n)).1 else .releasing)) n
            = [pageUrl baseUrl n] := by
          rw [attempted_setTask_self]
          unfold attempted
          split_ifs <;> rfl
        rw [hself] at hu
        exact (List.perm_append_comm.trans (a4.cons _)).trans hu.symm
    · cases h
  | send n =>
    unfold step at h
    dsimp only at h
    split at h
    · rename_i pageArticles ht hr
      split_ifs at h
      cases h
      have hn := hinv.lt_page n (by rw [ht]; simp)
      have hjoin := hinv.joined
      obtain ⟨a1, a2, a3, a4, a6, a5⟩ := hacc
      refine ⟨?_, ?_, ?_, ?_, ?_, a5⟩
      · dsimp only
        have hu := concatPages_update (pending baseUrl scrapePage s.tasks)
          (pending baseUrl scrapePage (setTask s.tasks n .releasing)) n hn.1
          (fun k hk => (pending_setTask_ne baseUrl scrapePage s.tasks n k _ hk).symm)
          (by rw [pending_setTask_self]; rfl) maxPages (by omega)
        have hself : pending baseUrl scrapePage s.tasks n = pageArticles := by
          unfold pending
          rw [ht]
        rw [hself] at hu
        rw [hr] at a1
        rw [Option.getD_some]
        rw [Option.getD_none, List.nil_append] at a1
        exact ((hu.symm.append_left s.articles).trans a1)
      · intro k arts hk
        dsimp only at hk
        unfold setTask at hk
        split_ifs at hk with hkn
        · exact a2 k arts hk
      · intro arts harts
        dsimp only at harts
        cases harts
        exact ⟨n, hn.1, by omega, a2 n pageArticles ht⟩
      · dsimp only
        rw [attempted_setTask_same baseUrl s.tasks n .releasing maxPages
          (by rw [attempted_setTask_self]; unfold attempted; rw [ht])]
        exact a4
      · intro hc
        dsimp only at hc
        have hd := hjoin (by simp [hc]) n hn.1 (by omega)
        rw [ht] at hd
        cases hd
    · cases h
  | release n =>
    unfold step at h
    dsimp only at h
    split at h
    · rename_i ht
      cases h
      refine task_step_accounted maxPages concurrentLimit baseUrl scrapePage s _ n .finishing
        hinv hacc ?_ ?_ (by simp) rfl rfl rfl rfl rfl rfl
      · unfold pending
        rw [ht]
      · unfold attempted
        rw [ht]
    · cases h
  | done n =>
    unfold step at h
    dsimp only at h
    split at h
    · rename_i ht
      cases h
      refine task_step_accounted maxPages concurrentLimit baseUrl scrapePage s _ n .done
        hinv hacc ?_ ?_ (by simp) rfl rfl rfl rfl rfl rfl
      · unfold pending
        rw [ht]
      · unfold attempted
        rw [ht]
    · cases h
  | append =>
    unfold step at h
    dsimp only at h
    split at h
    · rename_i pageArticles hr
      cases h
      obtain ⟨a1, a2, a3, a4, a6, a5⟩ := hacc
      refine ⟨?_, a2, ?_, a4, ?_, a5⟩
      · dsimp only
        rw [hr, Option.getD_some] at a1
        rw [Option.getD_none, List.nil_append, List.append_assoc]
        exact a1
      · intro arts harts
        cases harts
      · intro hc
        dsimp only at hc ⊢
        rcases a6 hc with h0 | ⟨hn, _⟩
        · rw [h0, List.nil_append]
          exact Or.inr ⟨rfl, a3 pageArticles hr⟩
        · rw [hn] at hr
          cases hr
    · cases h

theorem run_accounted (maxPages concurrentLimit : Nat) (baseUrl : String)
    (scrapePage : String → PageResult) (elapsedMs : Nat) :
    ∀ (schedule : List Action) (s s' : State), Inv maxPages concurrentLimit s →
      Accounted maxPages baseUrl scrapePage s →
      run maxPages concurrentLimit baseUrl scrapePage elapsedMs schedule s = some s' →
      Accounted maxPages baseUrl scrapePage s' := by
  intro schedule
  induction schedule with
  | nil =>
    intro s s' _ hacc h
    unfold run at h
    cases h
    exact hacc
  | cons a rest ih =>
    intro s s' hinv hacc h
    unfold run at h
    split at h
    · rename_i s1 hs1
      exact ih s1 s' (step_inv maxPages concurrentLimit baseUrl scrapePage elapsedMs a s s1 hinv
        hs1) (step_accounted maxPages concurrentLimit baseUrl scrapePage elapsedMs a s s1 hinv
        hacc hs1) h
    · cases h

theorem run_cons (maxPages concurrentLimit : Nat) (baseUrl : String)
    (scrapePage : String → PageResult) (elapsedMs : Nat) (a : Action) (rest : List Action)
    (s s1 : State)
    (h : step maxPages concurrentLimit baseUrl scrapePage elapsedMs a s = some s1) :
    run maxPages concurrentLimit baseUrl scrapePage elapsedMs (a :: rest) s
      = run maxPages concurrentLimit baseUrl scrapePage elapsedMs rest s1 := by
  rw [run, h]

theorem run_append (maxPages concurrentLimit : Nat) (baseUrl : String)
    (scrapePage : String → PageResult) (elapsedMs : Nat) :
    ∀ (first second : List Action) (s s1 : State),
      run maxPages concurrentLimit baseUrl scrapePage elapsedMs first s = some s1 →
      run maxPages concurrentLimit baseUrl scrapePage elapsedMs (first ++ second) s
        = run maxPages concurrentLimit baseUrl scrapePage elapsedMs second s1 := by
  intro first
  induction first with
  | nil =>
    intro second s s1 h
    unfold run at h
    cases h
    rfl
  | cons a rest ih =>
    intro second s s1 h
    rw [List.cons_append]
    unfold run at h
    split at h
    · rename_i s2 hs2
      rw [run_cons maxPages concurrentLimit baseUrl scrapePage elapsedMs a _ s s2 hs2]
      exact ih second s2 s1 h
    · cases h

section
variable (maxPages concurrentLimit : Nat) (baseUrl : String)
  (scrapePage : String → PageResult) (elapsedMs : Nat)

theorem step_loop_enter (s : State) (hpc : s.pc = .loop) (hp : s.page ≤ maxPages) :
    step maxPages concurrentLimit baseUrl scrapePage elapsedMs .main s
      = some { s with wg := s.wg + 1, pc := .acquire } := by
  unfold step
  simp only [hpc]
  rw [if_pos hp]

theorem step_loop_leave (s : State) (hpc : s.pc = .loop) (hp : ¬ s.page ≤ maxPages) :
    step maxPages concurrentLimit baseUrl scrapePage elapsedMs .main s
      = some { s with pc := .wait } := by
  unfold step
  simp only [hpc]
  rw [if_neg hp]

theorem step_acquire (s : State) (hpc : s.pc = .acquire) (hp : s.sem < concurrentLimit) :
    step maxPages concurrentLimit baseUrl scrapePage elapsedMs .main s
      = some { s with sem := s.sem + 1, pc := .spawn } := by
  unfold step
  simp only [hpc]
  rw [if_pos hp]

theorem step_spawn (s : State) (hpc : s.pc = .spawn) :
    step maxPages concurrentLimit baseUrl scrapePage elapsedMs .main s
      = some { s with tasks := setTask s.tasks s.page .running, page := s.page + 1,
                      pc := .loop } := by
  unfold step
  simp only [hpc]

theorem step_wait (s : State) (hpc : s.pc = .wait) (hw : s.wg = 0) :
    step maxPages concurrentLimit baseUrl scrapePage elapsedMs .main s
      = some { s with pc := .close } := by
  unfold step
  simp only [hpc]
  rw [if_pos hw]

theorem step_close (s : State) (hpc : s.pc = .close) :
    step maxPages concurrentLimit baseUrl scrapePage elapsedMs .main s
      = some { s with closed := true, pc := .tail } := by
  unfold step
  simp only [hpc]

theorem step_tail (s : State) (hpc : s.pc = .tail) :
    step maxPages concurrentLimit baseUrl scrapePage elapsedMs .main s
      = some { s with articles := sort.Slice s.articles dateLess, pc := .test } := by
  unfold step
  simp only [hpc]

theorem step_test_empty (s : State) (hpc : s.pc = .test) (hl : s.articles.length = 0) :
    step maxPages concurrentLimit baseUrl scrapePage elapsedMs .main s
      = some { s with pc := .noData } := by
  unfold step
  simp only [hpc]
  rw [if_pos hl]

theorem step_test_nonempty (s : State) (hpc : s.pc = .test) (hl : ¬ s.articles.length = 0) :
    step maxPages concurrentLimit baseUrl scrapePage elapsedMs .main s
      = some { s with pc := .respond } := by
  unfold step
  simp only [hpc]
  rw [if_neg hl]

theorem step_noData (s : State) (hpc : s.pc = .noData) :
    step maxPages concurrentLimit baseUrl scrapePage elapsedMs .main s
      = some { s with result := some (noDataResponse, none), pc := .returned } := by
  unfold step
  simp only [hpc]

theorem step_respond (s : State) (hpc : s.pc = .respond) :
    step maxPages concurrentLimit baseUrl scrapePage elapsedMs .main s
      = some { s with result := some (success elapsedMs s.articles), pc := .returned } := by
  unfold step
  simp only [hpc]

theorem step_visit (s : State) (n : Nat) (ht : s.tasks n = .running) :
    step maxPages concurrentLimit baseUrl scrapePage elapsedMs (.visit n) s
      = some { s with
          visited := s.visited ++ [pageUrl baseUrl n],
          tasks := setTask s.tasks n
            (if (scrapePage (pageUrl baseUrl n)).2 = none
                ∧ 0 < (scrapePage (pageUrl baseUrl n)).1.length
              then .sending (scrapePage (pageUrl baseUrl n)).1 else .releasing) } := by
  unfold step
  simp only [ht]

theorem step_send (s : State) (n : Nat) (pageArticles : List NewsArticle)
    (ht : s.tasks n = .sending pageArticles) (hr : s.received = none)
    (hc : s.closed = false) :
    step maxPages concurrentLimit baseUrl scrapePage elapsedMs (.send n) s
      = some { s with received := some pageArticles,
                      tasks := setTask s.tasks n .releasing } := by
  unfold step
  simp only [ht, hr, hc]
  rfl

theorem step_release (s : State) (n : Nat) (ht : s.tasks n = .releasing) :
    step maxPages concurrentLimit baseUrl scrapePage elapsedMs (.release n) s
      = some { s with sem := s.sem - 1, tasks := setTask s.tasks n .finishing } := by
  unfold step
  simp only [ht]

theorem step_done (s : State) (n : Nat) (ht : s.tasks n = .finishing) :
    step maxPages concurrentLimit baseUrl scrapePage elapsedMs (.done n) s
      = some { s with wg := s.wg - 1, tasks := setTask s.tasks n .done } := by
  unfold step
  simp only [ht]

theorem step_append (s : State) (pageArticles : List NewsArticle)
    (hr : s.received = some pageArticles) :
    step maxPages concurrentLimit baseUrl scrapePage elapsedMs .append s
      = some { s with articles := s.articles ++ pageArticles, received := none } := by
  unfold step
  simp only [hr]

end

theorem setTask_self (tasks : Nat → TaskState) (n : Nat) (t : TaskState) :
    setTask tasks n t n = t := by
  unfold setTask
  rw [if_pos rfl]

theorem contribution_of_sent (baseUrl : String) (scrapePage : String → PageResult) (n : Nat)
    (hc : (scrapePage (pageUrl baseUrl n)).2 = none
      ∧ 0 < (scrapePage (pageUrl baseUrl n)).1.length) :
    contribution baseUrl scrapePage n = (scrapePage (pageUrl baseUrl n)).1 := by
  unfold contribution
  rw [if_pos hc.1]

theorem contribution_of_quiet (baseUrl : String) (scrapePage : String → PageResult) (n : Nat)
    (hc : ¬ ((scrapePage (pageUrl baseUrl n)).2 = none
      ∧ 0 < (scrapePage (pageUrl baseUrl n)).1.length)) :
    contribution baseUrl scrapePage n = [] := by
  unfold contribution
  split_ifs with he
  · have hl : (scrapePage (pageUrl baseUrl n)).1.length = 0 := by
      by_contra hne
      exact hc ⟨he, by omega⟩
    exact List.length_eq_zero.mp hl
  · rfl

theorem setTask_setTask (tasks : Nat → TaskState) (n : Nat) (t1 t2 : TaskState) :
    setTask (setTask tasks n t1) n t2 = setTask tasks n t2 := by
  funext k
  unfold setTask
  split_ifs <;> rfl

theorem stateAfter_tasks (k : Nat) :
    setTask (fun n => if 1 ≤ n ∧ n ≤ k then TaskState.done else TaskState.notStarted)
      (k + 1) .done
    = fun n => if 1 ≤ n ∧ n ≤ k + 1 then TaskState.done else TaskState.notStarted := by
  funext n
  unfold setTask
  by_cases hn : n = k + 1
  · rw [if_pos hn, if_pos (by omega)]
  · rw [if_neg hn]
    beta_reduce
    by_cases h1 : 1 ≤ n ∧ n ≤ k
    · rw [if_pos h1, if_pos (by omega)]
    · rw [if_neg h1, if_neg (by omega)]

theorem pageSteps_run (maxPages concurrentLimit : Nat) (baseUrl : String)
    (scrapePage : String → PageResult) (elapsedMs : Nat) (k : Nat) (hk : k < maxPages)
    (hl : 0 < concurrentLimit) :
    run maxPages concurrentLimit baseUrl scrapePage elapsedMs
        (pageSteps baseUrl scrapePage (k + 1)) (stateAfter baseUrl scrapePage k)
      = some (stateAfter baseUrl scrapePage (k + 1)) := by
  have hk1 : k + 1 ≤ maxPages := by omega
  unfold pageSteps
  split_ifs with hc
  · unfold sendingPage
    rw [if_pos rfl]
    simp only [List.cons_append, List.nil_append]
    rw [run_cons _ _ _ _ _ _ _ _ _
      (step_loop_enter maxPages concurrentLimit baseUrl scrapePage elapsedMs _ rfl hk1)]
    rw [run_cons _ _ _ _ _ _ _ _ _
      (step_acquire maxPages concurrentLimit baseUrl scrapePage elapsedMs _ rfl hl)]
    rw [run_cons _ _ _ _ _ _ _ _ _
      (step_spawn maxPages concurrentLimit baseUrl scrapePage elapsedMs _ rfl)]
    rw [run_cons _ _ _ _ _ _ _ _ _
      (step_visit maxPages concurrentLimit baseUrl scrapePage elapsedMs _ (k + 1)
        (setTask_self _ _ _))]
    rw [run_cons _ _ _ _ _ _ _ _ _
      (step_send maxPages concurrentLimit baseUrl scrapePage elapsedMs _ (k + 1)
        (scrapePage (pageUrl baseUrl (k + 1))).1
        ((setTask_self _ _ _).trans (if_pos hc)) rfl rfl)]
    rw [run_cons _ _ _ _ _ _ _ _ _
      (step_append maxPages concurrentLimit baseUrl scrapePage elapsedMs _ _ rfl)]
    rw [run_cons _ _ _ _ _ _ _ _ _
      (step_release maxPages concurrentLimit baseUrl scrapePage elapsedMs _ (k + 1)
        (setTask_self _ _ _))]
    rw [run_cons _ _ _ _ _ _ _ _ _
      (step_done maxPages concurrentLimit baseUrl scrapePage elapsedMs _ (k + 1)
        (setTask_self _ _ _))]
    rw [run]
    simp only [stateAfter, State.mk.injEq, Option.some.injEq, setTask_setTask,
      stateAfter_tasks, true_and, and_true]
    exact ⟨by rw [concatPages, contribution_of_sent baseUrl scrapePage (k + 1) hc], rfl⟩
  · unfold quietPage
    rw [run_cons _ _ _ _ _ _ _ _ _
      (step_loop_enter maxPages concurrentLimit baseUrl scrapePage elapsedMs _ rfl hk1)]
    rw [run_cons _ _ _ _ _ _ _ _ _
      (step_acquire maxPages concurrentLimit baseUrl scrapePage elapsedMs _ rfl hl)]
    rw [run_cons _ _ _ _ _ _ _ _ _
      (step_spawn maxPages concurrentLimit baseUrl scrapePage elapsedMs _ rfl)]
    rw [run_cons _ _ _ _ _ _ _ _ _
      (step_visit maxPages concurrentLimit baseUrl scrapePage elapsedMs _ (k + 1)
        (setTask_self _ _ _))]
    rw [run_cons _ _ _ _ _ _ _ _ _
      (step_release maxPages concurrentLimit baseUrl scrapePage elapsedMs _ (k + 1)
        ((setTask_self _ _ _).trans (if_neg hc)))]
    rw [run_cons _ _ _ _ _ _ _ _ _
      (step_done maxPages concurrentLimit baseUrl scrapePage elapsedMs _ (k + 1)
        (setTask_self _ _ _))]
    rw [run]
    simp only [stateAfter, State.mk.injEq, Option.some.injEq, setTask_setTask,
      stateAfter_tasks, true_and, and_true]
    exact ⟨by rw [concatPages, contribution_of_quiet baseUrl scrapePage (k + 1) hc,
      List.append_nil], rfl⟩

theorem orderlyPages_run (maxPages concurrentLimit : Nat) (baseUrl : String)
    (scrapePage : String → PageResult) (elapsedMs : Nat) (hl : 0 < concurrentLimit) :
    ∀ count k, k + count ≤ maxPages →
      run maxPages concurrentLimit baseUrl scrapePage elapsedMs
          (orderlyPages baseUrl scrapePage (k + 1) count) (stateAfter baseUrl scrapePage k)
        = some (stateAfter baseUrl scrapePage (k + count)) := by
  intro count
  induction count with
  | zero =>
    intro k _
    rfl
  | succ count ih =>
    intro k hk
    unfold orderlyPages
    rw [run_append maxPages concurrentLimit baseUrl scrapePage elapsedMs _ _ _ _
      (pageSteps_run maxPages concurrentLimit baseUrl scrapePage elapsedMs k (by omega) hl),
      ih (k + 1) (by omega)]
    congr 2
    omega

theorem tail_run (maxPages concurrentLimit : Nat) (baseUrl : String)
    (scrapePage : String → PageResult) (elapsedMs : Nat) (s : State) (hpc : s.pc = .tail) :
    ∃ s', run maxPages concurrentLimit baseUrl scrapePage elapsedMs [.main, .main, .main] s
        = some s' ∧ s'.result = some (finalize elapsedMs s.articles) := by
  rw [run_cons _ _ _ _ _ _ _ _ _
    (step_tail maxPages concurrentLimit baseUrl scrapePage elapsedMs _ hpc)]
  by_cases hl : (sort.Slice s.articles dateLess).length = 0
  · rw [run_cons _ _ _ _ _ _ _ _ _
      (step_test_empty maxPages concurrentLimit baseUrl scrapePage elapsedMs _ rfl hl)]
    rw [run_cons _ _ _ _ _ _ _ _ _
      (step_noData maxPages concurrentLimit baseUrl scrapePage elapsedMs _ rfl)]
    refine ⟨_, rfl, ?_⟩
    rw [finalize_eq, if_pos hl]
  · rw [run_cons _ _ _ _ _ _ _ _ _
      (step_test_nonempty maxPages concurrentLimit baseUrl scrapePage elapsedMs _ rfl hl)]
    rw [run_cons _ _ _ _ _ _ _ _ _
      (step_respond maxPages concurrentLimit baseUrl scrapePage elapsedMs _ rfl)]
    refine ⟨_, rfl, ?_⟩
    rw [finalize_eq, if_neg hl]

theorem mainTail_run (maxPages concurrentLimit : Nat) (baseUrl : String)
    (scrapePage : String → PageResult) (elapsedMs : Nat) :
    ∃ s, run maxPages concurrentLimit baseUrl scrapePage elapsedMs mainTail
        (stateAfter baseUrl scrapePage maxPages) = some s ∧
      s.result = some (finalize elapsedMs
        (concatPages (contribution baseUrl scrapePage) maxPages)) := by
  unfold mainTail
  rw [run_cons _ _ _ _ _ _ _ _ _
    (step_loop_leave maxPages concurrentLimit baseUrl scrapePage elapsedMs _ rfl
      (Nat.not_succ_le_self maxPages))]
  rw [run_cons _ _ _ _ _ _ _ _ _
    (step_wait maxPages concurrentLimit baseUrl scrapePage elapsedMs _ rfl rfl)]
  rw [run_cons _ _ _ _ _ _ _ _ _
    (step_close maxPages concurrentLimit baseUrl scrapePage elapsedMs _ rfl)]
  exact tail_run maxPages concurrentLimit baseUrl scrapePage elapsedMs _ rfl

theorem orderlySchedule_result (baseUrl : String) (scrapePage : String → PageResult)
    (elapsedMs : Nat) :
    scrapeData baseUrl scrapePage elapsedMs (orderlySchedule baseUrl scrapePage)
      = some (finalize elapsedMs (concatPages (contribution baseUrl scrapePage) 50)) := by
  obtain ⟨s, hs, hr⟩ := mainTail_run 50 50 baseUrl scrapePage elapsedMs
  have h0 : initState = stateAfter baseUrl scrapePage 0 := by
    unfold initState stateAfter
    simp only [State.mk.injEq, true_and, and_true]
    refine ⟨?_, rfl, rfl⟩
    funext n
    rw [if_neg (by omega)]
  have hrun : run 50 50 baseUrl scrapePage elapsedMs (orderlySchedule baseUrl scrapePage)
      initState = some s := by
    unfold orderlySchedule
    rw [h0, run_append 50 50 baseUrl scrapePage elapsedMs _ _ _ _
      (orderlyPages_run 50 50 baseUrl scrapePage elapsedMs (by omega) 50 0 (by omega))]
    exact hs
  unfold scrapeData
  rw [hrun]
  exact hr

theorem contribution_quiet (baseUrl : String) (scrapePage : String → PageResult)
    (hq : ∀ url, (scrapePage url).2 ≠ none ∨ (scrapePage url).1.length = 0) (N : Nat) :
    concatPages (contribution baseUrl scrapePage) N = [] := by
  apply concatPages_nil
  intro k _ _
  apply contribution_of_quiet
  intro hc
  rcases hq (pageUrl baseUrl k) with h | h
  · exact h hc.1
  · omega

theorem orderlySchedule_quiet (baseUrl : String) (scrapePage : String → PageResult)
    (elapsedMs : Nat)
    (hq : ∀ url, (scrapePage url).2 ≠ none ∨ (scrapePage url).1.length = 0) :
    scrapeData baseUrl scrapePage elapsedMs (orderlySchedule baseUrl scrapePage)
      = some (noDataResponse, none) := by
  rw [orderlySchedule_result, contribution_quiet baseUrl scrapePage hq, finalize_nil]

/-- Under the orderly schedule scrapeData returns, with a nil error, a permutation of
the concatenation of the results of the pages that returned no error. -/
theorem scrapeData_orderly_collects_all (baseUrl : String) (scrapePage : String → PageResult)
    (elapsedMs : Nat) :
    ∃ r, scrapeData baseUrl scrapePage elapsedMs (orderlySchedule baseUrl scrapePage) = some r ∧
      r.2 = none ∧
      r.1.Data.Dapo.Berita.Perm (concatPages (contribution baseUrl scrapePage) 50) := by
  refine ⟨_, orderlySchedule_result baseUrl scrapePage elapsedMs, finalize_error _ _, ?_⟩
  rw [finalize_berita]
  exact (sortedByDate _).1

/-- Under every schedule, what scrapeData returns has a nil error, and its records
together with at most one batch (one the collector had received and not yet
appended, or appended too late for the main goroutine to see) are a permutation of
the concatenation of the results of the pages that returned no error: no record is
duplicated or invented, and at most the records of one page are lost. -/
theorem scrapeData_records_accounted (baseUrl : String) (scrapePage : String → PageResult)
    (elapsedMs : Nat) (schedule : List Action) (r : Response × Option GoError)
    (h : scrapeData baseUrl scrapePage elapsedMs schedule = some r) :
    r.2 = none ∧ ∃ lost,
      (r.1.Data.Dapo.Berita ++ lost).Perm (concatPages (contribution baseUrl scrapePage) 50) ∧
      (lost = [] ∨ ∃ n, 1 ≤ n ∧ n ≤ 50 ∧ lost = contribution baseUrl scrapePage n) := by
  refine ⟨scrapeData_error_nil baseUrl scrapePage elapsedMs schedule r h, ?_⟩
  unfold scrapeData at h
  split at h
  · rename_i s hs
    have hacc := run_accounted 50 50 baseUrl scrapePage elapsedMs schedule initState s
      (initState_inv 50 50) (initState_accounted 50 baseUrl scrapePage) hs
    rcases hacc.returned with h1 | ⟨r1, lost, h1, h2, h3⟩
    · rw [h1] at h; cases h
    · rw [h1] at h
      cases h
      exact ⟨lost, h2, h3⟩
  · cases h

/-- In every state scrapeData reaches after its return, the URLs passed to scrapePage
are those of the pages 1 to 50, each once. -/
theorem scrapeData_visits_each_page_once (baseUrl : String)
    (scrapePage : String → PageResult) (elapsedMs : Nat) (s : State)
    (h : Reachable baseUrl scrapePage elapsedMs s) (hpc : s.pc = .returned) :
    s.visited.Perm (concatPages (fun n => [pageUrl baseUrl n]) 50) := by
  obtain ⟨schedule, hs⟩ := h
  have hinv := run_inv 50 50 baseUrl scrapePage elapsedMs schedule initState s
    (initState_inv 50 50) hs
  have hacc := run_accounted 50 50 baseUrl scrapePage elapsedMs schedule initState s
    (initState_inv 50 50) (initState_accounted 50 baseUrl scrapePage) hs
  have hdone := hinv.joined (by simp [hpc])
  have hu := hacc.urls
  rw [concatPages_congr (attempted baseUrl s.tasks) (fun n => [pageUrl baseUrl n]) 50] at hu
  · exact hu
  · intro k hk1 hk2
    unfold attempted
    rw [hdone k hk1 hk2]

/-- When the main goroutine reads articles (at sort.Slice) while the collector holds
no received batch, articles is a permutation of the concatenation of the results of
the pages that returned no error. -/
theorem scrapeData_idle_collector_complete (baseUrl : String)
    (scrapePage : String → PageResult) (elapsedMs : Nat) (s : State)
    (h : Reachable baseUrl scrapePage elapsedMs s) (hpc : s.pc = .tail)
    (hr : s.received = none) :
    s.articles.Perm (concatPages (contribution baseUrl scrapePage) 50) := by
  obtain ⟨schedule, hs⟩ := h
  have hinv := run_inv 50 50 baseUrl scrapePage elapsedMs schedule initState s
    (initState_inv 50 50) hs
  have hacc := run_accounted 50 50 baseUrl scrapePage elapsedMs schedule initState s
    (initState_inv 50 50) (initState_accounted 50 baseUrl scrapePage) hs
  have hdone := hinv.joined (by simp [hpc])
  have h1 := hacc.records
  rw [hr, Option.getD_none, List.nil_append,
    concatPages_nil (pending baseUrl scrapePage s.tasks) 50, List.append_nil] at h1
  · exact h1
  · intro k hk1 hk2
    unfold pending
    rw [hdone k hk1 hk2]

theorem step_unreturned (maxPages concurrentLimit : Nat) (baseUrl : String)
    (scrapePage : String → PageResult) (elapsedMs : Nat) (a : Action) (s s' : State)
    (h : step maxPages concurrentLimit baseUrl scrapePage elapsedMs a s = some s')
    (hr : s.pc ≠ .returned → s.result = none) : s'.pc ≠ .returned → s'.result = none := by
  cases a with
  | main =>
    unfold step at h
    dsimp only at h
    split at h
    · rename_i p
      split_ifs at h <;> cases h <;> exact fun _ => hr (by simp [p])
    · rename_i p
      split_ifs at h; cases h; exact fun _ => hr (by simp [p])
    · rename_i p
      cases h; exact fun _ => hr (by simp [p])
    · rename_i p
      split_ifs at h; cases h; exact fun _ => hr (by simp [p])
    · rename_i p
      cases h; exact fun _ => hr (by simp [p])
    · rename_i p
      cases h; exact fun _ => hr (by simp [p])
    · rename_i p
      split_ifs at h <;> cases h <;> exact fun _ => hr (by simp [p])
    · cases h; exact fun hc => absurd rfl hc
    · cases h; exact fun hc => absurd rfl hc
    · cases h
  | visit n =>
    unfold step at h
    dsimp only at h
    split at h
    · cases h; exact hr
    · cases h
  | send n =>
    unfold step at h
    dsimp only at h
    split at h
    · split_ifs at h; cases h; exact hr
    · cases h
  | release n =>
    unfold step at h
    dsimp only at h
    split at h
    · cases h; exact hr
    · cases h
  | done n =>
    unfold step at h
    dsimp only at h
    split at h
    · cases h; exact hr
    · cases h
  | append =>
    unfold step at h
    dsimp only at h
    split at h
    · cases h; exact hr
    · cases h

theorem run_unreturned (maxPages concurrentLimit : Nat) (baseUrl : String)
    (scrapePage : String → PageResult) (elapsedMs : Nat) :
    ∀ (schedule : List Action) (s s' : State),
      run maxPages concurrentLimit baseUrl scrapePage elapsedMs schedule s = some s' →
      (s.pc ≠ .returned → s.result = none) → s'.pc ≠ .returned → s'.result = none := by
  intro schedule
  induction schedule with
  | nil =>
    intro s s' h hr
    unfold run at h
    cases h
    exact hr
  | cons a rest ih =>
    intro s s' h hr
    unfold run at h
    split at h
    · rename_i s1 hs1
      exact ih s1 s' h (step_unreturned maxPages concurrentLimit baseUrl scrapePage elapsedMs a
        s s1 hs1 hr)
    · cases h

theorem step_settled (maxPages concurrentLimit : Nat) (baseUrl : String)
    (scrapePage : String → PageResult) (elapsedMs : Nat) (collected : List NewsArticle)
    (a : Action) (s s' : State) (hinv : Inv maxPages concurrentLimit s)
    (hs : SettledFrom elapsedMs collected s)
    (h : step maxPages concurrentLimit baseUrl scrapePage elapsedMs a s = some s') :
    SettledFrom elapsedMs collected s' := by
  obtain ⟨hr, hpc⟩ := hs
  cases a with
  | main =>
    unfold step at h
    dsimp only at h
    rcases hpc with ⟨p, h1, h2⟩ | ⟨p, h1, h2⟩ | ⟨p, h1, h2⟩ | ⟨p, h1, h2, h3⟩ | ⟨p, h1⟩
    · rw [p] at h
      dsimp only at h
      cases h
      exact ⟨hr, Or.inr (Or.inl ⟨rfl, by rw [h1], h2⟩)⟩
    · rw [p] at h
      dsimp only at h
      split_ifs at h with hl
      · cases h
        exact ⟨hr, Or.inr (Or.inr (Or.inl ⟨rfl, by rw [← h1]; exact hl, h2⟩))⟩
      · cases h
        exact ⟨hr, Or.inr (Or.inr (Or.inr (Or.inl ⟨rfl, h1, by rw [← h1]; exact hl, h2⟩)))⟩
    · rw [p] at h
      dsimp only at h
      cases h
      refine ⟨hr, Or.inr (Or.inr (Or.inr (Or.inr ⟨rfl, ?_⟩)))⟩
      dsimp only
      rw [finalize_eq, if_pos h1]
    · rw [p] at h
      dsimp only at h
      cases h
      refine ⟨hr, Or.inr (Or.inr (Or.inr (Or.inr ⟨rfl, ?_⟩)))⟩
      dsimp only
      rw [finalize_eq, if_neg h2, h1]
    · rw [p] at h
      cases h
  | visit n =>
    unfold step at h
    dsimp only at h
    split at h
    · cases h; exact ⟨hr, hpc⟩
    · cases h
  | send n =>
    unfold step at h
    dsimp only at h
    split at h
    · rename_i pageArticles ht _
      exfalso
      have hn := hinv.lt_page n (by rw [ht]; simp)
      have hj : s.pc = .close ∨ s.pc = .tail ∨ s.pc = .test ∨ s.pc = .noData ∨ s.pc = .respond
          ∨ s.pc = .returned := by
        rcases hpc with ⟨p, _⟩ | ⟨p, _⟩ | ⟨p, _⟩ | ⟨p, _⟩ | ⟨p, _⟩ <;> simp [p]
      have hd := hinv.joined hj n hn.1 (by omega)
      rw [ht] at hd
      cases hd
    · cases h
  | release n =>
    unfold step at h
    dsimp only at h
    split at h
    · cases h; exact ⟨hr, hpc⟩
    · cases h
  | done n =>
    unfold step at h
    dsimp only at h
    split at h
    · cases h; exact ⟨hr, hpc⟩
    · cases h
  | append =>
    unfold step at h
    dsimp only at h
    split at h
    · rename_i pageArticles hr'
      rw [hr] at hr'
      cases hr'
    · cases h

theorem run_settled (maxPages concurrentLimit : Nat) (baseUrl : String)
    (scrapePage : String → PageResult) (elapsedMs : Nat) (collected : List NewsArticle) :
    ∀ (schedule : List Action) (s s' : State), Inv maxPages concurrentLimit s →
      SettledFrom elapsedMs collected s →
      run maxPages concurrentLimit baseUrl scrapePage elapsedMs schedule s = some s' →
      SettledFrom elapsedMs collected s' := by
  intro schedule
  induction schedule with
  | nil =>
    intro s s' _ hs h
    unfold run at h
    cases h
    exact hs
  | cons a rest ih =>
    intro s s' hinv hs h
    unfold run at h
    split at h
    · rename_i s1 hs1
      exact ih s1 s' (step_inv maxPages concurrentLimit baseUrl scrapePage elapsedMs a s s1 hinv
        hs1) (step_settled maxPages concurrentLimit baseUrl scrapePage elapsedMs collected a s s1
        hinv hs hs1) h
    · cases h

/-- When the main goroutine reaches sort.Slice while the collector holds no received
batch, whatever scrapeData returns afterwards is what lines 210-232 make of the
articles collected at that moment. -/
theorem scrapeData_settled_result (baseUrl : String) (scrapePage : String → PageResult)
    (elapsedMs : Nat) (before after : List Action) (s : State)
    (r : Response × Option GoError)
    (hrun : run 50 50 baseUrl scrapePage elapsedMs before initState = some s)
    (hpc : s.pc = .tail) (hidle : s.received = none)
    (h : scrapeData baseUrl scrapePage elapsedMs (before ++ after) = some r) :
    r = finalize elapsedMs s.articles := by
  have hinv := run_inv 50 50 baseUrl scrapePage elapsedMs before initState s
    (initState_inv 50 50) hrun
  have hres : s.result = none :=
    run_unreturned 50 50 baseUrl scrapePage elapsedMs before initState s hrun (fun _ => rfl)
      (by rw [hpc]; simp)
  unfold scrapeData at h
  rw [run_append 50 50 baseUrl scrapePage elapsedMs before after initState s hrun] at h
  split at h
  · rename_i s' hs'
    have hset := run_settled 50 50 baseUrl scrapePage elapsedMs s.articles after s s' hinv
      ⟨hidle, Or.inl ⟨hpc, rfl, hres⟩⟩ hs'
    rcases hset.2 with ⟨_, _, h2⟩ | ⟨_, _, h2⟩ | ⟨_, _, h2⟩ | ⟨_, _, _, h2⟩ | ⟨_, h2⟩
    · rw [h2] at h; cases h
    · rw [h2] at h; cases h
    · rw [h2] at h; cases h
    · rw [h2] at h; cases h
    · rw [h2] at h
      cases h
      rfl
  · cases h

theorem yearLength_leap (y : Nat) :
    yearLength y = if time.isLeap y = true then 366 else 365 := by
  unfold yearLength time.isLeap
  by_cases h400 : y % 400 = 0
  · have h4 : y % 4 = 0 := by omega
    simp [h400, h4]
  · by_cases h100 : y % 100 = 0
    · have h4 : y % 4 = 0 := by omega
      simp [h400, h100, h4]
    · by_cases h4 : y % 4 = 0
      · simp [h400, h100, h4]
      · simp [h400, h100, h4]

theorem daysToYear_eq (y : Nat) : time.daysToYear y = daysOfYears y := by
  induction y with
  | zero =>
    unfold time.daysToYear daysOfYears
    omega
  | succ y ih =>
    rw [daysOfYears, ← ih]
    unfold time.daysToYear yearLength
    have a4 : (y + 1 + 3) / 4 = (y + 3) / 4 + (if y % 4 = 0 then 1 else 0) := by
      split_ifs <;> omega
    have a100 : (y + 1 + 99) / 100 = (y + 99) / 100 + (if y % 100 = 0 then 1 else 0) := by
      split_ifs <;> omega
    have a400 : (y + 1 + 399) / 400 = (y + 399) / 400 + (if y % 400 = 0 then 1 else 0) := by
      split_ifs <;> omega
    have b : (y + 99) / 100 ≤ (y + 3) / 4 := by omega
    have c4 : y % 400 = 0 → y % 100 = 0 := by omega
    have c1 : y % 100 = 0 → y % 4 = 0 := by omega
    rw [a4, a100, a400]
    generalize (y + 3) / 4 = A at b ⊢
    generalize (y + 99) / 100 = B at b ⊢
    generalize (y + 399) / 400 = C
    generalize hp4 : y % 4 = p4 at c1 ⊢
    generalize hp100 : y % 100 = p100 at c1 c4 ⊢
    generalize hp400 : y % 400 = p400 at c4 ⊢
    split_ifs <;> omega

theorem monthLength_daysIn (y m : Nat) (h1 : 1 ≤ m) (h12 : m ≤ 12) :
    monthLength y m = time.daysIn m y := by
  unfold time.daysIn monthLength
  rw [yearLength_leap]
  have hm : m = 1 ∨ m = 2 ∨ m = 3 ∨ m = 4 ∨ m = 5 ∨ m = 6 ∨ m = 7 ∨ m = 8 ∨ m = 9 ∨ m = 10
      ∨ m = 11 ∨ m = 12 := by omega
  rcases hm with h | h | h | h | h | h | h | h | h | h | h | h <;> subst h <;>
    by_cases hl : time.isLeap y = true <;> simp [hl, time.daysBefore]

theorem daysOfMonths_eq (y m : Nat) (h1 : 1 ≤ m) (h12 : m ≤ 12) :
    (daysOfMonths y (m - 1) : Int)
      = (time.daysBefore.getD (m - 1) 0 : Int)
        + (if 2 < m ∧ time.isLeap y = true then 1 else 0) := by
  have hm : m = 1 ∨ m = 2 ∨ m = 3 ∨ m = 4 ∨ m = 5 ∨ m = 6 ∨ m = 7 ∨ m = 8 ∨ m = 9 ∨ m = 10
      ∨ m = 11 ∨ m = 12 := by omega
  rcases hm with h | h | h | h | h | h | h | h | h | h | h | h <;> subst h <;>
    by_cases hl : time.isLeap y = true <;>
    simp [daysOfMonths, monthLength, yearLength_leap, hl, time.daysBefore]

theorem Date_eq_midnightSeconds (y m d : Nat) (h1 : 1 ≤ m) (h12 : m ≤ 12) (hd : 1 ≤ d) :
    time.Date y m d = ⟨midnightSeconds y m d⟩ := by
  unfold time.Date midnightSeconds
  dsimp only
  congr 1
  have e1 := daysToYear_eq y
  have e2 := daysOfMonths_eq y m h1 h12
  rw [e1]
  push_cast
  rw [e2]
  have : ((d - 1 : Nat) : Int) = (d : Int) - 1 := by omega
  rw [this]
  ring

theorem Noise.no_digit {s : List Char} (h : Noise s) : ∀ x ∈ s, regexp.perlDigit x = false := by
  induction h with
  | nil => intro x hx; cases hx
  | space c t hc _ ih =>
    intro x hx
    rcases List.mem_cons.mp hx with h | h
    · subst h
      by_contra hd
      have := (digit_not_space x (by simpa using hd)).2.2.1
      rw [this] at hc
      cases hc
    · exact ih x h
  | bar t _ ih =>
    intro x hx
    rcases List.mem_cons.mp hx with h | h
    · subst h; decide
    · exact ih x h
  | nbsp t _ ih =>
    intro x hx
    simp only [List.mem_cons] at hx
    rcases hx with h | h | h | h | h | h | h
    · subst h; decide
    · subst h; decide
    · subst h; decide
    · subst h; decide
    · subst h; decide
    · subst h; decide
    · exact ih x h

theorem monthTable_range (name : String) (m : Nat) (hm : (name, m) ∈ monthTable) :
    1 ≤ m ∧ m ≤ 12 := by
  simp only [monthTable, List.mem_cons, Prod.mk.injEq, List.mem_singleton,
    List.not_mem_nil, or_false] at hm
  omega

theorem parseDate_dateText_valid (pre post : List Char) (name : String) (m : Nat)
    (d1 d2 y1 y2 y3 y4 : Char) (hpre : ∀ x ∈ pre, regexp.perlDigit x = false)
    (hm : (name, m) ∈ monthTable)
    (h1 : regexp.perlDigit d1 = true) (h2 : regexp.perlDigit d2 = true)
    (h3 : regexp.perlDigit y1 = true) (h4 : regexp.perlDigit y2 = true)
    (h5 : regexp.perlDigit y3 = true) (h6 : regexp.perlDigit y4 = true)
    (hvalid : 1 ≤ dayOf d1 d2 ∧ dayOf d1 d2 ≤ monthLength (yearOf y1 y2 y3 y4) m) :
    parseDate (String.mk (pre ++ dateText d1 d2 name.toList y1 y2 y3 y4 ++ post))
      = (⟨midnightSeconds (yearOf y1 y2 y3 y4) m (dayOf d1 d2)⟩, none) := by
  have hrange := monthTable_range name m hm
  rw [parseDate_dateText pre post name m d1 d2 y1 y2 y3 y4 hpre hm h1 h2 h3 h4 h5 h6]
  rw [← monthLength_daysIn _ m hrange.1 hrange.2, if_neg (by omega),
    Date_eq_midnightSeconds _ m _ hrange.1 hrange.2 hvalid.1]

theorem midnightSeconds_year_zero (m d : Nat) (h1 : 1 ≤ m) (h12 : m ≤ 12) (hd : 1 ≤ d)
    (hv : d ≤ monthLength 0 m) : midnightSeconds 0 m d < 0 := by
  have hm : m = 1 ∨ m = 2 ∨ m = 3 ∨ m = 4 ∨ m = 5 ∨ m = 6 ∨ m = 7 ∨ m = 8 ∨ m = 9 ∨ m = 10
      ∨ m = 11 ∨ m = 12 := by omega
  rcases hm with h | h | h | h | h | h | h | h | h | h | h | h <;> subst h <;>
    simp [monthLength, yearLength] at hv <;>
    simp [midnightSeconds, daysOfYears, daysOfMonths, monthLength, yearLength] <;> omega

theorem daysOfYears_ge (y : Nat) : 366 + 365 * y ≤ daysOfYears (y + 1) := by
  induction y with
  | zero => decide
  | succ y ih =>
    rw [daysOfYears]
    have : 365 ≤ yearLength (y + 1) := by
      unfold yearLength
      split_ifs <;> omega
    omega

theorem monthLength_ge (y m : Nat) : 28 ≤ monthLength y m := by
  unfold monthLength
  split <;> (try split_ifs) <;> omega

theorem daysOfMonths_ge (y k : Nat) : 28 * k ≤ daysOfMonths y k := by
  induction k with
  | zero => exact Nat.zero_le _
  | succ k ih =>
    rw [daysOfMonths]
    have := monthLength_ge y (k + 1)
    omega

theorem midnightSeconds_pos (y m d : Nat) (hy : 1 ≤ y) (hd : 2 ≤ y ∨ 2 ≤ m ∨ 2 ≤ d) :
    0 < midnightSeconds y m d := by
  unfold midnightSeconds
  obtain ⟨z, rfl⟩ : ∃ z, y = z + 1 := ⟨y - 1, by omega⟩
  have h1 := daysOfYears_ge z
  have h2 := daysOfMonths_ge (z + 1) (m - 1)
  omega

theorem Slice_length (articles : List NewsArticle) :
    (sort.Slice articles dateLess).length = articles.length :=
  (sortedByDate articles).1.length_eq

theorem sorted_pair (articles : List NewsArticle) (i j : Nat) (r r' : NewsArticle)
    (hi : (sort.Slice articles dateLess)[i]? = some r)
    (hj : (sort.Slice articles dateLess)[j]? = some r') (hij : i ≤ j) :
    (parseDate r'.Date).1.sec ≤ (parseDate r.Date).1.sec := by
  have hjl : j < articles.length := by
    rw [← Slice_length]
    exact (List.getElem?_eq_some.mp hj).1
  have h := (sortedByDate articles).2 i j (Nat.zero_le _) hij hjl
  rw [kAt_getElem? dateKey _ i r hi, kAt_getElem? dateKey _ j r' hj] at h
  unfold dateKey at h
  omega

/-- The list sort.Slice makes of a collected list is in newest-first order: of two
adjacent records the parsed date of the first is not before that of the second. -/
theorem Slice_adjacent_newest_first (articles : List NewsArticle) (i : Nat)
    (r r' : NewsArticle) (hi : (sort.Slice articles dateLess)[i]? = some r)
    (hi' : (sort.Slice articles dateLess)[i + 1]? = some r') :
    (parseDate r'.Date).1.sec ≤ (parseDate r.Date).1.sec :=
  sorted_pair articles i (i + 1) r r' hi hi' (Nat.le_succ i)

/-- C1, evaluated at the failing input: page 1 returns the records "old" (dated
"05 Januari 2024") and "new" (dated "10 Februari 2024"), both dates parse without
error and the first is the earlier one; under appendAfterSortSchedule, in which the
collector appends the batch after the main goroutine has run sort.Slice, scrapeData
returns "old" before "new", oldest first. Under the orderly schedule it returns
"new" before "old". -/
theorem scrapeData_late_append_unsorted :
    twoDatesSite (pageUrl beritaUrl 1)
      = ([⟨"old", "05 Januari 2024", "", "", "", ""⟩,
          ⟨"new", "10 Februari 2024", "", "", "", ""⟩], none) ∧
    parseDate "05 Januari 2024" = (⟨63840009600⟩, none) ∧
    parseDate "10 Februari 2024" = (⟨63843120000⟩, none) ∧
    scrapeData beritaUrl twoDatesSite 0 appendAfterSortSchedule
      = some (⟨"200", "success", "0 ms",
          ⟨⟨[⟨"old", "05 Januari 2024", "", "", "", ""⟩,
            ⟨"new", "10 Februari 2024", "", "", "", ""⟩]⟩⟩⟩, none) ∧
    scrapeData beritaUrl twoDatesSite 0 (orderlySchedule beritaUrl twoDatesSite)
      = some (⟨"200", "success", "0 ms",
          ⟨⟨[⟨"new", "10 Februari 2024", "", "", "", ""⟩,
            ⟨"old", "05 Januari 2024", "", "", "", ""⟩]⟩⟩⟩, none) := by
  refine ⟨?_, ?_, ?_, ?_, ?_⟩
  · decide
  · decide
  · decide
  · decide
  · decide

/-- C2, as stated, fails: for the collected list [record dated "N/A", record dated
"31 Desember 0000"] the returned sequence keeps the rejected "N/A" record before
the record whose date parses (to a time before the zero Time). -/
theorem unparseable_last_counterexample :
    ¬ ∀ (elapsedMs : Nat) (articles : List NewsArticle) (i j : Nat) (r r' : NewsArticle),
      (finalize elapsedMs articles).1.Data.Dapo.Berita[i]? = some r →
      (finalize elapsedMs articles).1.Data.Dapo.Berita[j]? = some r' →
      (parseDate r.Date).2 = none → (parseDate r'.Date).2 ≠ none → i < j := by
  intro h
  have := h 0 [⟨"c", "N/A", "", "", "", ""⟩, ⟨"d", "31 Desember 0000", "", "", "", ""⟩] 1 0
    ⟨"d", "31 Desember 0000", "", "", "", ""⟩ ⟨"c", "N/A", "", "", "", ""⟩
    (by decide) (by decide) (by decide) (by decide)
  omega

/-- C2, amended: in the sequence sort.Slice makes of a collected list (lines
210-215), which is the sequence scrapeData returns whenever the collector holds no
unappended batch when the main goroutine reaches sort.Slice: every record whose Date
parses without error to a time after the zero Time (January 1, year 1, 00:00:00
UTC), as every valid date from 02 January 0001 on does, comes before every record
whose Date text parseDate rejects; every record whose Date parses to a time before
the zero Time, as every valid date of year 0000 does, comes after every rejected
record; and "01 Januari 0001" parses to the zero Time itself, the time every
rejected text is given. -/
theorem scrapeData_unparseable_after_positive :
    (∀ (articles : List NewsArticle) (i j : Nat) (r r' : NewsArticle),
      (sort.Slice articles dateLess)[i]? = some r →
      (sort.Slice articles dateLess)[j]? = some r' →
      (parseDate r.Date).2 = none → 0 < (parseDate r.Date).1.sec →
      (parseDate r'.Date).2 ≠ none → i < j) ∧
    (∀ (articles : List NewsArticle) (i j : Nat) (r r' : NewsArticle),
      (sort.Slice articles dateLess)[i]? = some r →
      (sort.Slice articles dateLess)[j]? = some r' →
      (parseDate r.Date).2 = none → (parseDate r.Date).1.sec < 0 →
      (parseDate r'.Date).2 ≠ none → j < i) ∧
    (∀ (pre post : List Char) (name : String) (m : Nat) (d1 d2 y1 y2 y3 y4 : Char),
      Noise pre → (name, m) ∈ monthTable →
      regexp.perlDigit d1 = true → regexp.perlDigit d2 = true →
      regexp.perlDigit y1 = true → regexp.perlDigit y2 = true →
      regexp.perlDigit y3 = true → regexp.perlDigit y4 = true →
      1 ≤ dayOf d1 d2 → dayOf d1 d2 ≤ monthLength (yearOf y1 y2 y3 y4) m →
      (parseDate (String.mk (pre ++ dateText d1 d2 name.toList y1 y2 y3 y4 ++ post))).2 = none ∧
      (yearOf y1 y2 y3 y4 = 0 →
        (parseDate (String.mk (pre ++ dateText d1 d2 name.toList y1 y2 y3 y4 ++ post))).1.sec
          < 0) ∧
      (1 ≤ yearOf y1 y2 y3 y4 → (2 ≤ yearOf y1 y2 y3 y4 ∨ 2 ≤ m ∨ 2 ≤ dayOf d1 d2) →
        0 < (parseDate
          (String.mk (pre ++ dateText d1 d2 name.toList y1 y2 y3 y4 ++ post))).1.sec)) ∧
    parseDate "01 Januari 0001" = (time.Time.zero, none) ∧
    (∀ s : String, (parseDate s).2 ≠ none → (parseDate s).1 = time.Time.zero) ∧
    (∀ (baseUrl : String) (scrapePage : String → PageResult) (elapsedMs : Nat)
      (before after : List Action) (s : State) (r : Response × Option GoError),
      run 50 50 baseUrl scrapePage elapsedMs before initState = some s →
      s.pc = .tail → s.received = none →
      scrapeData baseUrl scrapePage elapsedMs (before ++ after) = some r →
      r.1.Data.Dapo.Berita = sort.Slice s.articles dateLess) ∧
    sort.Slice [⟨"c", "N/A", "", "", "", ""⟩, ⟨"b", "10 Februari 2024", "", "", "", ""⟩,
        ⟨"d", "31 Desember 0000", "", "", "", ""⟩] dateLess
      = [⟨"b", "10 Februari 2024", "", "", "", ""⟩, ⟨"c", "N/A", "", "", "", ""⟩,
        ⟨"d", "31 Desember 0000", "", "", "", ""⟩] := by
  refine ⟨?_, ?_, ?_, by decide, parseDate_error_zero, ?_, by decide⟩
  · intro articles i j r r' hi hj _ hpos hr'
    by_contra hij
    have h := sorted_pair articles j i r' r hj hi (by omega)
    rw [parseDate_error_zero r'.Date hr'] at h
    have : time.Time.zero.sec = 0 := rfl
    omega
  · intro articles i j r r' hi hj _ hneg hr'
    by_contra hij
    have h := sorted_pair articles i j r r' hi hj (by omega)
    rw [parseDate_error_zero r'.Date hr'] at h
    have : time.Time.zero.sec = 0 := rfl
    omega
  · intro pre post name m d1 d2 y1 y2 y3 y4 hpre hm h1 h2 h3 h4 h5 h6 hd1 hd2
    have hrange := monthTable_range name m hm
    rw [parseDate_dateText_valid pre post name m d1 d2 y1 y2 y3 y4 hpre.no_digit hm h1 h2 h3
      h4 h5 h6 ⟨hd1, hd2⟩]
    refine ⟨rfl, ?_, ?_⟩
    · intro hy
      rw [hy] at hd2 ⊢
      exact midnightSeconds_year_zero m _ hrange.1 hrange.2 hd1 hd2
    · intro hy hlate
      exact midnightSeconds_pos _ m _ hy hlate
  · intro baseUrl scrapePage elapsedMs before after s r hrun hpc hidle h
    rw [scrapeData_settled_result baseUrl scrapePage elapsedMs before after s r hrun hpc hidle h,
      finalize_berita]

/-- C9: the date sort of scrapeData is idempotent: sorting its own output again with
sort.Slice and the same less closure gives the same sequence, position by position
(so also for records with equal or unparseable dates), and so does running lines
210-232 again on the returned Berita list. -/
theorem scrapeData_sort_idempotent (elapsedMs elapsedMs' : Nat) (articles : List NewsArticle) :
    sort.Slice (sort.Slice articles dateLess) dateLess = sort.Slice articles dateLess ∧
    (finalize elapsedMs' (finalize elapsedMs articles).1.Data.Dapo.Berita).1.Data.Dapo.Berita
      = (finalize elapsedMs articles).1.Data.Dapo.Berita := by
  have h := sort.Slice_idempotent dateKey dateLess dateLess_eq_key articles
  refine ⟨h, ?_⟩
  rw [finalize_berita, finalize_berita]
  exact h

/-- C4: on an empty collected list scrapeData's lines 210-232 give the no-data
result (Response "404", Message "No data found", empty Berita, nil error); the error
is nil for every collected list and the "200" variant is given only for a
non-empty one; under every schedule, whatever scrapeData returns has a nil error,
and is the no-data result when no page contributes a record; and when no page
contributes a record scrapeData does return it, under the orderly schedule. -/
theorem scrapeData_no_data_result :
    (∀ elapsedMs, finalize elapsedMs []
      = (⟨"404", "No data found", "", ⟨⟨[]⟩⟩⟩, none)) ∧
    (∀ elapsedMs articles, (finalize elapsedMs articles).2 = none) ∧
    (∀ elapsedMs articles, (finalize elapsedMs articles).1.Response = "200" → articles ≠ []) ∧
    (∀ baseUrl scrapePage elapsedMs schedule r,
      scrapeData baseUrl scrapePage elapsedMs schedule = some r → r.2 = none) ∧
    (∀ baseUrl (scrapePage : String → PageResult) elapsedMs schedule r,
      (∀ url, (scrapePage url).2 ≠ none ∨ (scrapePage url).1.length = 0) →
      scrapeData baseUrl scrapePage elapsedMs schedule = some r →
      r = (⟨"404", "No data found", "", ⟨⟨[]⟩⟩⟩, none)) ∧
    (∀ baseUrl (scrapePage : String → PageResult) elapsedMs,
      (∀ url, (scrapePage url).2 ≠ none ∨ (scrapePage url).1.length = 0) →
      scrapeData baseUrl scrapePage elapsedMs (orderlySchedule baseUrl scrapePage)
        = some (⟨"404", "No data found", "", ⟨⟨[]⟩⟩⟩, none)) := by
  refine ⟨finalize_nil, finalize_error, ?_, ?_, ?_, ?_⟩
  · intro elapsedMs articles h hnil
    rw [(finalize_response elapsedMs articles).1 hnil] at h
    revert h
    decide
  · intro baseUrl scrapePage elapsedMs schedule r h
    exact scrapeData_error_nil baseUrl scrapePage elapsedMs schedule r h
  · intro baseUrl scrapePage elapsedMs schedule r hq h
    exact scrapeData_quiet baseUrl scrapePage elapsedMs hq schedule r h
  · intro baseUrl scrapePage elapsedMs hq
    exact orderlySchedule_quiet baseUrl scrapePage elapsedMs hq

/-- C3, evaluated at the failing input: page 1 returns one article without error and
all other pages are empty, yet under lateAppendSchedule scrapeData returns the 404
response with no record: the article of page 1 is lost. Under promptAppendSchedule,
which differs only in that the collector appends before the main goroutine goes
on, the same pages give the "200" response with that article. -/
theorem scrapeData_loses_late_batch :
    onePageSite (pageUrl beritaUrl 1) = ([⟨"a", "10 Februari 2024", "", "", "", ""⟩], none) ∧
    scrapeData beritaUrl onePageSite 0 lateAppendSchedule
      = some (⟨"404", "No data found", "", ⟨⟨[]⟩⟩⟩, none) ∧
    scrapeData beritaUrl onePageSite 0 promptAppendSchedule
      = some (⟨"200", "success", "0 ms",
          ⟨⟨[⟨"a", "10 Februari 2024", "", "", "", ""⟩]⟩⟩⟩, none) := by
  refine ⟨?_, ?_, ?_⟩
  · decide
  · decide
  · decide

/-- C7, evaluated at the failing input: parseDate rejects "5 Januari 2024" (the
day has one digit, the layout "02" needs two), so the record has the same sort key
as the "N/A" record; when page 3 reaches the collector first, scrapeData returns
the "10 Februari 2024" record, then the "N/A" record, then the "5 Januari 2024"
record, while under the orderly schedule, where page 1 reaches it first, the
"5 Januari 2024" record comes before the "N/A" record. -/
theorem scenario_order_depends_on_arrival :
    parseDate "5 Januari 2024"
      = (time.Time.zero, some (.parseError "cannot parse day as 02")) ∧
    scrapeData beritaUrl scenarioSite 0 page3FirstSchedule
      = some (⟨"200", "success", "0 ms",
          ⟨⟨[⟨"feb", "10 Februari 2024", "", "", "", ""⟩, ⟨"na", "N/A", "", "", "", ""⟩,
            ⟨"jan", "5 Januari 2024", "", "", "", ""⟩]⟩⟩⟩, none) ∧
    scrapeData beritaUrl scenarioSite 0 (orderlySchedule beritaUrl scenarioSite)
      = some (⟨"200", "success", "0 ms",
          ⟨⟨[⟨"feb", "10 Februari 2024", "", "", "", ""⟩,
            ⟨"jan", "5 Januari 2024", "", "", "", ""⟩, ⟨"na", "N/A", "", "", "", ""⟩]⟩⟩⟩,
          none) := by
  refine ⟨?_, ?_, ?_⟩
  · decide
  · decide
  · decide

/-- C10: in every state scrapeData reaches, under any schedule of its goroutines,
at most concurrentLimit = 50 page tasks are in flight (started, permit not yet
released); when all 50 tasks have run wg.Done() no permit is left in sem; and no
permit is left when scrapeData has returned. -/
theorem scrapeData_permits_bounded (baseUrl : String) (scrapePage : String → PageResult)
    (elapsedMs : Nat) (s : State) (h : Reachable baseUrl scrapePage elapsedMs s) :
    inFlight s ≤ 50 ∧ s.sem ≤ 50 ∧
    ((∀ n, 1 ≤ n → n ≤ 50 → s.tasks n = .done) → s.sem = 0) ∧
    (s.pc = .returned → s.sem = 0) := by
  obtain ⟨schedule, hs⟩ := h
  have hinv := run_inv 50 50 baseUrl scrapePage elapsedMs schedule initState s
    (initState_inv 50 50) hs
  obtain ⟨h1, h2, h3⟩ := inFlight_and_permits 50 50 s hinv
  exact ⟨h1, hinv.sem_le, h2, h3⟩

theorem scrapeData_permits_bounded_witness :
    ∃ s, Reachable beritaUrl emptySite 0 s ∧
      (inFlight s ≤ 50 ∧ s.sem ≤ 50 ∧
        ((∀ n, 1 ≤ n → n ≤ 50 → s.tasks n = .done) → s.sem = 0) ∧
        (s.pc = .returned → s.sem = 0)) := by
  have h : (run 50 50 beritaUrl emptySite 0 sequentialSchedule initState).isSome = true := by
    decide
  obtain ⟨s, hs⟩ := Option.isSome_iff_exists.mp h
  exact ⟨s, ⟨sequentialSchedule, hs⟩,
    scrapeData_permits_bounded beritaUrl emptySite 0 s ⟨sequentialSchedule, hs⟩⟩

theorem midnightSeconds_example : midnightSeconds 2024 2 10 = 63843120000 := by
  unfold midnightSeconds
  rw [← daysToYear_eq]
  decide

/-- C6: for each of the 12 Indonesian month names of the table, with month number
m, every two-digit day dd and four-digit year yyyy that form a valid calendar date
(dd is at least 1 and at most the number of days of month m in year yyyy), and any
noise of white space, "|" and "&nbsp;" before and after, parseDate applied to
"dd month yyyy" returns a nil error and the time yyyy-m-dd 00:00:00 UTC: the instant
86400 seconds times the number of days, counted year by year and month by month,
from 1 January of year 1 to that day. -/
theorem parseDate_indonesian_months (pre post : List Char) (name : String) (m : Nat)
    (d1 d2 y1 y2 y3 y4 : Char) (hpre : Noise pre) (_hpost : Noise post)
    (hm : (name, m) ∈ monthTable)
    (h1 : regexp.perlDigit d1 = true) (h2 : regexp.perlDigit d2 = true)
    (h3 : regexp.perlDigit y1 = true) (h4 : regexp.perlDigit y2 = true)
    (h5 : regexp.perlDigit y3 = true) (h6 : regexp.perlDigit y4 = true)
    (hvalid : 1 ≤ dayOf d1 d2 ∧ dayOf d1 d2 ≤ monthLength (yearOf y1 y2 y3 y4) m) :
    parseDate (String.mk (pre ++ dateText d1 d2 name.toList y1 y2 y3 y4 ++ post))
      = (⟨midnightSeconds (yearOf y1 y2 y3 y4) m (dayOf d1 d2)⟩, none) := by
  exact parseDate_dateText_valid pre post name m d1 d2 y1 y2 y3 y4 hpre.no_digit hm h1 h2 h3
    h4 h5 h6 hvalid

theorem parseDate_indonesian_months_witness :
    Noise "| ".toList ∧ Noise " &nbsp;".toList ∧ ("Februari", 2) ∈ monthTable ∧
    regexp.perlDigit '1' = true ∧ regexp.perlDigit '0' = true ∧ regexp.perlDigit '2' = true ∧
    regexp.perlDigit '4' = true ∧
    (1 ≤ dayOf '1' '0' ∧ dayOf '1' '0' ≤ monthLength (yearOf '2' '0' '2' '4') 2) ∧
    parseDate (String.mk ("| ".toList ++ dateText '1' '0' "Februari".toList '2' '0' '2' '4'
        ++ " &nbsp;".toList))
      = (⟨midnightSeconds (yearOf '2' '0' '2' '4') 2 (dayOf '1' '0')⟩, none) ∧
    midnightSeconds (yearOf '2' '0' '2' '4') 2 (dayOf '1' '0') = 63843120000 ∧
    parseDate "| 10 Februari 2024 &nbsp;" = (⟨63843120000⟩, none) :=
  ⟨Noise.bar _ (Noise.space ' ' _ (by decide) Noise.nil),
    Noise.space ' ' _ (by decide) (Noise.nbsp _ Noise.nil), by decide, by decide, by decide,
    by decide, by decide, by decide,
    parseDate_indonesian_months "| ".toList " &nbsp;".toList "Februari" 2 '1' '0' '2' '0' '2' '4'
      (Noise.bar _ (Noise.space ' ' _ (by decide) Noise.nil))
      (Noise.space ' ' _ (by decide) (Noise.nbsp _ Noise.nil)) (by decide) (by decide)
      (by decide) (by decide) (by decide) (by decide) (by decide) (by decide),
    midnightSeconds_example, by decide⟩

theorem matchHere_nil : regexp.matchHere dateRe [] = none := by decide

theorem matchCount_zero : ∀ (s : List Char), matchCount dateRe s 0 = 0 →
    regexp.FindStringSubmatch dateRe s = [] := by
  intro s
  induction s with
  | nil =>
    intro _
    unfold regexp.FindStringSubmatch
    rw [matchHere_nil]
  | cons c cs ih =>
    intro h
    unfold matchCount at h
    unfold regexp.FindStringSubmatch
    split at h
    · omega
    · exact ih h

theorem parseDate_no_match (s : String)
    (h : regexp.FindStringSubmatch dateRe (cleanDate s.toList) = []) :
    parseDate s = (time.Time.zero, some (.errorf "invalid date format")) := by
  unfold parseDate
  dsimp only
  rw [h, if_pos (by simp)]

/-- C8, as stated, fails: in "10 Januari 2024 11 Februari 2024" the pattern matches
twice, and parseDate returns 10 January 2024 with a nil error. -/
theorem parseDate_two_matches_counterexample :
    ¬ ∀ s : String, matchCount dateRe (cleanDate s.toList) 0 ≠ 1 → (parseDate s).2 ≠ none := by
  intro h
  exact h "10 Januari 2024 11 Februari 2024" (by decide) (by decide)

/-- C8, amended: when the pattern matches zero times in the cleaned text, parseDate
returns the zero Time and a non-nil error; a further match does not make it fail:
whatever text follows "10 Januari 2024", parseDate returns 10 January 2024 and a
nil error, as for "10 Januari 2024 11 Februari 2024". -/
theorem parseDate_match_count :
    (∀ s : String, matchCount dateRe (cleanDate s.toList) 0 = 0 →
      (parseDate s).2 ≠ none ∧ (parseDate s).1 = time.Time.zero) ∧
    (∀ rest : String, parseDate ("10 Januari 2024" ++ rest) = (time.Date 2024 1 10, none)) ∧
    matchCount dateRe (cleanDate "10 Januari 2024 11 Februari 2024".toList) 0 = 2 := by
  refine ⟨?_, ?_, by decide⟩
  · intro s h
    rw [parseDate_no_match s (matchCount_zero _ h)]
    exact ⟨by simp, rfl⟩
  · intro rest
    have h := parseDate_dateText [] rest.toList "Januari" 1 '1' '0' '2' '0' '2' '4'
      (by intro x hx; cases hx) (by decide) (by decide) (by decide) (by decide) (by decide)
      (by decide) (by decide)
    rw [if_neg (by decide)] at h
    have e : String.mk ([] ++ dateText '1' '0' "Januari".toList '2' '0' '2' '4' ++ rest.toList)
        = "10 Januari 2024" ++ rest := by
      apply String.ext
      simp [dateText]
    rw [e] at h
    rw [h]
    decide

theorem parseDate_of_match (s : String) (w d m y : List Char)
    (h : regexp.FindStringSubmatch dateRe (cleanDate s.toList) = [w, d, m, y]) :
    parseDate s = time.Parse (d ++ " ".toList ++ m ++ " ".toList ++ y) := by
  unfold parseDate
  dsimp only
  rw [h, if_neg (by simp)]
  rfl

/-- C5, as stated, fails: the text "10 Ma|y 2024" has no substring of the form
'1-2 digits, white space, letters, white space, 4 digits', and parseDate returns a
nil error for it (the "|" is removed before the pattern is applied). -/
theorem parseDate_malformed_counterexample :
    ¬ ∀ s : String, regexp.FindStringSubmatch dateRe s.toList = [] →
      (parseDate s).2 ≠ none := by
  intro h
  exact h "10 Ma|y 2024" (by decide) (by decide)

/-- C5, amended: parseDate returns a result for every input; every non-nil error
comes with the zero Time; the error is non-nil when the text left after the
trimming and the replacements has no match of the pattern, when the month of the
leftmost match is not an English month name (in any letter case), and when its day
has two digits and is not a day of that month and year; so for "", "N/A",
"10 Foo 2024" and "31 Februari 2024". -/
theorem parseDate_malformed :
    (∀ s : String, ∃ t e, parseDate s = (t, e)) ∧
    (∀ s : String, (parseDate s).2 ≠ none → (parseDate s).1 = time.Time.zero) ∧
    (∀ s : String, regexp.FindStringSubmatch dateRe (cleanDate s.toList) = [] →
      (parseDate s).2 ≠ none) ∧
    (∀ (s : String) (w d m y : List Char),
      regexp.FindStringSubmatch dateRe (cleanDate s.toList) = [w, d, m, y] →
      ((∀ k, k < 12 → equalFold m (time.longMonthNames.getD k "").toList = false) ∨
       (d.length = 2 ∧
        ∀ k, k < 12 → equalFold m (time.longMonthNames.getD k "").toList = true →
          ¬ (1 ≤ numOf d ∧ numOf d ≤ monthLength (numOf y) (k + 1)))) →
      (parseDate s).2 ≠ none) ∧
    parseDate "" = (time.Time.zero, some (.errorf "invalid date format")) ∧
    parseDate "N/A" = (time.Time.zero, some (.errorf "invalid date format")) ∧
    parseDate "10 Foo 2024"
      = (time.Time.zero, some (.parseError "cannot parse month as January")) ∧
    parseDate "31 Februari 2024" = (time.Time.zero, some (.parseError "day out of range")) := by
  refine ⟨fun s => ⟨(parseDate s).1, (parseDate s).2, Prod.mk.eta.symm⟩, parseDate_error_zero,
    ?_, ?_, by decide, by decide, by decide, by decide⟩
  · intro s h
    rw [parseDate_no_match s h]
    simp
  · intro s w d m y h hbad hok
    rcases FindStringSubmatch_cases (cleanDate s.toList) with hnil | ⟨w', d', m', y', hf, hs⟩
    · rw [hnil] at h
      cases h
    · rw [hf] at h
      simp only [List.cons.injEq, and_true] at h
      obtain ⟨_, rfl, rfl, rfl⟩ := h
      rw [parseDate_of_match s w' d' m' y' hf] at hok
      obtain ⟨_, k, hk, he, hd1, hd2, _⟩ := Parse_shape d' m' y' hs hok
      rcases hbad with hno | ⟨_, hday⟩
      · rw [hno k hk] at he
        cases he
      · refine hday k hk he ⟨hd1, ?_⟩
        rw [monthLength_daysIn _ (k + 1) (by omega) (by omega)]
        exact hd2

end Datapena
